import Mathlib

/-!
Verification of the graph library (src/graphs/graph.py and
src/graphs/weighted_graph.py) against its natural-language specification.

The Python code is shallowly embedded:
* a Python dict is an insertion-ordered association list with unique keys
  (`alistLookup`, `alistSet`, `alistErase` mirror subscripting, item
  assignment and `del`);
* a Python exception is an `Except PyErr` result; loops that the source
  performs with `while`/recursion are translated with an explicit fuel
  parameter, and `.outOfFuel` is an artefact of the embedding that is shown
  never to occur under the stated fuel bounds;
* vertex identifiers (strings in the source) become natural numbers —
  the source only ever compares them for equality and hashes them;
* Python numbers, which the weighted-graph code mixes with
  `float('inf')`, become `PyNum` (an integer or the single value `inf`)
  with Python's comparison and addition on that fragment.
-/

namespace GraphADT

/-- Vertex identifier (an opaque comparable token in the source). -/
abbrev VId := Nat

/-- The Python exceptions (and the embedding artefact `outOfFuel`) that the
translated code can surface. -/
inductive PyErr where
  | keyError
  | valueError (msg : String)
  | indexError
  | nameError (msg : String)
  | attributeError
  | outOfFuel
deriving DecidableEq, Repr

/-- Dict lookup `d[k]` as an option (first matching key). -/
def alistLookup {α : Type} : List (VId × α) → VId → Option α
  | [], _ => none
  | (k, v) :: rest, key => if k = key then some v else alistLookup rest key

/-- The keys of a dict, in insertion/iteration order. -/
def alistKeys {α : Type} (l : List (VId × α)) : List VId := l.map Prod.fst

/-- Dict item assignment `d[k] = v`: replaces in place if the key exists
(keeping its position, as Python dicts do), appends otherwise. -/
def alistSet {α : Type} : List (VId × α) → VId → α → List (VId × α)
  | [], key, v => [(key, v)]
  | (k, w) :: rest, key, v =>
      if k = key then (key, v) :: rest else (k, w) :: alistSet rest key v

/-- Dict deletion `del d[k]`; every call site in the source deletes a key
that is present, so the absent-key case (identity here, `KeyError` in
Python) is never exercised. -/
def alistErase {α : Type} : List (VId × α) → VId → List (VId × α)
  | [], _ => []
  | (k, w) :: rest, key => if k = key then rest else (k, w) :: alistErase rest key

/-- Python `list.remove(x)`: removes the first occurrence, raises
`ValueError` if `x` is absent. -/
def pyRemove : List VId → VId → Except PyErr (List VId)
  | [], _ => .error (.valueError "list.remove(x): x not in list")
  | a :: rest, x =>
      if a = x then .ok rest
      else (pyRemove rest x).map (fun l => a :: l)

/-- A Python number as used by the weighted graph: an exact integer or
`float('inf')` (`WeightedGraph.INFINITY`). -/
inductive PyNum where
  | fin (n : Int)
  | inf
deriving DecidableEq, Repr

/-- Python `<` on this numeric fragment: `inf` is greater than every
integer and not less than itself. -/
def PyNum.lt : PyNum → PyNum → Bool
  | .fin a, .fin b => a < b
  | .fin _, .inf => true
  | .inf, _ => false

/-- Python `+` on this numeric fragment: adding `inf` gives `inf`. -/
def PyNum.add : PyNum → PyNum → PyNum
  | .fin a, .fin b => .fin (a + b)
  | _, _ => .inf

/-!
## WeightedGraph (src/graphs/weighted_graph.py)

A `WeightedVertex` owns `neighbors_dict : id -> (obj, weight)`; the stored
object is only ever consulted through `.get_id()` by the algorithms, so the
embedding keeps `id -> weight`.  The graph's `vertex_dict : id -> obj`
becomes `id -> neighbors_dict`.
-/

/-- The state of a `WeightedGraph`: `vertex_dict` maps each vertex id to
its vertex's `neighbors_dict` (neighbor id to edge weight), both in
insertion order; `is_directed` is the construction flag. -/
structure WeightedGraph where
  vertex_dict : List (VId × List (VId × Int))
  is_directed : Bool
deriving DecidableEq, Repr

namespace WeightedGraph

/-- `WeightedVertex.add_neighbor`: no-op if the id is already a neighbor
(first weight wins), insert otherwise. -/
def add_neighbor (neighbors_dict : List (VId × Int)) (nid : VId) (weight : Int) :
    List (VId × Int) :=
  if (alistLookup neighbors_dict nid).isSome then neighbors_dict
  else neighbors_dict ++ [(nid, weight)]

/-- `WeightedGraph.add_vertex`: `false` (graph unchanged) if the id is
already present, otherwise insert a fresh vertex and return `true`. -/
def add_vertex (g : WeightedGraph) (vertex_id : VId) : Bool × WeightedGraph :=
  if (alistLookup g.vertex_dict vertex_id).isSome then (false, g)
  else (true, { g with vertex_dict := g.vertex_dict ++ [(vertex_id, [])] })

/-- Apply `f` to the value stored at `key` (used for the in-place mutation
of a vertex object reached through the dict). -/
def alistModify {α : Type} (l : List (VId × α)) (key : VId) (f : α → α) : List (VId × α) :=
  l.map (fun p => if p.1 = key then (p.1, f p.2) else p)

/-- `WeightedGraph.add_edge`: returns `false` and leaves the graph intact
when an endpoint is missing; otherwise adds `id2` to `id1`'s neighbors and,
for undirected graphs, also `id1` to `id2`'s neighbors (the second insert
sees the first one's effect, which matters for self-loops).  The Python
method returns `False` exactly in the failure case (and `None` otherwise);
the boolean in this result records success instead. -/
def add_edge (g : WeightedGraph) (vertex_id1 vertex_id2 : VId) (weight : Int) :
    Bool × WeightedGraph :=
  if (alistLookup g.vertex_dict vertex_id1).isSome &&
     (alistLookup g.vertex_dict vertex_id2).isSome then
    let d1 := alistModify g.vertex_dict vertex_id1
      (fun n => add_neighbor n vertex_id2 weight)
    if g.is_directed then (true, { g with vertex_dict := d1 })
    else
      let d2 := alistModify d1 vertex_id2 (fun n => add_neighbor n vertex_id1 weight)
      (true, { g with vertex_dict := d2 })
  else (false, g)

/-- The scan inside `get_smallest_vetext`: walk the remaining keys,
keeping the key whose stored value is strictly smallest so far. -/
def smallestScan (dict : List (VId × PyNum)) : List VId → VId → VId
  | [], best => best
  | k :: rest, best =>
      let cur := (alistLookup dict k).getD .inf
      let b := (alistLookup dict best).getD .inf
      smallestScan dict rest (if cur.lt b then k else best)

/-- `WeightedGraph.get_smallest_vetext` (sic): seed with the first key
(`IndexError` on an empty dict), then scan all keys for a strictly smaller
value. -/
def get_smallest_vetext (vertex_to : List (VId × PyNum)) : Except PyErr VId :=
  match alistKeys vertex_to with
  | [] => .error .indexError
  | k0 :: _ => .ok (smallestScan vertex_to (alistKeys vertex_to) k0)

/-- The neighbor loop of Dijkstra's `find_shortest_path`: for each stored
neighbor `(n, w)`, if `n` is still an un-extracted key and the raw edge
weight `w` is below `n`'s current distance, overwrite that distance with
`w + distance(current)` — looked up afresh each step, as the source does. -/
def dijkstraRelax (cur : VId) :
    List (VId × PyNum) → List (VId × Int) → List (VId × PyNum)
  | v2d, [] => v2d
  | v2d, (n, w) :: rest =>
      let v2d' :=
        match alistLookup v2d n with
        | some dn =>
            if (PyNum.fin w).lt dn then
              alistSet v2d n ((PyNum.fin w).add ((alistLookup v2d cur).getD .inf))
            else v2d
        | none => v2d
      dijkstraRelax cur v2d' rest

/-- The `while vertex_to_distance:` loop of Dijkstra's
`find_shortest_path`.  Returns `none` when the dict empties without the
target being extracted (the Python method falls off the end and returns
`None`). -/
def dijkstraLoop (g : WeightedGraph) (target_id : VId) :
    Nat → List (VId × PyNum) → Except PyErr (Option PyNum)
  | 0, _ => .error .outOfFuel
  | fuel + 1, v2d =>
      match v2d with
      | [] => .ok none
      | _ :: _ => do
          let smallest ← get_smallest_vetext v2d
          if smallest = target_id then
            .ok (some ((alistLookup v2d target_id).getD .inf))
          else
            match alistLookup g.vertex_dict smallest with
            | none => .error .keyError
            | some nbrs =>
                dijkstraLoop g target_id fuel
                  (alistErase (dijkstraRelax smallest v2d nbrs) smallest)

/-- `WeightedGraph.find_shortest_path` (Dijkstra): initialize every vertex
distance to `INFINITY`, set the start distance to `0` (inserting the start
id if it is not a vertex, as Python item assignment does), then run the
extraction loop.  Fuel: each iteration deletes one key, so
`length + 2` always suffices. -/
def find_shortest_path (g : WeightedGraph) (start_id target_id : VId) :
    Except PyErr (Option PyNum) :=
  let v2d := alistSet
    (g.vertex_dict.map (fun p => (p.1, PyNum.inf))) start_id (.fin 0)
  dijkstraLoop g target_id (v2d.length + 1) v2d

/-- The neighbor loop of Prim's algorithm: lower a neighbor's key weight to
the raw edge weight when that is an improvement. -/
def primRelax : List (VId × PyNum) → List (VId × Int) → List (VId × PyNum)
  | v2w, [] => v2w
  | v2w, (n, w) :: rest =>
      let v2w' :=
        match alistLookup v2w n with
        | some wn => if (PyNum.fin w).lt wn then alistSet v2w n (.fin w) else v2w
        | none => v2w
      primRelax v2w' rest

/-- The `while vertex_to_weight:` loop of `minimum_spanning_tree_prim`:
extract the minimum-weight vertex, add its weight to the total, delete it,
then relax its stored neighbors. -/
def primLoop (g : WeightedGraph) :
    Nat → List (VId × PyNum) → PyNum → Except PyErr PyNum
  | 0, _, _ => .error .outOfFuel
  | fuel + 1, v2w, total =>
      match v2w with
      | [] => .ok total
      | _ :: _ => do
          let smallest ← get_smallest_vetext v2w
          let total' := total.add ((alistLookup v2w smallest).getD .inf)
          let v2w' := alistErase v2w smallest
          match alistLookup g.vertex_dict smallest with
          | none => .error .keyError
          | some nbrs => primLoop g fuel (primRelax v2w' nbrs) total'

/-- `WeightedGraph.minimum_spanning_tree_prim`: weight map all-`INFINITY`
except the first vertex (0); `IndexError` on an empty graph (subscripting
`get_vertices()[0]`).  Fuel: one key is deleted per iteration. -/
def minimum_spanning_tree_prim (g : WeightedGraph) : Except PyErr PyNum :=
  match alistKeys g.vertex_dict with
  | [] => .error .indexError
  | k0 :: _ =>
      let v2w := alistSet
        (g.vertex_dict.map (fun p => (p.1, PyNum.inf))) k0 (.fin 0)
      primLoop g (v2w.length + 1) v2w (.fin 0)

/-- An edge record `(start_id, dest_id, weight)` as collected by Kruskal. -/
abbrev Edge := VId × VId × Int

/-- Edge collection in `minimum_spanning_tree_kruskal`: every stored
neighbor entry of every vertex, in vertex then neighbor insertion order. -/
def collectEdges : List (VId × List (VId × Int)) → List Edge
  | [] => []
  | (v, nbrs) :: rest => nbrs.map (fun p => (v, p.1, p.2)) ++ collectEdges rest

/-- Insert an edge into a weight-sorted list after all entries of weight
less than or equal to its own (together with `sortEdges` this is a stable
sort, like Python's `list.sort(key=...)`). -/
def sortInsert (e : Edge) : List Edge → List Edge
  | [] => [e]
  | f :: rest => if f.2.2 ≤ e.2.2 then f :: sortInsert e rest else e :: f :: rest

/-- `edges.sort(key=lambda edge: edge[2])`: stable sort by weight. -/
def sortEdges (l : List Edge) : List Edge :=
  l.foldl (fun acc e => sortInsert e acc) []

/-- `WeightedGraph.find`: follow parent pointers to a fixed point.  The
recursion is fuelled; under the acyclicity that `union` maintains, fuel
`parent_map.length + 1` suffices. -/
def findRoot (parent_map : List (VId × VId)) : Nat → VId → Except PyErr VId
  | 0, _ => .error .outOfFuel
  | fuel + 1, vertex_id =>
      match alistLookup parent_map vertex_id with
      | none => .error .keyError
      | some p => if p = vertex_id then .ok vertex_id else findRoot parent_map fuel p

/-- `WeightedGraph.union`: re-find both roots and point vertex 1's root at
vertex 2's root. -/
def unionRoots (parent_map : List (VId × VId)) (fuel : Nat) (vertex_id1 vertex_id2 : VId) :
    Except PyErr (List (VId × VId)) := do
  let r1 ← findRoot parent_map fuel vertex_id1
  let r2 ← findRoot parent_map fuel vertex_id2
  .ok (alistSet parent_map r1 r2)

/-- The `while len(spanning_tree) < len(self.vertex_dict)-1:` loop of
Kruskal's algorithm.  `edges.pop(0)` on an exhausted list is an
`IndexError` (the disconnected-graph hang/failure the spec flags);
`len(...)-1` is Python integer arithmetic, but on an empty graph both it
and the truncated `Nat` subtraction make the guard false, so they agree. -/
def kruskalLoop (g : WeightedGraph) :
    Nat → List Edge → List (VId × VId) → List Edge → Except PyErr (List Edge)
  | 0, _, _, _ => .error .outOfFuel
  | fuel + 1, edges, parent_map, spanning_tree =>
      if spanning_tree.length < g.vertex_dict.length - 1 then
        match edges with
        | [] => .error .indexError
        | e :: rest => do
            let r1 ← findRoot parent_map (parent_map.length + 1) e.1
            let r2 ← findRoot parent_map (parent_map.length + 1) e.2.1
            if r1 ≠ r2 then
              let pm ← unionRoots parent_map (parent_map.length + 1) e.1 e.2.1
              kruskalLoop g fuel rest pm (spanning_tree ++ [e])
            else kruskalLoop g fuel rest parent_map spanning_tree
      else .ok spanning_tree

/-- `WeightedGraph.minimum_spanning_tree_kruskal`: collect and
weight-sort all edge records, start union-find with every vertex its own
parent, then greedily accept edges joining distinct components. -/
def minimum_spanning_tree_kruskal (g : WeightedGraph) : Except PyErr (List Edge) :=
  let edges := sortEdges (collectEdges g.vertex_dict)
  let parent_map := g.vertex_dict.map (fun p => (p.1, p.1))
  kruskalLoop g (edges.length + 1) edges parent_map []

/-- The inner `min`-update of the Floyd-Warshall triple loop,
`dist[i][j] = min(dist[i][j], dist[i][k] + dist[k][j])`, on a
dict-of-dicts. -/
def fwUpdate (dist : List (VId × List (VId × PyNum))) (k i j : VId) :
    List (VId × List (VId × PyNum)) :=
  let dij := ((alistLookup dist i).bind (fun r => alistLookup r j)).getD .inf
  let dik := ((alistLookup dist i).bind (fun r => alistLookup r k)).getD .inf
  let dkj := ((alistLookup dist k).bind (fun r => alistLookup r j)).getD .inf
  let m := if (dik.add dkj).lt dij then dik.add dkj else dij
  alistModify dist i (fun row => alistSet row j m)

/-- The triple `for k / for i / for j` loop over the keys of `dist`. -/
def fwTriple (ks : List VId) (dist : List (VId × List (VId × PyNum))) :
    List (VId × List (VId × PyNum)) :=
  ks.foldl (fun d k =>
    ks.foldl (fun d i =>
      ks.foldl (fun d j => fwUpdate d k i j) d) d) dist

/-- The initial dict comprehension of `floyd_warshall` (line 237):

    dist = {vertex.id: {vertext.id: self.INFINITY for vertex in self.vertex_dict}
            for vertext in self.vertex_dict}

The outer comprehension's loop variable is `vertext`, but its key
expression reads `vertex`, a name bound only inside the *inner*
comprehension's own scope; at the first outer iteration the key expression
is evaluated and the unbound name raises `NameError` (on an empty dict no
iteration happens and the comprehension yields `{}`). -/
def fwInit (ks : List VId) : Except PyErr (List (VId × List (VId × PyNum))) :=
  match ks with
  | [] => .ok []
  | _ :: _ => .error (.nameError "name 'vertex' is not defined")

/-- `WeightedGraph.floyd_warshall`: build the initial distance dict (see
`fwInit`), then run the triple relaxation loop over its keys. -/
def floyd_warshall (g : WeightedGraph) :
    Except PyErr (List (VId × List (VId × PyNum))) := do
  let dist ← fwInit (alistKeys g.vertex_dict)
  .ok (fwTriple (alistKeys dist) dist)

end WeightedGraph

/-!
## Unweighted Graph (src/graphs/graph.py)

`vertex_dict` maps each vertex id to its list of neighbor ids (insertion
order, duplicates kept, targets unvalidated).  A Python `set` of ids is
embedded as a duplicate-free list in insertion order (`setAdd`): only
membership and removal are used.
-/

/-- The state of an unweighted `Graph`. -/
structure Graph where
  vertex_dict : List (VId × List VId)
  is_directed : Bool
deriving DecidableEq, Repr

/-- Python `set.add`: no-op when the element is present. -/
def setAdd (s : List VId) (x : VId) : List VId :=
  if x ∈ s then s else s ++ [x]

/-- Python `set.remove`: `KeyError` when the element is absent. -/
def setRemove : List VId → VId → Except PyErr (List VId)
  | [], _ => .error .keyError
  | a :: rest, x =>
      if a = x then .ok rest
      else (setRemove rest x).map (fun l => a :: l)

namespace Graph

/-- `Graph.add_vertex`: item assignment `vertex_dict[id] = []` — inserts,
or resets the neighbor list of an existing vertex. -/
def add_vertex (g : Graph) (vertex_id : VId) : Graph :=
  { g with vertex_dict := alistSet g.vertex_dict vertex_id [] }

/-- `Graph.add_edge`: append `end_id` to `start_id`'s stored list
(`KeyError` if `start_id` is absent; `end_id` is never validated). -/
def add_edge (g : Graph) (start_id end_id : VId) : Except PyErr Graph :=
  match alistLookup g.vertex_dict start_id with
  | none => .error .keyError
  | some l =>
      .ok { g with vertex_dict := alistSet g.vertex_dict start_id (l ++ [end_id]) }

/-- The undirected scan of `get_neighbors`: walk every vertex in
iteration order, collecting those whose stored list contains `start_id`. -/
def revScan (start_id : VId) : List (VId × List VId) → List VId → List VId
  | [], acc => acc
  | (v, adj) :: rest, acc =>
      revScan start_id rest (if start_id ∈ adj then acc ++ [v] else acc)

/-- `Graph.get_neighbors`: directed graphs return the stored list itself;
undirected graphs return the reverse-implied neighbors (vertices whose
stored list contains `start_id`) followed by `start_id`'s own stored list.
Subscripting `vertex_dict[start_id]` raises `KeyError` when absent. -/
def get_neighbors (g : Graph) (start_id : VId) : Except PyErr (List VId) :=
  if g.is_directed then
    match alistLookup g.vertex_dict start_id with
    | some l => .ok l
    | none => .error .keyError
  else
    let neighbors := revScan start_id g.vertex_dict []
    match alistLookup g.vertex_dict start_id with
    | some l => .ok (neighbors ++ l)
    | none => .error .keyError

/-- Result of `bfs_traversal`: the sequence of vertices printed
("Processing vertex ..."), plus the exception that aborted the walk, if
any (the Python method itself returns `None`). -/
structure BfsOut where
  visits : List VId
  err : Option PyErr
deriving DecidableEq, Repr

/-- The neighbor loop of `bfs_traversal`: neighbors not yet seen are added
to the seen set and the queue. -/
def bfsEnqueue : List VId → List VId → List VId → List VId × List VId
  | seen, queue, [] => (seen, queue)
  | seen, queue, n :: rest =>
      if n ∈ seen then bfsEnqueue seen queue rest
      else bfsEnqueue (seen ++ [n]) (queue ++ [n]) rest

/-- The `while queue:` loop of `bfs_traversal`: pop the front, print it,
enqueue its unseen neighbors. -/
def bfsLoop (g : Graph) : Nat → List VId → List VId → List VId → BfsOut
  | 0, _, _, out => ⟨out, some .outOfFuel⟩
  | fuel + 1, seen, queue, out =>
      match queue with
      | [] => ⟨out, none⟩
      | cur :: qrest =>
          let out' := out ++ [cur]
          match g.get_neighbors cur with
          | .error e => ⟨out', some e⟩
          | .ok nbrs =>
              let sq := bfsEnqueue seen qrest nbrs
              bfsLoop g fuel sq.1 sq.2 out'

/-- Fuel that always outlasts a seen-set-guarded BFS: every enqueued id is
the start vertex or some stored adjacency entry, and each is enqueued at
most once. -/
def bfsFuel (g : Graph) : Nat :=
  g.vertex_dict.length + (g.vertex_dict.map (fun p => p.2.length)).sum + 2

/-- `Graph.bfs_traversal`: `KeyError` if the start vertex is absent,
otherwise BFS from it, recording the processing order. -/
def bfs_traversal (g : Graph) (start_id : VId) : BfsOut :=
  if start_id ∈ alistKeys g.vertex_dict then
    bfsLoop g (bfsFuel g) [start_id] [start_id] []
  else ⟨[], some .keyError⟩

/-- The neighbor loop of the unweighted `find_shortest_path`: each
undiscovered neighbor records a copy of the current vertex's path extended
by itself, and is enqueued. -/
def spDiscover (vertex : VId) : List (VId × List VId) → List VId → List VId →
    Except PyErr (List (VId × List VId) × List VId)
  | pd, queue, [] => .ok (pd, queue)
  | pd, queue, n :: rest =>
      if n ∈ alistKeys pd then spDiscover vertex pd queue rest
      else
        match alistLookup pd vertex with
        | none => .error .keyError
        | some pv => spDiscover vertex (alistSet pd n (pv ++ [n])) (queue ++ [n]) rest

/-- The `while len(queue) > 0:` loop of the unweighted
`find_shortest_path`; stops (keeping the dict) once the target is
popped. -/
def spLoop (g : Graph) (target_id : VId) :
    Nat → List (VId × List VId) → List VId → Except PyErr (List (VId × List VId))
  | 0, _, _ => .error .outOfFuel
  | fuel + 1, pd, queue =>
      match queue with
      | [] => .ok pd
      | v :: qrest =>
          if v = target_id then .ok pd
          else do
            let nbrs ← g.get_neighbors v
            let pq ← spDiscover v pd qrest nbrs
            spLoop g target_id fuel pq.1 pq.2

/-- `Graph.find_shortest_path` (unweighted): BFS with a path dictionary;
the final `path_dict[target_id]` raises `KeyError` when the target was
never discovered. -/
def find_shortest_path (g : Graph) (start_id target_id : VId) :
    Except PyErr (List VId) :=
  if start_id ∈ alistKeys g.vertex_dict then do
    let pd ← spLoop g target_id (bfsFuel g) [(start_id, [start_id])] [start_id]
    match alistLookup pd target_id with
    | some p => .ok p
    | none => .error .keyError
  else .error .keyError

/-- The neighbor loop of `find_connected_components`: a newly seen
neighbor is added to the seen set, removed from the global not-visited
pool (`list.remove` — `ValueError` if it is not there), and enqueued. -/
def ccDiscover : List VId → List VId → List VId → List VId →
    Except PyErr (List VId × List VId × List VId)
  | seen, nv, queue, [] => .ok (seen, nv, queue)
  | seen, nv, queue, n :: rest =>
      if n ∈ seen then ccDiscover seen nv queue rest
      else do
        let nv' ← pyRemove nv n
        ccDiscover (seen ++ [n]) nv' (queue ++ [n]) rest

/-- The inner BFS of `find_connected_components`; returns the component's
seen set (in discovery order — the source materializes `list(seen)`) and
the shrunken not-visited pool. -/
def ccBfs (g : Graph) : Nat → List VId → List VId → List VId →
    Except PyErr (List VId × List VId)
  | 0, _, _, _ => .error .outOfFuel
  | fuel + 1, seen, nv, queue =>
      match queue with
      | [] => .ok (seen, nv)
      | cur :: qrest => do
          let nbrs ← g.get_neighbors cur
          let snq ← ccDiscover seen nv qrest nbrs
          ccBfs g fuel snq.1 snq.2.1 snq.2.2

/-- The `while not_visited:` loop of `find_connected_components`:
`list.pop()` takes the *last* remaining vertex as the next start. -/
def ccOuter (g : Graph) : Nat → List VId → List (List VId) →
    Except PyErr (List (List VId))
  | 0, _, _ => .error .outOfFuel
  | fuel + 1, nv, components =>
      match nv.getLast? with
      | none => .ok components
      | some start_id => do
          let sn ← ccBfs g (g.vertex_dict.length + 2) [start_id] nv.dropLast [start_id]
          ccOuter g fuel sn.2 (components ++ [sn.1])

/-- `Graph.find_connected_components`. -/
def find_connected_components (g : Graph) : Except PyErr (List (List VId)) :=
  ccOuter g (g.vertex_dict.length + 1) (alistKeys g.vertex_dict) []

/-- The neighbor loop of `is_bipartite`: color unseen neighbors with the
current vertex's opposite color; an already-colored neighbor sharing the
current color returns `False` for the whole method (`none` here). -/
def bipDiscover (vertex : VId) : List (VId × Bool) → List VId → List VId →
    Except PyErr (Option (List (VId × Bool) × List VId))
  | colors, queue, [] => .ok (some (colors, queue))
  | colors, queue, n :: rest =>
      match alistLookup colors n with
      | none =>
          match alistLookup colors vertex with
          | none => .error .keyError
          | some cv => bipDiscover vertex (alistSet colors n (!cv)) (queue ++ [n]) rest
      | some cn =>
          match alistLookup colors vertex with
          | none => .error .keyError
          | some cv =>
              if cn = cv then .ok none else bipDiscover vertex colors queue rest

/-- The `while queue:` loop of `is_bipartite`. -/
def bipLoop (g : Graph) : Nat → List (VId × Bool) → List VId → Except PyErr Bool
  | 0, _, _ => .error .outOfFuel
  | fuel + 1, colors, queue =>
      match queue with
      | [] => .ok true
      | v :: qrest => do
          let nbrs ← g.get_neighbors v
          match ← bipDiscover v colors qrest nbrs with
          | none => .ok false
          | some cq => bipLoop g fuel cq.1 cq.2

/-- `Graph.is_bipartite`: unconditionally takes the first vertex key as
the 2-coloring start — `list(self.vertex_dict.keys())[0]` raises
`IndexError` on an empty graph. -/
def is_bipartite (g : Graph) : Except PyErr Bool :=
  match alistKeys g.vertex_dict with
  | [] => .error .indexError
  | start_id :: _ => bipLoop g (bfsFuel g) [(start_id, true)] [start_id]

/-- A call frame of `contains_cycle`'s recursive DFS: `enter` is a call of
`dfs_traversal_recursive(start_vertex)`, `scan` the remainder of its
`for neighbor in ...` loop together with the current value of the local
`contains_cycle` flag. -/
inductive CycFrame where
  | enter (start_vertex : VId) (nv cp : List VId)
  | scan (ns : List VId) (flag : Bool) (nv cp : List VId)

/-- The recursive DFS of `contains_cycle`, with the recursion and its
neighbor loop flattened onto one fuel parameter (the fuel accounting is an
embedding artefact; semantics are those of the source for any
sufficiently large fuel).  An `.inl` result is the early `return True`
taken when a neighbor is on `current_path` (the current vertex then stays
on `current_path`); it propagates to the enclosing `enter`, which turns it
into the flag `true`.  A completed loop (`.inr`) removes the vertex from
`current_path` (`set.remove`) and returns the *last* recursion's flag —
each child recursion overwrites the flag, as the source assignment
`contains_cycle = dfs_traversal_recursive(neighbor)` does. -/
def cycleStep (g : Graph) :
    Nat → CycFrame → Except PyErr (Sum (List VId × List VId) (Bool × List VId × List VId))
  | 0, _ => .error .outOfFuel
  | fuel + 1, .enter sv nv cp => do
      let nbrs ← g.get_neighbors sv
      match ← cycleStep g fuel (.scan nbrs false nv cp) with
      | .inl st => .ok (.inr (true, st.1, st.2))
      | .inr (flag, nv', cp') => do
          let cp2 ← setRemove cp' sv
          .ok (.inr (flag, nv', cp2))
  | _ + 1, .scan [] flag nv cp => .ok (.inr (flag, nv, cp))
  | fuel + 1, .scan (n :: rest) flag nv cp =>
      if n ∈ nv then do
        let nv' ← pyRemove nv n
        match ← cycleStep g fuel (.enter n nv' (setAdd cp n)) with
        | .inl st => .ok (.inl st)
        | .inr r => cycleStep g fuel (.scan rest r.1 r.2.1 r.2.2)
      else if n ∈ cp then .ok (.inl (nv, cp))
      else cycleStep g fuel (.scan rest flag nv cp)

/-- Ample fuel for one flattened DFS. -/
def dfsFuel (g : Graph) : Nat :=
  (g.vertex_dict.length + 2) *
    ((g.vertex_dict.map (fun p => p.2.length)).sum + g.vertex_dict.length + 2)

/-- `Graph.contains_cycle`: pops the last vertex key, runs one DFS from
it, and returns that result directly — the `while` loop never reaches a
second iteration, and an empty graph falls through returning `None`
(`none` here). -/
def contains_cycle (g : Graph) : Except PyErr (Option Bool) :=
  match (alistKeys g.vertex_dict).getLast? with
  | none => .ok none
  | some start_id => do
      match ← cycleStep g (dfsFuel g)
        (.enter start_id (alistKeys g.vertex_dict).dropLast (setAdd [] start_id)) with
      | .inl _ => .ok (some true)
      | .inr r => .ok (some r.1)

/-- A call frame of `topological_sort`'s recursive DFS: `enter` is a call
of `dfs_traversal_recursive(start_vertex)`, `scan` the remainder of its
neighbor loop. -/
inductive TopoFrame where
  | enter (start_vertex : VId) (nv stack : List VId)
  | scan (ns nv stack : List VId)

/-- The recursive DFS of `topological_sort` (flattened onto one fuel
parameter like `cycleStep`): visit unvisited neighbors depth-first, then
push the vertex on the result stack. -/
def topoStep (g : Graph) : Nat → TopoFrame → Except PyErr (List VId × List VId)
  | 0, _ => .error .outOfFuel
  | fuel + 1, .enter sv nv stack => do
      let nbrs ← g.get_neighbors sv
      let r ← topoStep g fuel (.scan nbrs nv stack)
      .ok (r.1, r.2 ++ [sv])
  | _ + 1, .scan [] nv stack => .ok (nv, stack)
  | fuel + 1, .scan (n :: rest) nv stack =>
      if n ∈ nv then do
        let nv' ← pyRemove nv n
        let r ← topoStep g fuel (.enter n nv' stack)
        topoStep g fuel (.scan rest r.1 r.2)
      else topoStep g fuel (.scan rest nv stack)

/-- What `topological_sort` hands back to its caller on the normal
(non-exceptional) path: either the `ValueError` object that the source
*returns* (it does not raise it), or an ordering. -/
inductive TopoResult where
  | cycleError (msg : String)
  | order (l : List VId)
deriving DecidableEq, Repr

/-- The `while not_visited:` loop of `topological_sort` (pops the last
remaining vertex, DFS from it). -/
def topoOuter (g : Graph) : Nat → List VId → List VId → Except PyErr (List VId)
  | 0, _, _ => .error .outOfFuel
  | fuel + 1, nv, stack =>
      match nv.getLast? with
      | none => .ok stack
      | some start_id => do
          let r ← topoStep g (dfsFuel g) (.enter start_id nv.dropLast stack)
          topoOuter g fuel r.1 r.2

/-- `Graph.topological_sort`: one up-front `contains_cycle()` truth test —
on a detected cycle the method *returns* `ValueError('Graph contains cycle
and cannot be sorted.')` as an ordinary value (its docstring says it
should be thrown) — otherwise DFS post-orders every component and returns
the reversed stack. -/
def topological_sort (g : Graph) : Except PyErr TopoResult := do
  match ← contains_cycle g with
  | some true => .ok (.cycleError "Graph contains cycle and cannot be sorted.")
  | _ => do
      let stack ← topoOuter g (g.vertex_dict.length + 1) (alistKeys g.vertex_dict) []
      .ok (.order stack.reverse)

end Graph

/-!
## Specification vocabulary

Mathematical notions (edges, paths, reachability, well-formedness) used to
*state* the claims about the embedded operations.
-/

namespace WeightedGraph

/-- The weight stored for the directed edge record `u -> v`, if any. -/
def nbrWeight (g : WeightedGraph) (u v : VId) : Option Int :=
  (alistLookup g.vertex_dict u).bind (fun nb => alistLookup nb v)

/-- Total weight of a vertex sequence when it is a path along stored edge
records (`none` when it is not). -/
def pathWeight (g : WeightedGraph) : List VId → Option Int
  | [] => none
  | [v] => if (alistLookup g.vertex_dict v).isSome then some 0 else none
  | u :: v :: rest =>
      match nbrWeight g u v with
      | none => none
      | some w => (pathWeight g (v :: rest)).map (fun s => w + s)

/-- Build a graph through the public API: `add_vertex` for each id, then
`add_edge` for each `(u, v, w)` record. -/
def build (directed : Bool) (vs : List VId) (es : List Edge) : WeightedGraph :=
  es.foldl (fun g e => (g.add_edge e.1 e.2.1 e.2.2).2)
    (vs.foldl (fun g v => (g.add_vertex v).2) ⟨[], directed⟩)

/-- The graphs reachable from an empty graph through `add_vertex` and
`add_edge` alone. -/
inductive Built : WeightedGraph → Prop where
  | empty (directed : Bool) : Built ⟨[], directed⟩
  | vertex {g : WeightedGraph} (id : VId) : Built g → Built (g.add_vertex id).2
  | edge {g : WeightedGraph} (id1 id2 : VId) (w : Int) :
      Built g → Built (g.add_edge id1 id2 w).2

/-- Neighbor maps are symmetric with equal weights. -/
def Symm (g : WeightedGraph) : Prop :=
  ∀ u v w, nbrWeight g u v = some w ↔ nbrWeight g v u = some w

/-- Every stored neighbor id is a registered vertex. -/
def ClosedW (g : WeightedGraph) : Prop :=
  ∀ p ∈ g.vertex_dict, ∀ q ∈ p.2, q.1 ∈ alistKeys g.vertex_dict

/-- Sum of the weights of a list of edge records. -/
def treeWeight (l : List Edge) : Int := (l.map (fun e => e.2.2)).sum

/-- The ordered endpoint pair of an edge record, forgetting the weight. -/
def pairOf (e : Edge) : VId × VId := (e.1, e.2.1)

/-- One step along a list of endpoint pairs, in either orientation. -/
def EStep (s : List (VId × VId)) (a b : VId) : Prop := (a, b) ∈ s ∨ (b, a) ∈ s

/-- Connectivity generated by a list of endpoint pairs. -/
def ConnBy (s : List (VId × VId)) : VId → VId → Prop := Relation.ReflTransGen (EStep s)

/-- Remove both orientations of the pair `(x, y)` from a pair list. -/
def eraseUEdge (s : List (VId × VId)) (x y : VId) : List (VId × VId) :=
  s.filter (fun p => decide (¬(p = (x, y) ∨ p = (y, x))))

/-- `WalkW s a b l`: `l` is the full vertex sequence of a walk from `a` to
`b` whose steps all lie in the pair list `s`. -/
inductive WalkW (s : List (VId × VId)) : VId → VId → List VId → Prop where
  | nil (a : VId) : WalkW s a a [a]
  | cons {a b c : VId} {l : List VId} :
      EStep s a b → WalkW s b c l → WalkW s a c (a :: l)

/-- Some edge record `u -> v` is stored. -/
def AdjW (g : WeightedGraph) (u v : VId) : Prop := ∃ w, nbrWeight g u v = some w

/-- The graph has at least one vertex and every two vertices are joined by
a chain of stored edge records. -/
def ConnectedW (g : WeightedGraph) : Prop :=
  g.vertex_dict ≠ [] ∧
  ∀ u ∈ alistKeys g.vertex_dict, ∀ v ∈ alistKeys g.vertex_dict,
    Relation.ReflTransGen (AdjW g) u v

/-- Well-formedness that the Python dict representation guarantees:
duplicate-free vertex keys, duplicate-free neighbor keys, and every stored
neighbor id registered as a vertex. -/
def WFW (g : WeightedGraph) : Prop :=
  (alistKeys g.vertex_dict).Nodup ∧
  (∀ p ∈ g.vertex_dict, (alistKeys p.2).Nodup) ∧ ClosedW g

/-- `T` is a spanning edge list for `g`: every record is a stored edge,
there are `|V| - 1` records, and the records connect every two
vertices. -/
def SpanListW (g : WeightedGraph) (T : List Edge) : Prop :=
  (∀ e ∈ T, nbrWeight g e.1 e.2.1 = some e.2.2) ∧
  T.length = (alistKeys g.vertex_dict).length - 1 ∧
  ∀ u ∈ alistKeys g.vertex_dict, ∀ v ∈ alistKeys g.vertex_dict,
    ConnBy (T.map pairOf) u v

/-- Multiplicity-aware containment of edge-record lists. -/
def SubC (A B : List Edge) : Prop := ∀ x : Edge, A.count x ≤ B.count x

/-- The greedy invariant shared by Kruskal's and Prim's algorithms: the
records accepted so far extend to a spanning edge list at least as light
as any given one. -/
def PromiseW (g : WeightedGraph) (A : List Edge) : Prop :=
  ∀ T, SpanListW g T → ∃ U, SpanListW g U ∧ SubC A U ∧ treeWeight U ≤ treeWeight T

/-- `RootD pm x r n`: from `x` the parent map reaches the root `r` (a key
mapped to itself) in exactly `n` strict parent steps. -/
inductive RootD (pm : List (VId × VId)) : VId → VId → Nat → Prop where
  | self {r : VId} : alistLookup pm r = some r → RootD pm r r 0
  | step {x p r : VId} {n : Nat} : alistLookup pm x = some p → p ≠ x →
      RootD pm p r n → RootD pm x r (n + 1)

/-- `x`'s parent chain ends at the root `r`. -/
def IsRootOf (pm : List (VId × VId)) (x r : VId) : Prop := ∃ n, RootD pm x r n

/-- The set of keys of the parent map that are their own parent. -/
def rootSet (pm : List (VId × VId)) : Finset VId :=
  ((pm.filter (fun p => p.1 == p.2)).map Prod.fst).toFinset

/-- Order on the numeric fragment, expressed through the embedded `lt`. -/
def pnLe (a b : PyNum) : Prop := PyNum.lt b a = false

/-- The weight recorded for `v` in a Prim/Dijkstra key map (`inf` when the
key is absent, matching how the algorithms read it). -/
def keyOf (v2w : List (VId × PyNum)) (v : VId) : PyNum := (alistLookup v2w v).getD .inf

/-- The 4-vertex example from the specification: an undirected graph with
edges (A, B, 1), (B, C, 2), (C, D, 3), (A, D, 4), embedding A..D as 0..3. -/
def mstExample : WeightedGraph :=
  build false [0, 1, 2, 3] [(0, 1, 1), (1, 2, 2), (2, 3, 3), (0, 3, 4)]

end WeightedGraph

namespace Graph

/-- `v` is among the neighbors `get_neighbors` reports for `u`: a stored
neighbor of `u`, or (undirected only) a vertex whose stored list contains
`u`. -/
def Nbr (g : Graph) (u v : VId) : Prop :=
  ∃ adj, alistLookup g.vertex_dict u = some adj ∧
    (v ∈ adj ∨ (g.is_directed = false ∧
      ∃ adjv, alistLookup g.vertex_dict v = some adjv ∧ u ∈ adjv))

/-- Reachability along `Nbr` steps (reflexive-transitive closure). -/
def Reach (g : Graph) (u v : VId) : Prop := Relation.ReflTransGen g.Nbr u v

/-- Keys are duplicate free (automatic for a Python dict). -/
def WF (g : Graph) : Prop := (alistKeys g.vertex_dict).Nodup

/-- Every stored adjacency entry names a registered vertex (the data model
does not enforce this; several claims need it). -/
def Closed (g : Graph) : Prop :=
  ∀ p ∈ g.vertex_dict, ∀ v ∈ p.2, v ∈ alistKeys g.vertex_dict

/-- Length of the path recorded for `x` in a path dictionary (0 when
absent); used to state the breadth-first layering invariants. -/
def pdLen (pd : List (VId × List VId)) (x : VId) : Nat :=
  ((alistLookup pd x).getD []).length

end Graph

/-!
## Helper lemmas
-/

theorem alistLookup_append {α : Type} (l1 l2 : List (VId × α)) (k : VId) :
    alistLookup (l1 ++ l2) k =
      match alistLookup l1 k with
      | some v => some v
      | none => alistLookup l2 k := by
  induction l1 with
  | nil => simp [alistLookup]
  | cons p rest ih =>
      rcases p with ⟨k', v⟩
      by_cases h : k' = k <;> simp [alistLookup, h, ih]

theorem alistLookup_modify {α : Type} (l : List (VId × α)) (k : VId) (f : α → α)
    (key : VId) :
    alistLookup (WeightedGraph.alistModify l k f) key =
      (alistLookup l key).map (fun v => if key = k then f v else v) := by
  induction l with
  | nil => rfl
  | cons p rest ih =>
      rcases p with ⟨k', v⟩
      have hstep : WeightedGraph.alistModify ((k', v) :: rest) k f =
          (if k' = k then (k', f v) else (k', v)) :: WeightedGraph.alistModify rest k f := by
        simp [WeightedGraph.alistModify]
      rw [hstep]
      by_cases hk : k' = k
      · subst hk
        rw [if_pos rfl]
        by_cases hkey : k' = key
        · subst hkey
          simp [alistLookup]
        · simp [alistLookup, hkey, ih]
      · rw [if_neg hk]
        by_cases hkey : k' = key
        · subst hkey
          have hne : ¬ k' = k := hk
          simp [alistLookup, hne]
        · simp [alistLookup, hkey, ih]

theorem alistKeys_modify {α : Type} (l : List (VId × α)) (k : VId) (f : α → α) :
    alistKeys (WeightedGraph.alistModify l k f) = alistKeys l := by
  induction l with
  | nil => rfl
  | cons p rest ih =>
      by_cases h : p.1 = k <;>
        simp [alistKeys, WeightedGraph.alistModify, h] <;>
        simpa [alistKeys, WeightedGraph.alistModify] using ih

theorem lookup_add_neighbor (nv : List (VId × Int)) (nid : VId) (w : Int) (v : VId) :
    alistLookup (WeightedGraph.add_neighbor nv nid w) v =
      if v = nid then some ((alistLookup nv nid).getD w) else alistLookup nv v := by
  unfold WeightedGraph.add_neighbor
  rcases hnid : alistLookup nv nid with _ | w0
  · simp only [hnid, Option.isSome_none, Bool.false_eq_true, if_false]
    rw [alistLookup_append]
    by_cases hv : v = nid
    · subst hv
      simp [hnid, alistLookup]
    · rcases hl : alistLookup nv v with _ | x <;>
        simp [hl, alistLookup, hv, Ne.symm hv]
  · by_cases hv : v = nid <;> simp [hnid, hv]

theorem revScan_eq (start : VId) (l : List (VId × List VId)) (acc : List VId) :
    Graph.revScan start l acc =
      acc ++ (l.filter (fun p => decide (start ∈ p.2))).map Prod.fst := by
  induction l generalizing acc with
  | nil => simp [Graph.revScan]
  | cons p rest ih =>
      rcases p with ⟨v, adj⟩
      by_cases h : start ∈ adj <;> simp [Graph.revScan, h, ih]

theorem mem_keys_of_lookup {α : Type} {l : List (VId × α)} {k : VId} {v : α}
    (h : alistLookup l k = some v) : k ∈ alistKeys l := by
  induction l with
  | nil => simp [alistLookup] at h
  | cons p rest ih =>
      rcases p with ⟨a, b⟩
      by_cases ha : a = k
      · simp [alistKeys, ha]
      · rw [show alistLookup ((a, b) :: rest) k = alistLookup rest k from by
          simp [alistLookup, ha]] at h
        simp only [alistKeys, List.map_cons]
        exact List.mem_cons.mpr (Or.inr (by simpa [alistKeys] using ih h))

theorem mem_add_neighbor {q : VId × Int} {nv : List (VId × Int)} {nid : VId} {w : Int}
    (h : q ∈ WeightedGraph.add_neighbor nv nid w) : q ∈ nv ∨ q = (nid, w) := by
  unfold WeightedGraph.add_neighbor at h
  by_cases hp : (alistLookup nv nid).isSome
  · rw [if_pos hp] at h
    exact Or.inl h
  · rw [if_neg hp] at h
    rcases List.mem_append.mp h with h' | h'
    · exact Or.inl h'
    · exact Or.inr (List.mem_singleton.mp h')

theorem add_vertex_is_directed (g : WeightedGraph) (id : VId) :
    (g.add_vertex id).2.is_directed = g.is_directed := by
  unfold WeightedGraph.add_vertex
  by_cases h : (alistLookup g.vertex_dict id).isSome <;> simp [h]

theorem add_edge_is_directed (g : WeightedGraph) (id1 id2 : VId) (w : Int) :
    (g.add_edge id1 id2 w).2.is_directed = g.is_directed := by
  unfold WeightedGraph.add_edge
  by_cases h : ((alistLookup g.vertex_dict id1).isSome &&
      (alistLookup g.vertex_dict id2).isSome) = true
  · rw [if_pos h]
    cases hd : g.is_directed <;> simp [hd]
  · rw [if_neg h]

theorem add_vertex_nbrWeight (g : WeightedGraph) (id : VId) (u v : VId) :
    WeightedGraph.nbrWeight (g.add_vertex id).2 u v = WeightedGraph.nbrWeight g u v := by
  unfold WeightedGraph.add_vertex
  by_cases h : (alistLookup g.vertex_dict id).isSome
  · rw [if_pos h]
  · rw [if_neg h]
    unfold WeightedGraph.nbrWeight
    simp only []
    rw [alistLookup_append]
    rcases hu : alistLookup g.vertex_dict u with _ | nv
    · by_cases hi : id = u <;> simp [alistLookup, hi]
    · simp

theorem add_vertex_closed {g : WeightedGraph} (id : VId)
    (hc : WeightedGraph.ClosedW g) : WeightedGraph.ClosedW (g.add_vertex id).2 := by
  unfold WeightedGraph.add_vertex
  by_cases h : (alistLookup g.vertex_dict id).isSome
  · rw [if_pos h]; exact hc
  · rw [if_neg h]
    intro p hp q hq
    simp only [alistKeys, List.map_append] at *
    rcases List.mem_append.mp hp with h' | h'
    · exact List.mem_append.mpr (Or.inl (hc p h' q hq))
    · have hpe : p = (id, []) := List.mem_singleton.mp h'
      rw [hpe] at hq
      exact absurd hq (List.not_mem_nil q)

theorem add_edge_fail (g : WeightedGraph) (id1 id2 : VId) (w : Int)
    (h : ¬ ((alistLookup g.vertex_dict id1).isSome &&
        (alistLookup g.vertex_dict id2).isSome) = true) :
    (g.add_edge id1 id2 w).2 = g := by
  unfold WeightedGraph.add_edge
  rw [if_neg h]

theorem add_edge_success (g : WeightedGraph) (id1 id2 : VId) (w : Int)
    (h : (g.add_edge id1 id2 w).1 = true) :
    (alistLookup g.vertex_dict id1).isSome = true ∧
    (alistLookup g.vertex_dict id2).isSome = true := by
  by_cases hp : ((alistLookup g.vertex_dict id1).isSome &&
      (alistLookup g.vertex_dict id2).isSome) = true
  · exact ⟨(Bool.and_eq_true _ _ |>.mp hp).1, (Bool.and_eq_true _ _ |>.mp hp).2⟩
  · exfalso
    unfold WeightedGraph.add_edge at h
    rw [if_neg hp] at h
    simp at h

theorem add_edge_closed {g : WeightedGraph} (id1 id2 : VId) (w : Int)
    (hc : WeightedGraph.ClosedW g) : WeightedGraph.ClosedW (g.add_edge id1 id2 w).2 := by
  unfold WeightedGraph.add_edge
  by_cases h : ((alistLookup g.vertex_dict id1).isSome &&
      (alistLookup g.vertex_dict id2).isSome) = true
  · have h1 := (Bool.and_eq_true _ _ |>.mp h).1
    have h2 := (Bool.and_eq_true _ _ |>.mp h).2
    have hk1 : id1 ∈ alistKeys g.vertex_dict := by
      rcases Option.isSome_iff_exists.mp h1 with ⟨nv, ho⟩
      exact mem_keys_of_lookup ho
    have hk2 : id2 ∈ alistKeys g.vertex_dict := by
      rcases Option.isSome_iff_exists.mp h2 with ⟨nv, ho⟩
      exact mem_keys_of_lookup ho
    rw [if_pos h]
    have hmod : ∀ (d : List (VId × List (VId × Int))) (k : VId) (nid : VId) (ww : Int),
        (∀ p ∈ d, ∀ q ∈ p.2, q.1 ∈ alistKeys d) → nid ∈ alistKeys d →
        ∀ p ∈ WeightedGraph.alistModify d k
          (fun n => WeightedGraph.add_neighbor n nid ww),
          ∀ q ∈ p.2, q.1 ∈ alistKeys
            (WeightedGraph.alistModify d k
              (fun n => WeightedGraph.add_neighbor n nid ww)) := by
      intro d k nid ww hcd hnid p hp q hq
      rw [alistKeys_modify]
      unfold WeightedGraph.alistModify at hp
      rcases List.mem_map.mp hp with ⟨p0, hp0, him⟩
      by_cases hpk : p0.1 = k
      · rw [if_pos hpk] at him
        rw [← him] at hq
        simp only at hq
        rcases mem_add_neighbor hq with h' | h'
        · exact hcd p0 hp0 q h'
        · rw [h']; exact hnid
      · rw [if_neg hpk] at him
        rw [← him] at hq
        exact hcd p0 hp0 q hq
    cases hd : g.is_directed
    · simp only [Bool.false_eq_true, if_false]
      intro p hp q hq
      have hstep := hmod g.vertex_dict id1 id2 w hc hk2
      have hstep2 := hmod _ id2 id1 w hstep (by rw [alistKeys_modify]; exact hk1)
      exact hstep2 p hp q hq
    · simp only [if_true]
      exact hmod g.vertex_dict id1 id2 w hc hk2
  · rw [if_neg h]
    exact hc

theorem nbrWeight_add_edge (g : WeightedGraph) (id1 id2 : VId) (w : Int)
    (h1 : (alistLookup g.vertex_dict id1).isSome = true)
    (h2 : (alistLookup g.vertex_dict id2).isSome = true)
    (hd : g.is_directed = false) (u v : VId) :
    WeightedGraph.nbrWeight (g.add_edge id1 id2 w).2 u v =
      if (u = id1 ∧ v = id2) ∨ (u = id2 ∧ v = id1)
      then some ((WeightedGraph.nbrWeight g u v).getD w)
      else WeightedGraph.nbrWeight g u v := by
  have hcond : ((alistLookup g.vertex_dict id1).isSome &&
      (alistLookup g.vertex_dict id2).isSome) = true := by rw [h1, h2]; rfl
  unfold WeightedGraph.add_edge WeightedGraph.nbrWeight
  rw [if_pos hcond, hd]
  simp only [Bool.false_eq_true, if_false]
  rw [alistLookup_modify, alistLookup_modify]
  rcases hu : alistLookup g.vertex_dict u with _ | nv
  · have hu1 : ¬ u = id1 := by
      intro he; rw [he, (Option.isSome_iff_exists.mp h1).choose_spec] at hu; cases hu
    have hu2 : ¬ u = id2 := by
      intro he; rw [he, (Option.isSome_iff_exists.mp h2).choose_spec] at hu; cases hu
    simp [hu1, hu2]
  · simp only [Option.map_some', Option.some_bind]
    by_cases e1 : u = id1
    · by_cases e2 : u = id2
      · subst e1; subst e2
        rw [if_pos rfl, if_pos rfl, lookup_add_neighbor]
        by_cases hv : v = u
        · rw [if_pos hv, lookup_add_neighbor, if_pos rfl, hv]
          simp
        · rw [if_neg hv, lookup_add_neighbor, if_neg hv,
            if_neg (by rintro (⟨_, h⟩ | ⟨_, h⟩) <;> exact hv h)]
      · subst e1
        rw [if_pos rfl, if_neg e2, lookup_add_neighbor]
        by_cases hv : v = id2
        · rw [if_pos hv, if_pos (Or.inl ⟨rfl, hv⟩), hv]
        · rw [if_neg hv,
            if_neg (by rintro (⟨_, h⟩ | ⟨h, _⟩) <;> [exact hv h; exact e2 h])]
    · by_cases e2 : u = id2
      · subst e2
        rw [if_neg e1, if_pos rfl, lookup_add_neighbor]
        by_cases hv : v = id1
        · rw [if_pos hv, if_pos (Or.inr ⟨rfl, hv⟩), hv]
        · rw [if_neg hv,
            if_neg (by rintro (⟨h, _⟩ | ⟨_, h⟩) <;> [exact e1 h; exact hv h])]
      · rw [if_neg e1, if_neg e2,
          if_neg (by rintro (⟨h, _⟩ | ⟨h, _⟩) <;> [exact e1 h; exact e2 h])]

theorem symm_nbr_eq {g : WeightedGraph} (hs : WeightedGraph.Symm g) (u v : VId) :
    WeightedGraph.nbrWeight g u v = WeightedGraph.nbrWeight g v u := by
  rcases h1 : WeightedGraph.nbrWeight g u v with _ | a
  · rcases h2 : WeightedGraph.nbrWeight g v u with _ | b
    · rfl
    · have hx := (hs v u b).mp h2
      rw [h1] at hx; cases hx
  · exact ((hs u v a).mp h1).symm

theorem symm_add_edge {g : WeightedGraph} (id1 id2 : VId) (w : Int)
    (hd : g.is_directed = false) (hs : WeightedGraph.Symm g) :
    WeightedGraph.Symm (g.add_edge id1 id2 w).2 := by
  by_cases hcond : ((alistLookup g.vertex_dict id1).isSome &&
      (alistLookup g.vertex_dict id2).isSome) = true
  · have h1 := (Bool.and_eq_true _ _ |>.mp hcond).1
    have h2 := (Bool.and_eq_true _ _ |>.mp hcond).2
    intro u v w'
    rw [nbrWeight_add_edge g id1 id2 w h1 h2 hd u v,
        nbrWeight_add_edge g id1 id2 w h1 h2 hd v u]
    by_cases hc : (u = id1 ∧ v = id2) ∨ (u = id2 ∧ v = id1)
    · have hc' : (v = id1 ∧ u = id2) ∨ (v = id2 ∧ u = id1) := by tauto
      rw [if_pos hc, if_pos hc', symm_nbr_eq hs u v]
    · have hc' : ¬ ((v = id1 ∧ u = id2) ∨ (v = id2 ∧ u = id1)) := by tauto
      rw [if_neg hc, if_neg hc']
      exact hs u v w'
  · rw [add_edge_fail g id1 id2 w hcond]
    exact hs

theorem Built.closed_symm {g : WeightedGraph} (hb : g.Built) :
    WeightedGraph.ClosedW g ∧ (g.is_directed = false → WeightedGraph.Symm g) := by
  induction hb with
  | empty d =>
      refine ⟨fun p hp => absurd hp (List.not_mem_nil p), fun _ u v w' => ?_⟩
      simp [WeightedGraph.nbrWeight, alistLookup]
  | vertex id hb ih =>
      rcases ih with ⟨hc, hsym⟩
      refine ⟨add_vertex_closed id hc, fun hd u v w' => ?_⟩
      rw [add_vertex_nbrWeight, add_vertex_nbrWeight]
      exact hsym (by rw [← add_vertex_is_directed _ id]; exact hd) u v w'
  | edge id1 id2 w hb ih =>
      rcases ih with ⟨hc, hsym⟩
      refine ⟨add_edge_closed id1 id2 w hc, fun hd => ?_⟩
      have hdg := (add_edge_is_directed _ id1 id2 w) ▸ hd
      exact symm_add_edge id1 id2 w hdg (hsym hdg)

theorem mem_of_lookup {α : Type} {l : List (VId × α)} {k : VId} {v : α}
    (h : alistLookup l k = some v) : (k, v) ∈ l := by
  induction l with
  | nil => simp [alistLookup] at h
  | cons p rest ih =>
      rcases p with ⟨a, b⟩
      by_cases ha : a = k
      · subst ha
        rw [show alistLookup ((a, b) :: rest) a = some b from by simp [alistLookup]] at h
        cases h
        exact List.mem_cons_self _ _
      · rw [show alistLookup ((a, b) :: rest) k = alistLookup rest k from by
          simp [alistLookup, ha]] at h
        exact List.mem_cons.mpr (Or.inr (ih h))

theorem lookup_of_mem_wf {α : Type} {l : List (VId × α)} (hwf : (alistKeys l).Nodup)
    {p : VId × α} (hp : p ∈ l) : alistLookup l p.1 = some p.2 := by
  induction l with
  | nil => exact absurd hp (List.not_mem_nil p)
  | cons q rest ih =>
      rcases List.mem_cons.mp hp with h | h
      · subst h
        rcases p with ⟨a, b⟩
        simp [alistLookup]
      · have hq : ¬ q.1 = p.1 := by
          intro he
          have : p.1 ∈ alistKeys rest := List.mem_map.mpr ⟨p, h, rfl⟩
          rw [← he] at this
          exact (List.nodup_cons.mp (by simpa [alistKeys] using hwf)).1 this
        rcases q with ⟨a, b⟩
        rw [show alistLookup ((a, b) :: rest) p.1 = alistLookup rest p.1 from by
          simp [alistLookup]; intro he; exact absurd he hq]
        exact ih (List.nodup_cons.mp (by simpa [alistKeys] using hwf)).2 h

theorem length_le_of_nodup_subset {l1 l2 : List VId} (h1 : l1.Nodup)
    (hsub : ∀ x ∈ l1, x ∈ l2) : l1.length ≤ l2.length := by
  calc l1.length = l1.toFinset.card := (List.toFinset_card_of_nodup h1).symm
    _ ≤ l2.toFinset.card := Finset.card_le_card (fun x hx =>
        List.mem_toFinset.mpr (hsub x (List.mem_toFinset.mp hx)))
    _ ≤ l2.length := l2.toFinset_card_le

theorem get_neighbors_eq (g : Graph) (start_id : VId) (adj : List VId)
    (h : alistLookup g.vertex_dict start_id = some adj) :
    g.get_neighbors start_id = .ok
      ((if g.is_directed then [] else
        (g.vertex_dict.filter (fun p => decide (start_id ∈ p.2))).map Prod.fst) ++ adj) := by
  unfold Graph.get_neighbors
  cases hd : g.is_directed
  · simp [h, revScan_eq]
  · simp [h]

theorem mem_neighbors_iff (g : Graph) (hwf : g.WF) {u : VId} {adj : List VId}
    (h : alistLookup g.vertex_dict u = some adj) (y : VId) :
    (y ∈ (if g.is_directed then [] else
      (g.vertex_dict.filter (fun p => decide (u ∈ p.2))).map Prod.fst) ++ adj) ↔
    g.Nbr u y := by
  cases hd : g.is_directed
  · simp only [Bool.false_eq_true, if_false]
    constructor
    · intro hy
      rcases List.mem_append.mp hy with hy | hy
      · rcases List.mem_map.mp hy with ⟨p, hpmem, hpe⟩
        have hpf := List.mem_filter.mp hpmem
        refine ⟨adj, h, Or.inr ⟨hd, p.2, ?_, by simpa using hpf.2⟩⟩
        rw [← hpe]
        exact lookup_of_mem_wf hwf hpf.1
      · exact ⟨adj, h, Or.inl hy⟩
    · rintro ⟨adj0, h0, hcase⟩
      rw [h] at h0
      cases h0
      rcases hcase with hy | ⟨_, adjv, hv, huv⟩
      · exact List.mem_append.mpr (Or.inr hy)
      · refine List.mem_append.mpr (Or.inl (List.mem_map.mpr ⟨(y, adjv), ?_, rfl⟩))
        exact List.mem_filter.mpr ⟨mem_of_lookup hv, by simpa using huv⟩
  · simp only [if_true]
    constructor
    · intro hy
      exact ⟨adj, h, Or.inl (by simpa using hy)⟩
    · rintro ⟨adj0, h0, hcase⟩
      rw [h] at h0
      cases h0
      rcases hcase with hy | ⟨hfalse, _⟩
      · simpa using hy
      · rw [hd] at hfalse; cases hfalse

theorem Nbr_mem_keys {g : Graph} (hcl : g.Closed) {u y : VId} (h : g.Nbr u y) :
    y ∈ alistKeys g.vertex_dict := by
  rcases h with ⟨adj, hl, hy | ⟨_, adjv, hv, _⟩⟩
  · exact hcl (u, adj) (mem_of_lookup hl) y hy
  · exact mem_keys_of_lookup hv

theorem Nbr_src_mem_keys {g : Graph} {u y : VId} (h : g.Nbr u y) :
    u ∈ alistKeys g.vertex_dict := by
  rcases h with ⟨adj, hl, _⟩
  exact mem_keys_of_lookup hl

theorem lookup_isSome_of_mem_keys {α : Type} {l : List (VId × α)} {k : VId}
    (h : k ∈ alistKeys l) : ∃ v, alistLookup l k = some v := by
  induction l with
  | nil => simp [alistKeys] at h
  | cons p rest ih =>
      rcases p with ⟨a, b⟩
      by_cases ha : a = k
      · exact ⟨b, by simp [alistLookup, ha]⟩
      · rw [show alistLookup ((a, b) :: rest) k = alistLookup rest k from by
          simp [alistLookup, ha]]
        refine ih ?_
        have h1 : k ∈ List.map Prod.fst ((a, b) :: rest) := h
        rw [List.map_cons] at h1
        rcases List.mem_cons.mp h1 with he | he
        · exact absurd he.symm ha
        · exact he

theorem bfsEnqueue_spec (nbrs seen queue : List VId) :
    ∃ newl, Graph.bfsEnqueue seen queue nbrs = (seen ++ newl, queue ++ newl) ∧
      newl.Nodup ∧ (∀ x ∈ newl, x ∈ nbrs ∧ x ∉ seen) ∧
      (∀ x ∈ nbrs, x ∉ seen → x ∈ newl) := by
  induction nbrs generalizing seen queue with
  | nil => exact ⟨[], by simp [Graph.bfsEnqueue]⟩
  | cons n rest ih =>
      by_cases hn : n ∈ seen
      · rcases ih seen queue with ⟨newl, he, hnd, hmem, hcompl⟩
        refine ⟨newl, by simpa [Graph.bfsEnqueue, hn] using he, hnd,
          fun x hx => ⟨List.mem_cons.mpr (Or.inr (hmem x hx).1), (hmem x hx).2⟩,
          fun x hx hxs => ?_⟩
        rcases List.mem_cons.mp hx with he' | he'
        · exact absurd (he' ▸ hn) hxs
        · exact hcompl x he' hxs
      · rcases ih (seen ++ [n]) (queue ++ [n]) with ⟨newl, he, hnd, hmem, hcompl⟩
        refine ⟨n :: newl, ?_, ?_, ?_, ?_⟩
        · rw [show Graph.bfsEnqueue seen queue (n :: rest) =
            Graph.bfsEnqueue (seen ++ [n]) (queue ++ [n]) rest from by
              simp [Graph.bfsEnqueue, hn], he]
          simp
        · refine List.nodup_cons.mpr ⟨fun hc => ?_, hnd⟩
          exact (hmem n hc).2 (List.mem_append.mpr (Or.inr (List.mem_singleton.mpr rfl)))
        · intro x hx
          rcases List.mem_cons.mp hx with he' | he'
          · exact ⟨he' ▸ List.mem_cons_self n rest, he' ▸ hn⟩
          · refine ⟨List.mem_cons.mpr (Or.inr (hmem x he').1), fun hc => ?_⟩
            exact (hmem x he').2 (List.mem_append.mpr (Or.inl hc))
        · intro x hx hxs
          rcases List.mem_cons.mp hx with he' | he'
          · exact List.mem_cons.mpr (Or.inl he')
          · by_cases hxn : x = n
            · exact List.mem_cons.mpr (Or.inl hxn)
            · refine List.mem_cons.mpr (Or.inr (hcompl x he' ?_))
              intro hc
              rcases List.mem_append.mp hc with hc' | hc'
              · exact hxs hc'
              · exact hxn (List.mem_singleton.mp hc')

theorem bfsLoop_spec (g : Graph) (hwf : g.WF) (hcl : g.Closed) (v : VId) :
    ∀ (fuel : Nat) (seen queue out : List VId),
    (∀ x ∈ queue, x ∈ seen) →
    (∀ x, x ∈ seen ↔ (x ∈ out ∨ x ∈ queue)) →
    out.Nodup → queue.Nodup → (∀ x ∈ out, x ∉ queue) →
    (∀ x ∈ seen, g.Reach v x) →
    (∀ x ∈ seen, x ∈ alistKeys g.vertex_dict) →
    seen.Nodup →
    (∀ x ∈ out, ∀ y, g.Nbr x y → y ∈ seen) →
    queue.length + ((alistKeys g.vertex_dict).length - seen.length) + 1 ≤ fuel →
    ∃ outF, Graph.bfsLoop g fuel seen queue out = ⟨outF, none⟩ ∧
      (out ++ queue) <+: outF ∧ outF.Nodup ∧
      (∀ x ∈ outF, g.Reach v x) ∧
      (∀ x ∈ seen, x ∈ outF) ∧
      (∀ x ∈ outF, ∀ y, g.Nbr x y → y ∈ outF) := by
  intro fuel
  induction fuel with
  | zero => intro seen queue out _ _ _ _ _ _ _ _ _ hfuel; omega
  | succ f ih =>
      intro seen queue out hI1 hI2 hIout hIq hdisj hreach hkeys hseennd hclosure hfuel
      rcases queue with _ | ⟨cur, qrest⟩
      · refine ⟨out, by simp [Graph.bfsLoop], by simp, hIout,
          fun x hx => hreach x (hI2 x |>.mpr (Or.inl hx)),
          fun x hx => ?_, fun x hx y hy => ?_⟩
        · rcases (hI2 x).mp hx with h | h
          · exact h
          · exact absurd h (List.not_mem_nil x)
        · have hys := hclosure x hx y hy
          rcases (hI2 y).mp hys with h | h
          · exact h
          · exact absurd h (List.not_mem_nil y)
      · have hcur_seen : cur ∈ seen := hI1 cur (List.mem_cons_self cur qrest)
        have hcur_keys := hkeys cur hcur_seen
        rcases lookup_isSome_of_mem_keys hcur_keys with ⟨adj, hadj⟩
        have hgn := get_neighbors_eq g cur adj hadj
        rcases bfsEnqueue_spec
          ((if g.is_directed then [] else
            (g.vertex_dict.filter (fun p => decide (cur ∈ p.2))).map Prod.fst) ++ adj)
          seen qrest with ⟨newl, henq, hnewnd, hnewmem, hnewcompl⟩
        have hstep : Graph.bfsLoop g (f + 1) seen (cur :: qrest) out =
            Graph.bfsLoop g f (seen ++ newl) (qrest ++ newl) (out ++ [cur]) := by
          simp only [Graph.bfsLoop, hgn, henq]
        have hnbr : ∀ y, g.Nbr cur y ↔ y ∈
            ((if g.is_directed then [] else
              (g.vertex_dict.filter (fun p => decide (cur ∈ p.2))).map Prod.fst) ++ adj) :=
          fun y => (mem_neighbors_iff g hwf hadj y).symm
        -- the new-element facts
        have hnew_reach : ∀ x ∈ newl, g.Reach v x := by
          intro x hx
          exact Relation.ReflTransGen.tail (hreach cur hcur_seen)
            ((hnbr x).mpr (hnewmem x hx).1)
        have hnew_keys : ∀ x ∈ newl, x ∈ alistKeys g.vertex_dict := by
          intro x hx
          exact Nbr_mem_keys hcl ((hnbr x).mpr (hnewmem x hx).1)
        have hseen_sub : ∀ x ∈ seen ++ newl, x ∈ alistKeys g.vertex_dict := by
          intro x hx
          rcases List.mem_append.mp hx with h | h
          · exact hkeys x h
          · exact hnew_keys x h
        have hseen_nd : (seen ++ newl).Nodup := by
          refine List.nodup_append.mpr ⟨hseennd, hnewnd, fun a ha hb => ?_⟩
          exact (hnewmem a hb).2 ha
        have hlen : (seen ++ newl).length ≤ (alistKeys g.vertex_dict).length :=
          length_le_of_nodup_subset hseen_nd hseen_sub
        have hqrest_nd : qrest.Nodup := (List.nodup_cons.mp hIq).2
        have hcur_qrest : cur ∉ qrest := (List.nodup_cons.mp hIq).1
        rcases ih (seen ++ newl) (qrest ++ newl) (out ++ [cur])
          (by
            intro x hx
            rcases List.mem_append.mp hx with h | h
            · exact List.mem_append.mpr (Or.inl (hI1 x (List.mem_cons.mpr (Or.inr h))))
            · exact List.mem_append.mpr (Or.inr h))
          (by
            intro x
            constructor
            · intro hx
              rcases List.mem_append.mp hx with h | h
              · rcases (hI2 x).mp h with h' | h'
                · exact Or.inl (List.mem_append.mpr (Or.inl h'))
                · rcases List.mem_cons.mp h' with h'' | h''
                  · exact Or.inl (List.mem_append.mpr (Or.inr (by simp [h''])))
                  · exact Or.inr (List.mem_append.mpr (Or.inl h''))
              · exact Or.inr (List.mem_append.mpr (Or.inr h))
            · intro hx
              rcases hx with h | h
              · rcases List.mem_append.mp h with h' | h'
                · exact List.mem_append.mpr
                    (Or.inl ((hI2 x).mpr (Or.inl h')))
                · exact List.mem_append.mpr (Or.inl (by
                    have : x = cur := List.mem_singleton.mp h'
                    exact this ▸ hcur_seen))
              · rcases List.mem_append.mp h with h' | h'
                · exact List.mem_append.mpr
                    (Or.inl ((hI2 x).mpr (Or.inr (List.mem_cons.mpr (Or.inr h')))))
                · exact List.mem_append.mpr (Or.inr h'))
          (by
            refine List.nodup_append.mpr ⟨hIout, List.nodup_singleton cur, fun a ha hb => ?_⟩
            have : a = cur := List.mem_singleton.mp hb
            exact hdisj a ha (this ▸ List.mem_cons_self cur qrest))
          (by
            refine List.nodup_append.mpr ⟨hqrest_nd, hnewnd, fun a ha hb => ?_⟩
            exact (hnewmem a hb).2 (hI1 a (List.mem_cons.mpr (Or.inr ha))))
          (by
            intro x hx hc
            rcases List.mem_append.mp hc with h | h
            · rcases List.mem_append.mp hx with h' | h'
              · exact hdisj x h' (List.mem_cons.mpr (Or.inr h))
              · have hxc : x = cur := List.mem_singleton.mp h'
                exact hcur_qrest (hxc ▸ h)
            · rcases List.mem_append.mp hx with h' | h'
              · exact (hnewmem x h).2 ((hI2 x).mpr (Or.inl h'))
              · have hxc : x = cur := List.mem_singleton.mp h'
                exact (hnewmem x h).2 (hxc ▸ hcur_seen))
          (by
            intro x hx
            rcases List.mem_append.mp hx with h | h
            · exact hreach x h
            · exact hnew_reach x h)
          hseen_sub
          hseen_nd
          (by
            intro x hx y hy
            rcases List.mem_append.mp hx with h | h
            · exact List.mem_append.mpr (Or.inl (hclosure x h y hy))
            · have hxc : x = cur := List.mem_singleton.mp h
              have hyl := (hnbr y).mp (hxc ▸ hy)
              by_cases hys : y ∈ seen
              · exact List.mem_append.mpr (Or.inl hys)
              · exact List.mem_append.mpr (Or.inr (hnewcompl y hyl hys)))
          (by
            have h1 : (qrest ++ newl).length = qrest.length + newl.length :=
              List.length_append _ _
            have h2 : (seen ++ newl).length = seen.length + newl.length :=
              List.length_append _ _
            have h3 : (cur :: qrest).length = qrest.length + 1 := by simp
            rw [h2] at hlen
            rw [h1, h2]
            rw [h3] at hfuel
            omega)
          with ⟨outF, heq, hpre, hnd, hre, hsub, hclo⟩
        refine ⟨outF, by rw [hstep]; exact heq, ?_, hnd, hre,
          fun x hx => hsub x (List.mem_append.mpr (Or.inl hx)), hclo⟩
        have hassoc : (out ++ [cur]) ++ (qrest ++ newl) =
            (out ++ cur :: qrest) ++ newl := by simp
        refine List.IsPrefix.trans ?_ hpre
        rw [hassoc]
        exact List.prefix_append _ _

theorem Nbr_symm {g : Graph} (hd : g.is_directed = false) (hcl : g.Closed)
    {u v : VId} (h : g.Nbr u v) : g.Nbr v u := by
  rcases h with ⟨adju, hu, hcase⟩
  rcases hcase with hv | ⟨_, adjv, hv, huv⟩
  · have hvk : v ∈ alistKeys g.vertex_dict := hcl (u, adju) (mem_of_lookup hu) v hv
    rcases lookup_isSome_of_mem_keys hvk with ⟨adjv, hlv⟩
    exact ⟨adjv, hlv, Or.inr ⟨hd, adju, hu, hv⟩⟩
  · exact ⟨adjv, hv, Or.inl huv⟩

theorem pyRemove_spec {nv : List VId} {n : VId} (hnd : nv.Nodup) (hn : n ∈ nv) :
    ∃ nv', pyRemove nv n = .ok nv' ∧ nv'.Nodup ∧
      (∀ x, x ∈ nv' ↔ x ∈ nv ∧ x ≠ n) ∧ nv'.length + 1 = nv.length := by
  induction nv with
  | nil => cases hn
  | cons a rest ih =>
      by_cases ha : a = n
      · subst ha
        refine ⟨rest, by simp [pyRemove], (List.nodup_cons.mp hnd).2, fun x => ?_, by simp⟩
        constructor
        · intro hx
          exact ⟨List.mem_cons.mpr (Or.inr hx),
            fun he => (List.nodup_cons.mp hnd).1 (he ▸ hx)⟩
        · rintro ⟨hx, hne⟩
          rcases List.mem_cons.mp hx with h | h
          · exact absurd h hne
          · exact h
      · have hn' : n ∈ rest := by
          rcases List.mem_cons.mp hn with h | h
          · exact absurd h.symm ha
          · exact h
        rcases ih (List.nodup_cons.mp hnd).2 hn' with ⟨nv', he, hnd', hmem, hlen⟩
        refine ⟨a :: nv', ?_, ?_, fun x => ?_, by simp [← hlen]⟩
        · rw [show pyRemove (a :: rest) n = (pyRemove rest n).map (fun l => a :: l) from by
            simp [pyRemove, ha], he]
          rfl
        · refine List.nodup_cons.mpr ⟨fun hc => ?_, hnd'⟩
          exact (List.nodup_cons.mp hnd).1 ((hmem a).mp hc).1
        · constructor
          · intro hx
            rcases List.mem_cons.mp hx with h | h
            · exact ⟨h ▸ List.mem_cons_self a rest, h ▸ fun he => ha he⟩
            · rcases (hmem x).mp h with ⟨h1, h2⟩
              exact ⟨List.mem_cons.mpr (Or.inr h1), h2⟩
          · rintro ⟨hx, hne⟩
            rcases List.mem_cons.mp hx with h | h
            · exact List.mem_cons.mpr (Or.inl h)
            · exact List.mem_cons.mpr (Or.inr ((hmem x).mpr ⟨h, hne⟩))

theorem ccDiscover_spec (nbrs : List VId) : ∀ (seen nv queue : List VId),
    seen.Nodup → nv.Nodup →
    (∀ x ∈ seen, x ∉ nv) →
    (∀ n ∈ nbrs, n ∉ seen → n ∈ nv) →
    ∃ newl nv', Graph.ccDiscover seen nv queue nbrs = .ok (seen ++ newl, nv', queue ++ newl) ∧
      newl.Nodup ∧ (∀ x ∈ newl, x ∈ nbrs ∧ x ∉ seen ∧ x ∈ nv) ∧
      (∀ x ∈ nbrs, x ∉ seen → x ∈ newl) ∧
      nv'.Nodup ∧ (∀ x, x ∈ nv' ↔ x ∈ nv ∧ x ∉ newl) ∧
      nv'.length + newl.length = nv.length := by
  induction nbrs with
  | nil =>
      intro seen nv queue _ hnvnd _ _
      exact ⟨[], nv, by simp [Graph.ccDiscover], List.nodup_nil,
        fun x hx => absurd hx (List.not_mem_nil x),
        fun x hx => absurd hx (List.not_mem_nil x),
        hnvnd, fun x => by simp, by simp⟩
  | cons n rest ih =>
      intro seen nv queue hseennd hnvnd hdisj hpre
      by_cases hn : n ∈ seen
      · rcases ih seen nv queue hseennd hnvnd hdisj
          (fun x hx hxs => hpre x (List.mem_cons.mpr (Or.inr hx)) hxs) with
          ⟨newl, nv', he, hnd, hmem, hcompl, hnd', hmem', hlen⟩
        refine ⟨newl, nv', by simpa [Graph.ccDiscover, hn] using he, hnd,
          fun x hx => ⟨List.mem_cons.mpr (Or.inr (hmem x hx).1), (hmem x hx).2.1,
            (hmem x hx).2.2⟩,
          fun x hx hxs => ?_, hnd', hmem', hlen⟩
        rcases List.mem_cons.mp hx with he' | he'
        · exact absurd (he' ▸ hn) hxs
        · exact hcompl x he' hxs
      · have hnnv : n ∈ nv := hpre n (List.mem_cons_self n rest) hn
        rcases pyRemove_spec hnvnd hnnv with ⟨nv1, hrem, hnv1nd, hnv1mem, hnv1len⟩
        have hstep : Graph.ccDiscover seen nv queue (n :: rest) =
            Graph.ccDiscover (seen ++ [n]) nv1 (queue ++ [n]) rest := by
          simp only [Graph.ccDiscover, hn, hrem, if_neg]
          rfl
        rcases ih (seen ++ [n]) nv1 (queue ++ [n])
          (List.nodup_append.mpr ⟨hseennd, List.nodup_singleton n,
            fun a ha hb => hn ((List.mem_singleton.mp hb) ▸ ha)⟩)
          hnv1nd
          (by
            intro x hx hc
            rcases List.mem_append.mp hx with h | h
            · exact hdisj x h ((hnv1mem x).mp hc).1
            · exact ((hnv1mem x).mp hc).2 (List.mem_singleton.mp h))
          (by
            intro x hx hxs
            refine (hnv1mem x).mpr ⟨hpre x (List.mem_cons.mpr (Or.inr hx))
              (fun hc => hxs (List.mem_append.mpr (Or.inl hc))), fun he => ?_⟩
            exact hxs (List.mem_append.mpr (Or.inr (List.mem_singleton.mpr he))))
          with ⟨newl, nv', he, hnd, hmem, hcompl, hnd', hmem', hlen⟩
        refine ⟨n :: newl, nv', ?_, ?_, ?_, ?_, hnd', fun x => ?_, ?_⟩
        · rw [hstep, he]
          simp
        · refine List.nodup_cons.mpr ⟨fun hc => ?_, hnd⟩
          exact (hmem n hc).2.1 (List.mem_append.mpr (Or.inr (List.mem_singleton.mpr rfl)))
        · intro x hx
          rcases List.mem_cons.mp hx with he' | he'
          · exact ⟨he' ▸ List.mem_cons_self n rest, he' ▸ hn, he' ▸ hnnv⟩
          · refine ⟨List.mem_cons.mpr (Or.inr (hmem x he').1),
              fun hc => (hmem x he').2.1 (List.mem_append.mpr (Or.inl hc)), ?_⟩
            exact ((hnv1mem x).mp (hmem x he').2.2).1
        · intro x hx hxs
          rcases List.mem_cons.mp hx with he' | he'
          · exact List.mem_cons.mpr (Or.inl he')
          · by_cases hxn : x = n
            · exact List.mem_cons.mpr (Or.inl hxn)
            · refine List.mem_cons.mpr (Or.inr (hcompl x he' ?_))
              intro hc
              rcases List.mem_append.mp hc with hc' | hc'
              · exact hxs hc'
              · exact hxn (List.mem_singleton.mp hc')
        · constructor
          · intro hx
            rcases (hmem' x).mp hx with ⟨h1, h2⟩
            rcases (hnv1mem x).mp h1 with ⟨h3, h4⟩
            exact ⟨h3, fun hc => by
              rcases List.mem_cons.mp hc with h5 | h5
              · exact h4 h5
              · exact h2 h5⟩
          · rintro ⟨hx, hne⟩
            refine (hmem' x).mpr ⟨(hnv1mem x).mpr ⟨hx, fun he => ?_⟩, fun hc => ?_⟩
            · exact hne (he ▸ List.mem_cons_self n newl)
            · exact hne (List.mem_cons.mpr (Or.inr hc))
        · simp only [List.length_cons]
          omega

theorem ccBfs_spec (g : Graph) (hwf : g.WF) (hcl : g.Closed) (hd : g.is_directed = false)
    (done : VId → Prop)
    (hdone_closed : ∀ x y, done x → g.Nbr x y → done y) :
    ∀ (fuel : Nat) (seen nv queue : List VId),
    (∀ x ∈ queue, x ∈ seen) →
    seen.Nodup → nv.Nodup →
    (∀ x ∈ seen, x ∉ nv) →
    (∀ x ∈ seen, x ∈ alistKeys g.vertex_dict) →
    (∀ x ∈ nv, x ∈ alistKeys g.vertex_dict) →
    (∀ x ∈ seen, ¬ done x) →
    (∀ x ∈ nv, ¬ done x) →
    (∀ x ∈ alistKeys g.vertex_dict, done x ∨ x ∈ seen ∨ x ∈ nv) →
    (∀ x ∈ seen, x ∉ queue → ∀ y, g.Nbr x y → y ∈ seen) →
    queue.length + ((alistKeys g.vertex_dict).length - seen.length) + 1 ≤ fuel →
    ∃ seenF nvF, Graph.ccBfs g fuel seen nv queue = .ok (seenF, nvF) ∧
      (∀ x ∈ seen, x ∈ seenF) ∧ seenF.Nodup ∧ nvF.Nodup ∧
      (∀ x ∈ seenF, x ∉ nvF) ∧
      (∀ x ∈ seenF, x ∈ alistKeys g.vertex_dict) ∧
      (∀ x ∈ nvF, x ∈ alistKeys g.vertex_dict) ∧
      (∀ x ∈ seenF, ¬ done x) ∧ (∀ x ∈ nvF, ¬ done x) ∧
      (∀ x ∈ alistKeys g.vertex_dict, done x ∨ x ∈ seenF ∨ x ∈ nvF) ∧
      (∀ x ∈ seenF, ∀ y, g.Nbr x y → y ∈ seenF) ∧
      (∀ x ∈ nvF, x ∈ nv) := by
  intro fuel
  induction fuel with
  | zero => intro seen nv queue _ _ _ _ _ _ _ _ _ _ hfuel; omega
  | succ f ih =>
      intro seen nv queue hq hseennd hnvnd hdisj hseenU hnvU hseenD hnvD hcover hproc hfuel
      rcases queue with _ | ⟨cur, qrest⟩
      · exact ⟨seen, nv, by simp [Graph.ccBfs], fun x hx => hx, hseennd, hnvnd, hdisj,
          hseenU, hnvU, hseenD, hnvD, hcover,
          fun x hx y hy => hproc x hx (List.not_mem_nil x) y hy, fun x hx => hx⟩
      · have hcur_seen : cur ∈ seen := hq cur (List.mem_cons_self cur qrest)
        have hcur_keys := hseenU cur hcur_seen
        rcases lookup_isSome_of_mem_keys hcur_keys with ⟨adj, hadj⟩
        have hgn := get_neighbors_eq g cur adj hadj
        set L := (if g.is_directed then [] else
          (g.vertex_dict.filter (fun p => decide (cur ∈ p.2))).map Prod.fst) ++ adj with hLdef
        have hnbr : ∀ y, g.Nbr cur y ↔ y ∈ L :=
          fun y => (mem_neighbors_iff g hwf hadj y).symm
        have hpre : ∀ n ∈ L, n ∉ seen → n ∈ nv := by
          intro n hnL hns
          have hnNbr := (hnbr n).mpr hnL
          have hnk : n ∈ alistKeys g.vertex_dict := Nbr_mem_keys hcl hnNbr
          rcases hcover n hnk with hdn | hs | hnv
          · exact absurd (hdone_closed n cur hdn (Nbr_symm hd hcl hnNbr))
              (hseenD cur hcur_seen)
          · exact absurd hs hns
          · exact hnv
        rcases ccDiscover_spec L seen nv qrest hseennd hnvnd hdisj hpre with
          ⟨newl, nv', hdisc, hnewnd, hnewmem, hnewcompl, hnv'nd, hnv'mem, hnv'len⟩
        have hstep : Graph.ccBfs g (f + 1) seen nv (cur :: qrest) =
            Graph.ccBfs g f (seen ++ newl) nv' (qrest ++ newl) := by
          have h0 : Graph.ccBfs g (f + 1) seen nv (cur :: qrest) =
              (Graph.ccDiscover seen nv qrest L).bind
                (fun snq => Graph.ccBfs g f snq.1 snq.2.1 snq.2.2) := by
            simp only [Graph.ccBfs, hgn]
            rfl
          rw [h0, hdisc]
          rfl
        have hnewl_nv : ∀ x ∈ newl, x ∈ nv := fun x hx => (hnewmem x hx).2.2
        have hseen_nd : (seen ++ newl).Nodup :=
          List.nodup_append.mpr ⟨hseennd, hnewnd, fun a ha hb => (hnewmem a hb).2.1 ha⟩
        have hseen_sub : ∀ x ∈ seen ++ newl, x ∈ alistKeys g.vertex_dict := by
          intro x hx
          rcases List.mem_append.mp hx with h | h
          · exact hseenU x h
          · exact hnvU x (hnewl_nv x h)
        have hlen : (seen ++ newl).length ≤ (alistKeys g.vertex_dict).length :=
          length_le_of_nodup_subset hseen_nd hseen_sub
        rcases ih (seen ++ newl) nv' (qrest ++ newl)
          (by
            intro x hx
            rcases List.mem_append.mp hx with h | h
            · exact List.mem_append.mpr (Or.inl (hq x (List.mem_cons.mpr (Or.inr h))))
            · exact List.mem_append.mpr (Or.inr h))
          hseen_nd
          hnv'nd
          (by
            intro x hx hc
            rcases (hnv'mem x).mp hc with ⟨hxnv, hxnew⟩
            rcases List.mem_append.mp hx with h | h
            · exact hdisj x h hxnv
            · exact hxnew h)
          hseen_sub
          (fun x hx => hnvU x ((hnv'mem x).mp hx).1)
          (by
            intro x hx
            rcases List.mem_append.mp hx with h | h
            · exact hseenD x h
            · exact hnvD x (hnewl_nv x h))
          (fun x hx => hnvD x ((hnv'mem x).mp hx).1)
          (by
            intro x hxk
            rcases hcover x hxk with hdn | hs | hnv
            · exact Or.inl hdn
            · exact Or.inr (Or.inl (List.mem_append.mpr (Or.inl hs)))
            · by_cases hxnew : x ∈ newl
              · exact Or.inr (Or.inl (List.mem_append.mpr (Or.inr hxnew)))
              · exact Or.inr (Or.inr ((hnv'mem x).mpr ⟨hnv, hxnew⟩)))
          (by
            intro x hx hxq y hy
            rcases List.mem_append.mp hx with h | h
            · by_cases hxc : x = cur
              · subst hxc
                have hyL := (hnbr y).mp hy
                by_cases hys : y ∈ seen
                · exact List.mem_append.mpr (Or.inl hys)
                · exact List.mem_append.mpr (Or.inr (hnewcompl y hyL hys))
              · have hxq0 : x ∉ cur :: qrest := by
                  intro hc
                  rcases List.mem_cons.mp hc with h' | h'
                  · exact hxc h'
                  · exact hxq (List.mem_append.mpr (Or.inl h'))
                exact List.mem_append.mpr (Or.inl (hproc x h hxq0 y hy))
            · exact absurd (List.mem_append.mpr (Or.inr h)) hxq)
          (by
            have h1 : (qrest ++ newl).length = qrest.length + newl.length :=
              List.length_append _ _
            have h2 : (seen ++ newl).length = seen.length + newl.length :=
              List.length_append _ _
            have h3 : (cur :: qrest).length = qrest.length + 1 := by simp
            rw [h2] at hlen
            rw [h1, h2]
            rw [h3] at hfuel
            omega)
          with ⟨seenF, nvF, heq, hsub, hFnd, hnvFnd, hFdisj, hFU, hnvFU, hFD, hnvFD,
            hFcover, hFclo, hnvFsub⟩
        refine ⟨seenF, nvF, by rw [hstep]; exact heq,
          fun x hx => hsub x (List.mem_append.mpr (Or.inl hx)),
          hFnd, hnvFnd, hFdisj, hFU, hnvFU, hFD, hnvFD, hFcover, hFclo,
          fun x hx => ((hnv'mem x).mp (hnvFsub x hx)).1⟩

theorem ccOuter_spec (g : Graph) (hwf : g.WF) (hcl : g.Closed) (hd : g.is_directed = false) :
    ∀ (fuel : Nat) (nv : List VId) (acc : List (List VId)),
    nv.Nodup →
    (∀ x ∈ nv, x ∈ alistKeys g.vertex_dict) →
    (∀ c ∈ acc, ∀ x ∈ c, x ∈ alistKeys g.vertex_dict) →
    (∀ c ∈ acc, ∀ x ∈ c, x ∉ nv) →
    (∀ x ∈ alistKeys g.vertex_dict, (∃ c ∈ acc, x ∈ c) ∨ x ∈ nv) →
    (∀ x y, (∃ c ∈ acc, x ∈ c) → g.Nbr x y → (∃ c ∈ acc, y ∈ c)) →
    List.Pairwise (fun c d => ∀ x, x ∈ c → x ∉ d) acc →
    nv.length + 1 ≤ fuel →
    ∃ comps, Graph.ccOuter g fuel nv acc = .ok comps ∧
      (∀ x, (∃ c ∈ comps, x ∈ c) ↔ ((∃ c ∈ acc, x ∈ c) ∨ x ∈ nv)) ∧
      List.Pairwise (fun c d => ∀ x, x ∈ c → x ∉ d) comps := by
  intro fuel
  induction fuel with
  | zero => intro nv acc _ _ _ _ _ _ _ hfuel; omega
  | succ f ih =>
      intro nv acc hnvnd hnvU haccU haccnv hcover hclosed hpw hfuel
      rcases List.eq_nil_or_concat nv with hnil | ⟨nv0, start, hconcat⟩
      · subst hnil
        refine ⟨acc, by simp [Graph.ccOuter], fun x => ?_, hpw⟩
        simp
      · have hconcat2 : nv = nv0 ++ [start] := by
          rw [hconcat, List.concat_eq_append]
        clear hconcat
        subst hconcat2
        have hstart_nv : start ∈ nv0 ++ [start] :=
          List.mem_append.mpr (Or.inr (List.mem_singleton.mpr rfl))
        have hstart_keys := hnvU start hstart_nv
        have hnv0nd : nv0.Nodup := (List.nodup_append.mp hnvnd).1
        have hstart_nv0 : start ∉ nv0 := by
          intro hc
          exact (List.nodup_append.mp hnvnd).2.2 hc (List.mem_singleton.mpr rfl)
        rcases ccBfs_spec g hwf hcl hd (fun x => ∃ c ∈ acc, x ∈ c)
          (fun x y hx hxy => hclosed x y hx hxy)
          (g.vertex_dict.length + 2) [start] nv0 [start]
          (fun x hx => hx)
          (List.nodup_singleton start)
          hnv0nd
          (fun x hx hc => hstart_nv0 ((List.mem_singleton.mp hx) ▸ hc))
          (fun x hx => (List.mem_singleton.mp hx) ▸ hstart_keys)
          (fun x hx => hnvU x (List.mem_append.mpr (Or.inl hx)))
          (fun x hx ⟨c, hc, hxc⟩ =>
            haccnv c hc x hxc ((List.mem_singleton.mp hx) ▸ hstart_nv))
          (fun x hx ⟨c, hc, hxc⟩ =>
            haccnv c hc x hxc (List.mem_append.mpr (Or.inl hx)))
          (by
            intro x hxk
            rcases hcover x hxk with hdn | hnv
            · exact Or.inl hdn
            · rcases List.mem_append.mp hnv with h | h
              · exact Or.inr (Or.inr h)
              · exact Or.inr (Or.inl (List.mem_singleton.mpr (List.mem_singleton.mp h))))
          (fun x hx hxq => absurd hx hxq)
          (by
            have hk : (alistKeys g.vertex_dict).length = g.vertex_dict.length := by
              simp [alistKeys]
            simp only [List.length_singleton]
            omega)
          with ⟨seenF, nvF, hinner, hsub, hFnd, hnvFnd, hFdisj, hFU, hnvFU, hFD, hnvFD,
            hFcover, hFclo, hnvFsub⟩
        have hstep : Graph.ccOuter g (f + 1) (nv0 ++ [start]) acc =
            Graph.ccOuter g f nvF (acc ++ [seenF]) := by
          have h0 : Graph.ccOuter g (f + 1) (nv0 ++ [start]) acc =
              (Graph.ccBfs g (g.vertex_dict.length + 2) [start] nv0 [start]).bind
                (fun sn => Graph.ccOuter g f sn.2 (acc ++ [sn.1])) := by
            simp only [Graph.ccOuter, List.getLast?_concat, List.dropLast_concat]
            rfl
          rw [h0, hinner]
          rfl
        have hseenF_nv : ∀ x ∈ seenF, x ∈ nv0 ++ [start] := by
          intro x hx
          rcases hcover x (hFU x hx) with hdn | hnv
          · exact absurd hdn (hFD x hx)
          · exact hnv
        rcases ih nvF (acc ++ [seenF])
          hnvFnd
          hnvFU
          (by
            intro c hc x hxc
            rcases List.mem_append.mp hc with h | h
            · exact haccU c h x hxc
            · exact hFU x ((List.mem_singleton.mp h) ▸ hxc))
          (by
            intro c hc x hxc hxnv
            rcases List.mem_append.mp hc with h | h
            · exact hnvFD x hxnv ⟨c, h, hxc⟩
            · exact hFdisj x ((List.mem_singleton.mp h) ▸ hxc) hxnv)
          (by
            intro x hxk
            rcases hFcover x hxk with hdn | hs | hnv
            · rcases hdn with ⟨c, hc, hxc⟩
              exact Or.inl ⟨c, List.mem_append.mpr (Or.inl hc), hxc⟩
            · exact Or.inl ⟨seenF, List.mem_append.mpr
                (Or.inr (List.mem_singleton.mpr rfl)), hs⟩
            · exact Or.inr hnv)
          (by
            rintro x y ⟨c, hc, hxc⟩ hxy
            rcases List.mem_append.mp hc with h | h
            · rcases hclosed x y ⟨c, h, hxc⟩ hxy with ⟨c', hc', hyc'⟩
              exact ⟨c', List.mem_append.mpr (Or.inl hc'), hyc'⟩
            · exact ⟨seenF, List.mem_append.mpr (Or.inr (List.mem_singleton.mpr rfl)),
                hFclo x ((List.mem_singleton.mp h) ▸ hxc) y hxy⟩)
          (by
            rw [List.pairwise_append]
            refine ⟨hpw, List.pairwise_singleton _ _, ?_⟩
            intro c hc d hdm x hxc
            have : d = seenF := List.mem_singleton.mp hdm
            subst this
            intro hxd
            exact (hFD x hxd) ⟨c, hc, hxc⟩)
          (by
            have hlen : nvF.length ≤ nv0.length :=
              length_le_of_nodup_subset hnvFnd hnvFsub
            have hlen2 : (nv0 ++ [start]).length = nv0.length + 1 := by simp
            rw [hlen2] at hfuel
            omega)
          with ⟨comps, houter, hiff, hpwF⟩
        refine ⟨comps, by rw [hstep]; exact houter, fun x => ?_, hpwF⟩
        rw [hiff x]
        constructor
        · rintro (⟨c, hc, hxc⟩ | hnv)
          · rcases List.mem_append.mp hc with h | h
            · exact Or.inl ⟨c, h, hxc⟩
            · exact Or.inr (hseenF_nv x ((List.mem_singleton.mp h) ▸ hxc))
          · exact Or.inr (List.mem_append.mpr (Or.inl (hnvFsub x hnv)))
        · rintro (⟨c, hc, hxc⟩ | hnv)
          · exact Or.inl ⟨c, List.mem_append.mpr (Or.inl hc), hxc⟩
          · have hxk := hnvU x hnv
            rcases hFcover x hxk with hdn | hs | hnvf
            · rcases hdn with ⟨c, hc, hxc⟩
              exact Or.inl ⟨c, List.mem_append.mpr (Or.inl hc), hxc⟩
            · exact Or.inl ⟨seenF, List.mem_append.mpr
                (Or.inr (List.mem_singleton.mpr rfl)), hs⟩
            · exact Or.inr hnvf

theorem alistSet_fresh {α : Type} {l : List (VId × α)} {k : VId}
    (h : k ∉ alistKeys l) (v : α) : alistSet l k v = l ++ [(k, v)] := by
  induction l with
  | nil => rfl
  | cons p rest ih =>
      rcases p with ⟨a, b⟩
      have h' : k ∉ alistKeys rest := fun hc => h (List.mem_cons.mpr (Or.inr hc))
      have hak : ¬ a = k := fun he => h (List.mem_cons.mpr (Or.inl he.symm))
      show (if a = k then (k, v) :: rest else (a, b) :: alistSet rest k v) = _
      rw [if_neg hak, ih h']
      simp

theorem spDiscover_spec (v : VId) (nbrs : List VId) :
    ∀ (pd : List (VId × List VId)) (queue : List VId) (pv : List VId),
    alistLookup pd v = some pv →
    ∃ news, Graph.spDiscover v pd queue nbrs =
        .ok (pd ++ news.map (fun n => (n, pv ++ [n])), queue ++ news) ∧
      news.Nodup ∧ (∀ n ∈ news, n ∈ nbrs ∧ n ∉ alistKeys pd) ∧
      (∀ n ∈ nbrs, n ∉ alistKeys pd → n ∈ news) := by
  induction nbrs with
  | nil =>
      intro pd queue pv hv
      exact ⟨[], by simp [Graph.spDiscover], List.nodup_nil,
        fun n hn => absurd hn (List.not_mem_nil n),
        fun n hn => absurd hn (List.not_mem_nil n)⟩
  | cons n rest ih =>
      intro pd queue pv hv
      by_cases hn : n ∈ alistKeys pd
      · rcases ih pd queue pv hv with ⟨news, he, hnd, hmem, hcompl⟩
        refine ⟨news, by simpa [Graph.spDiscover, hn] using he, hnd,
          fun x hx => ⟨List.mem_cons.mpr (Or.inr (hmem x hx).1), (hmem x hx).2⟩,
          fun x hx hxk => ?_⟩
        rcases List.mem_cons.mp hx with he' | he'
        · exact absurd (he' ▸ hn) hxk
        · exact hcompl x he' hxk
      · have hset := alistSet_fresh hn (pv ++ [n])
        have hv1 : alistLookup (pd ++ [(n, pv ++ [n])]) v = some pv := by
          rw [alistLookup_append, hv]
        rcases ih (pd ++ [(n, pv ++ [n])]) (queue ++ [n]) pv hv1 with
          ⟨news, he, hnd, hmem, hcompl⟩
        have hkeys_app : ∀ x, x ∈ alistKeys (pd ++ [(n, pv ++ [n])]) ↔
            (x ∈ alistKeys pd ∨ x = n) := by
          intro x
          simp [alistKeys]
        refine ⟨n :: news, ?_, ?_, ?_, ?_⟩
        · rw [show Graph.spDiscover v pd queue (n :: rest) =
              Graph.spDiscover v (alistSet pd n (pv ++ [n])) (queue ++ [n]) rest from by
                simp [Graph.spDiscover, hn, hv], hset, he]
          simp
        · refine List.nodup_cons.mpr ⟨fun hc => ?_, hnd⟩
          exact (hmem n hc).2 ((hkeys_app n).mpr (Or.inr rfl))
        · intro x hx
          rcases List.mem_cons.mp hx with he' | he'
          · exact ⟨he' ▸ List.mem_cons_self n rest, he' ▸ hn⟩
          · exact ⟨List.mem_cons.mpr (Or.inr (hmem x he').1),
              fun hc => (hmem x he').2 ((hkeys_app x).mpr (Or.inl hc))⟩
        · intro x hx hxk
          rcases List.mem_cons.mp hx with he' | he'
          · exact List.mem_cons.mpr (Or.inl he')
          · by_cases hxn : x = n
            · exact List.mem_cons.mpr (Or.inl hxn)
            · exact List.mem_cons.mpr (Or.inr (hcompl x he'
                (fun hc => by
                  rcases (hkeys_app x).mp hc with h' | h'
                  · exact hxk h'
                  · exact hxn h')))

theorem lookup_map_pair_of_mem {f : VId → List VId} {news : List VId} {n : VId}
    (hnd : news.Nodup) (hn : n ∈ news) :
    alistLookup (news.map (fun m => (m, f m))) n = some (f n) := by
  induction news with
  | nil => cases hn
  | cons a rest ih =>
      by_cases ha : a = n
      · subst ha
        show (if a = a then some (f a) else _) = some (f a)
        rw [if_pos rfl]
      · rcases List.mem_cons.mp hn with h | h
        · exact absurd h.symm ha
        · show (if a = n then some (f a) else
            alistLookup (rest.map (fun m => (m, f m))) n) = some (f n)
          rw [if_neg ha]
          exact ih (List.nodup_cons.mp hnd).2 h

theorem lookup_map_pair_some {f : VId → List VId} {news : List VId} {n : VId}
    {p : List VId}
    (h : alistLookup (news.map (fun m => (m, f m))) n = some p) :
    n ∈ news ∧ p = f n := by
  induction news with
  | nil => cases h
  | cons a rest ih =>
      by_cases ha : a = n
      · subst ha
        rw [show alistLookup ((a :: rest).map (fun m => (m, f m))) a = some (f a) from by
          show (if a = a then some (f a) else _) = some (f a); rw [if_pos rfl]] at h
        cases h
        exact ⟨List.mem_cons_self _ _, rfl⟩
      · rw [show alistLookup ((a :: rest).map (fun m => (m, f m))) n =
            alistLookup (rest.map (fun m => (m, f m))) n from by
          show (if a = n then some (f a) else _) = _
          rw [if_neg ha]] at h
        rcases ih h with ⟨h1, h2⟩
        exact ⟨List.mem_cons.mpr (Or.inr h1), h2⟩

theorem path_crossing (g : Graph) (s : VId) (pd : List (VId × List VId))
    (queue : List VId)
    (hS5 : ∀ x, x ∈ alistKeys pd → x ∉ queue → ∀ y, g.Nbr x y →
      y ∈ alistKeys pd ∧ Graph.pdLen pd y ≤ Graph.pdLen pd x + 1)
    (hS9 : alistLookup pd s = some [s]) :
    ∀ q : List VId, q.Chain' g.Nbr → q.head? = some s →
    (∃ t, q.getLast? = some t ∧ t ∈ alistKeys pd ∧ Graph.pdLen pd t ≤ q.length) ∨
    (∃ y ∈ queue, Graph.pdLen pd y ≤ q.length) := by
  intro q
  induction q using List.reverseRecOn with
  | nil => intro _ hh; cases hh
  | append_singleton l t ihl =>
      intro hchain hhead
      rcases l with _ | ⟨z, l0⟩
      · have ht : t = s := by
          simp at hhead
          exact hhead
        subst ht
        refine Or.inl ⟨t, by simp, mem_keys_of_lookup hS9, ?_⟩
        simp [Graph.pdLen, hS9]
      · have hlne : z :: l0 ≠ [] := by simp
        have hchain' := List.chain'_append.mp hchain
        have hu : ∃ u, (z :: l0).getLast? = some u := ⟨(z :: l0).getLast hlne,
          List.getLast?_eq_getLast _ hlne⟩
        rcases hu with ⟨u, hu⟩
        have hnbr : g.Nbr u t := by
          have := hchain'.2.2 u (by rw [hu]; rfl) t rfl
          exact this
        have hhead' : (z :: l0).head? = some s := by
          rw [show ((z :: l0) ++ [t]).head? = (z :: l0).head? from rfl] at hhead
          exact hhead
        rcases ihl hchain'.1 hhead' with ⟨t', hlast', hdom', hlen'⟩ | ⟨y, hyq, hylen⟩
        · have ht'u : t' = u := by
            rw [hu] at hlast'
            cases hlast'
            rfl
          subst ht'u
          by_cases hq : t' ∈ queue
          · refine Or.inr ⟨t', hq, ?_⟩
            calc Graph.pdLen pd t' ≤ (z :: l0).length := hlen'
              _ ≤ ((z :: l0) ++ [t]).length := by simp
          · rcases hS5 t' hdom' hq t hnbr with ⟨htdom, htlen⟩
            refine Or.inl ⟨t, List.getLast?_concat _, htdom, ?_⟩
            calc Graph.pdLen pd t ≤ Graph.pdLen pd t' + 1 := htlen
              _ ≤ (z :: l0).length + 1 := by omega
              _ = ((z :: l0) ++ [t]).length := by simp
        · refine Or.inr ⟨y, hyq, ?_⟩
          calc Graph.pdLen pd y ≤ (z :: l0).length := hylen
            _ ≤ ((z :: l0) ++ [t]).length := by simp

theorem spLoop_spec (g : Graph) (hwf : g.WF) (hcl : g.Closed) (s target : VId) :
    ∀ (fuel : Nat) (pd : List (VId × List VId)) (queue : List VId),
    (∀ x ∈ queue, x ∈ alistKeys pd) →
    (alistKeys pd).Nodup →
    (∀ x ∈ alistKeys pd, x ∈ alistKeys g.vertex_dict) →
    (∀ x p, alistLookup pd x = some p →
      p.Chain' g.Nbr ∧ p.head? = some s ∧ p.getLast? = some x) →
    (∀ x, x ∈ alistKeys pd → x ∉ queue → ∀ y, g.Nbr x y →
      y ∈ alistKeys pd ∧ Graph.pdLen pd y ≤ Graph.pdLen pd x + 1) →
    (∀ x, x ∈ alistKeys pd → x ∉ queue → ∀ y ∈ queue,
      Graph.pdLen pd x ≤ Graph.pdLen pd y) →
    (∀ y ∈ queue, ∀ z ∈ queue, Graph.pdLen pd y ≤ Graph.pdLen pd z + 1) →
    List.Pairwise (fun a b => Graph.pdLen pd a ≤ Graph.pdLen pd b) queue →
    alistLookup pd s = some [s] →
    queue.length + ((alistKeys g.vertex_dict).length - (alistKeys pd).length) + 1 ≤ fuel →
    ∃ pdF, Graph.spLoop g target fuel pd queue = .ok pdF ∧
      ((g.Reach s target ∨ target ∈ alistKeys pd) →
        ∃ p, alistLookup pdF target = some p ∧
          p.Chain' g.Nbr ∧ p.head? = some s ∧ p.getLast? = some target ∧
          ∀ q : List VId, q.Chain' g.Nbr → q.head? = some s → q.getLast? = some target →
            p.length ≤ q.length) := by
  intro fuel
  induction fuel with
  | zero => intro pd queue _ _ _ _ _ _ _ _ _ hfuel; omega
  | succ f ih =>
      intro pd queue hS1 hS10a hS10b hS4 hS5 hS6 hS7 hS8 hS9 hfuel
      rcases queue with _ | ⟨v, qrest⟩
      · refine ⟨pd, by simp [Graph.spLoop], fun hyp => ?_⟩
        have htdom : target ∈ alistKeys pd := by
          rcases hyp with hr | hdm
          · clear ih hfuel
            induction hr with
            | refl => exact mem_keys_of_lookup hS9
            | tail hab hbc ihr => exact (hS5 _ ihr (List.not_mem_nil _) _ hbc).1
          · exact hdm
        rcases lookup_isSome_of_mem_keys htdom with ⟨p, hp⟩
        rcases hS4 target p hp with ⟨hch, hh, hl⟩
        refine ⟨p, hp, hch, hh, hl, fun q hqc hqh hql => ?_⟩
        rcases path_crossing g s pd [] hS5 hS9 q hqc hqh with
          ⟨t', hlast', hdom', hlen'⟩ | ⟨y, hy, _⟩
        · have ht' : t' = target := by
            rw [hql] at hlast'
            exact (Option.some_inj.mp hlast').symm
          subst ht'
          have hpl : Graph.pdLen pd t' = p.length := by simp [Graph.pdLen, hp]
          omega
        · exact absurd hy (List.not_mem_nil y)
      · by_cases hvt : v = target
        · subst hvt
          refine ⟨pd, by simp [Graph.spLoop], fun _ => ?_⟩
          have hvdom : v ∈ alistKeys pd := hS1 v (List.mem_cons_self _ _)
          rcases lookup_isSome_of_mem_keys hvdom with ⟨p, hp⟩
          rcases hS4 v p hp with ⟨hch, hh, hl⟩
          refine ⟨p, hp, hch, hh, hl, fun q hqc hqh hql => ?_⟩
          have hplen : Graph.pdLen pd v = p.length := by simp [Graph.pdLen, hp]
          rcases path_crossing g s pd (v :: qrest) hS5 hS9 q hqc hqh with
            ⟨t', hlast', hdom', hlen'⟩ | ⟨y, hyq, hylen⟩
          · have ht' : t' = v := by
              rw [hql] at hlast'
              exact (Option.some_inj.mp hlast').symm
            subst ht'
            omega
          · have hvy : Graph.pdLen pd v ≤ Graph.pdLen pd y := by
              rcases List.mem_cons.mp hyq with h | h
              · rw [h]
              · exact (List.pairwise_cons.mp hS8).1 y h
            omega
        · have hvdom : v ∈ alistKeys pd := hS1 v (List.mem_cons_self _ _)
          rcases lookup_isSome_of_mem_keys hvdom with ⟨pv, hpv⟩
          have hvkeys : v ∈ alistKeys g.vertex_dict := hS10b v hvdom
          rcases lookup_isSome_of_mem_keys hvkeys with ⟨adj, hadj⟩
          have hgn := get_neighbors_eq g v adj hadj
          set L := (if g.is_directed then [] else
            (g.vertex_dict.filter (fun p => decide (v ∈ p.2))).map Prod.fst) ++ adj
            with hLdef
          have hnbr : ∀ y, g.Nbr v y ↔ y ∈ L :=
            fun y => (mem_neighbors_iff g hwf hadj y).symm
          rcases spDiscover_spec v L pd qrest pv hpv with
            ⟨news, hdisc, hnewnd, hnewmem, hnewcompl⟩
          have hstep : Graph.spLoop g target (f + 1) pd (v :: qrest) =
              Graph.spLoop g target f (pd ++ news.map (fun n => (n, pv ++ [n])))
                (qrest ++ news) := by
            have h0 : Graph.spLoop g target (f + 1) pd (v :: qrest) =
                (Graph.spDiscover v pd qrest L).bind
                  (fun pq => Graph.spLoop g target f pq.1 pq.2) := by
              simp only [Graph.spLoop]
              rw [if_neg hvt]
              simp only [hgn]
              rfl
            rw [h0, hdisc]
            rfl
          set pd' := pd ++ news.map (fun n => (n, pv ++ [n])) with hpd'
          have hkeys' : alistKeys pd' = alistKeys pd ++ news := by
            rw [hpd']
            simp only [alistKeys, List.map_append, List.map_map]
            congr 1
            have hcompid : (Prod.fst ∘ fun n : VId => (n, pv ++ [n])) = id := by
              funext n
              rfl
            rw [hcompid, List.map_id]
          have hlookup_old : ∀ x px, alistLookup pd x = some px →
              alistLookup pd' x = some px := by
            intro x px hx
            rw [hpd', alistLookup_append, hx]
          have hlookup_char : ∀ x px, alistLookup pd' x = some px →
              alistLookup pd x = some px ∨ (x ∈ news ∧ px = pv ++ [x]) := by
            intro x px hx
            rw [hpd', alistLookup_append] at hx
            rcases ho : alistLookup pd x with _ | p0
            · rw [ho] at hx
              exact Or.inr (lookup_map_pair_some hx)
            · rw [ho] at hx
              have hx2 : some p0 = some px := hx
              cases hx2
              exact Or.inl rfl
          have hlookup_new : ∀ n ∈ news, alistLookup pd' n = some (pv ++ [n]) := by
            intro n hn
            rw [hpd', alistLookup_append]
            rcases ho : alistLookup pd n with _ | p0
            · exact lookup_map_pair_of_mem hnewnd hn
            · exact absurd (mem_keys_of_lookup ho) ((hnewmem n hn).2)
          have hpdlen_old : ∀ x, x ∈ alistKeys pd →
              Graph.pdLen pd' x = Graph.pdLen pd x := by
            intro x hx
            rcases lookup_isSome_of_mem_keys hx with ⟨px, hpx⟩
            simp [Graph.pdLen, hpx, hlookup_old x px hpx]
          have hpdlen_new : ∀ n ∈ news,
              Graph.pdLen pd' n = Graph.pdLen pd v + 1 := by
            intro n hn
            simp [Graph.pdLen, hlookup_new n hn, hpv]
          have hnews_freshdom : ∀ n ∈ news, n ∉ alistKeys pd :=
            fun n hn => (hnewmem n hn).2
          have hnews_nbr : ∀ n ∈ news, g.Nbr v n :=
            fun n hn => (hnbr n).mpr (hnewmem n hn).1
          have hnews_keys : ∀ n ∈ news, n ∈ alistKeys g.vertex_dict :=
            fun n hn => Nbr_mem_keys hcl (hnews_nbr n hn)
          have hvnbr_bound : ∀ y, g.Nbr v y →
              y ∈ alistKeys pd' ∧ Graph.pdLen pd' y ≤ Graph.pdLen pd v + 1 := by
            intro y hy
            by_cases hyd : y ∈ alistKeys pd
            · refine ⟨by rw [hkeys']; exact List.mem_append.mpr (Or.inl hyd), ?_⟩
              rw [hpdlen_old y hyd]
              by_cases hyq : y ∈ v :: qrest
              · exact hS7 y hyq v (List.mem_cons_self _ _)
              · have := hS6 y hyd hyq v (List.mem_cons_self _ _)
                omega
            · have hyn : y ∈ news := hnewcompl y ((hnbr y).mp hy) hyd
              exact ⟨by rw [hkeys']; exact List.mem_append.mpr (Or.inr hyn),
                le_of_eq (hpdlen_new y hyn)⟩
          have hqrest_dom : ∀ x ∈ qrest, x ∈ alistKeys pd :=
            fun x hx => hS1 x (List.mem_cons.mpr (Or.inr hx))
          rcases ih pd' (qrest ++ news)
            (by
              intro x hx
              rw [hkeys']
              rcases List.mem_append.mp hx with h | h
              · exact List.mem_append.mpr (Or.inl (hqrest_dom x h))
              · exact List.mem_append.mpr (Or.inr h))
            (by
              rw [hkeys']
              exact List.nodup_append.mpr ⟨hS10a, hnewnd,
                fun a ha hb => (hnews_freshdom a hb) ha⟩)
            (by
              intro x hx
              rw [hkeys'] at hx
              rcases List.mem_append.mp hx with h | h
              · exact hS10b x h
              · exact hnews_keys x h)
            (by
              intro x p hx
              rcases hlookup_char x p hx with h | ⟨hn, hpe⟩
              · exact hS4 x p h
              · subst hpe
                rcases hS4 v pv hpv with ⟨hchv, hhv, hlv⟩
                rcases pv with _ | ⟨p0, prest⟩
                · cases hhv
                · refine ⟨?_, by simpa using hhv, List.getLast?_concat _⟩
                  refine List.chain'_append.mpr ⟨hchv, List.chain'_singleton _, ?_⟩
                  intro a ha b hb
                  have ha' : a = v := by
                    rw [hlv] at ha
                    exact (Option.some_inj.mp (by exact ha.symm))
                  have hb' : b = x := Option.some_inj.mp hb.symm
                  subst ha'; subst hb'
                  exact hnews_nbr _ hn)
            (by
              intro x hx hxq y hy
              rw [hkeys'] at hx
              rcases List.mem_append.mp hx with h | h
              · by_cases hxv : x = v
                · subst hxv
                  have hb := hvnbr_bound y hy
                  rw [hpdlen_old x h]
                  exact hb
                · have hxq0 : x ∉ v :: qrest := by
                    intro hc
                    rcases List.mem_cons.mp hc with h' | h'
                    · exact hxv h'
                    · exact hxq (List.mem_append.mpr (Or.inl h'))
                  rcases hS5 x h hxq0 y hy with ⟨hyd, hyl⟩
                  refine ⟨by rw [hkeys']; exact List.mem_append.mpr (Or.inl hyd), ?_⟩
                  rw [hpdlen_old y hyd, hpdlen_old x h]
                  exact hyl
              · exact absurd (List.mem_append.mpr (Or.inr h)) hxq)
            (by
              intro x hx hxq y hyq
              rw [hkeys'] at hx
              rcases List.mem_append.mp hx with h | h
              · by_cases hxv : x = v
                · subst hxv
                  rw [hpdlen_old x h]
                  rcases List.mem_append.mp hyq with hy | hy
                  · rw [hpdlen_old y (hqrest_dom y hy)]
                    exact (List.pairwise_cons.mp hS8).1 y hy
                  · rw [hpdlen_new y hy]
                    omega
                · have hxq0 : x ∉ v :: qrest := by
                    intro hc
                    rcases List.mem_cons.mp hc with h' | h'
                    · exact hxv h'
                    · exact hxq (List.mem_append.mpr (Or.inl h'))
                  rw [hpdlen_old x h]
                  rcases List.mem_append.mp hyq with hy | hy
                  · rw [hpdlen_old y (hqrest_dom y hy)]
                    exact hS6 x h hxq0 y (List.mem_cons.mpr (Or.inr hy))
                  · rw [hpdlen_new y hy]
                    have := hS6 x h hxq0 v (List.mem_cons_self _ _)
                    omega
              · exact absurd (List.mem_append.mpr (Or.inr h)) hxq)
            (by
              intro y hy z hz
              rcases List.mem_append.mp hy with hy' | hy' <;>
                rcases List.mem_append.mp hz with hz' | hz'
              · rw [hpdlen_old y (hqrest_dom y hy'), hpdlen_old z (hqrest_dom z hz')]
                exact hS7 y (List.mem_cons.mpr (Or.inr hy')) z
                  (List.mem_cons.mpr (Or.inr hz'))
              · rw [hpdlen_old y (hqrest_dom y hy'), hpdlen_new z hz']
                have := hS7 y (List.mem_cons.mpr (Or.inr hy')) v (List.mem_cons_self _ _)
                omega
              · rw [hpdlen_new y hy', hpdlen_old z (hqrest_dom z hz')]
                have := (List.pairwise_cons.mp hS8).1 z hz'
                omega
              · rw [hpdlen_new y hy', hpdlen_new z hz']
                omega)
            (by
              refine List.pairwise_append.mpr ⟨?_, ?_, ?_⟩
              · refine List.Pairwise.imp_of_mem ?_ (List.pairwise_cons.mp hS8).2
                intro a b ha hb hab
                rw [hpdlen_old a (hqrest_dom a ha), hpdlen_old b (hqrest_dom b hb)]
                exact hab
              · refine List.pairwise_of_forall_mem_list ?_
                intro a ha b hb
                rw [hpdlen_new a ha, hpdlen_new b hb]
              · intro a ha b hb
                rw [hpdlen_old a (hqrest_dom a ha), hpdlen_new b hb]
                have := hS7 a (List.mem_cons.mpr (Or.inr ha)) v (List.mem_cons_self _ _)
                omega)
            (hlookup_old s [s] hS9)
            (by
              have h1 : (qrest ++ news).length = qrest.length + news.length :=
                List.length_append _ _
              have h2 : alistKeys pd' = alistKeys pd ++ news := hkeys'
              have h3 : (alistKeys pd').length =
                  (alistKeys pd).length + news.length := by
                rw [h2]; exact List.length_append _ _
              have h4 : (alistKeys pd').length ≤ (alistKeys g.vertex_dict).length := by
                refine length_le_of_nodup_subset ?_ ?_
                · rw [hkeys']
                  exact List.nodup_append.mpr ⟨hS10a, hnewnd,
                    fun a ha hb => (hnews_freshdom a hb) ha⟩
                · intro x hx
                  rw [hkeys'] at hx
                  rcases List.mem_append.mp hx with h | h
                  · exact hS10b x h
                  · exact hnews_keys x h
              have h5 : (v :: qrest).length = qrest.length + 1 := by simp
              rw [h5] at hfuel
              omega)
            with ⟨pdF, heqF, hpropF⟩
          refine ⟨pdF, by rw [hstep]; exact heqF, fun hyp => hpropF ?_⟩
          rcases hyp with hr | hdm
          · exact Or.inl hr
          · exact Or.inr (by rw [hkeys']; exact List.mem_append.mpr (Or.inl hdm))

/-!
## Claim theorems
-/

open WeightedGraph in
/-- C1, counterexample: on the one-vertex weighted graph, `floyd_warshall`
does not return a mapping at all — evaluating the initial dict
comprehension raises `NameError` (its key expression reads the unbound
name `vertex`), so no all-pairs entry, infinite or otherwise, is ever
produced. -/
theorem C1_floyd_warshall_not_infinity_map :
    floyd_warshall ⟨[(0, [])], true⟩ =
      .error (.nameError "name 'vertex' is not defined") := rfl

open WeightedGraph in
/-- C1, amended: `floyd_warshall` raises `NameError` on every graph with
at least one vertex (the comprehension key reads the unbound name
`vertex`); only on the empty graph does it return, and then the returned
mapping is empty. -/
theorem C1_floyd_warshall_name_error (g : WeightedGraph) :
    g.floyd_warshall =
      match g.vertex_dict with
      | [] => .ok []
      | _ :: _ => .error (.nameError "name 'vertex' is not defined") := by
  rcases g with ⟨d, dir⟩
  cases d <;> rfl

open WeightedGraph in
/-- C2, counterexample: on the undirected graph with weighted edges
(A,B,10), (A,C,2), (C,B,9) — A,B,C embedded as 0,1,2 — Dijkstra's
`find_shortest_path(A, B)` returns 11, yet the path A,B has total weight
10: the returned value is not the minimum total weight over all paths,
because the relaxation guard compares the raw edge weight 9 with the
tentative distance 10 and overwrites the better value. -/
theorem C2_dijkstra_not_minimal :
    (find_shortest_path (build false [0, 1, 2] [(0, 1, 10), (0, 2, 2), (2, 1, 9)]) 0 1 =
      .ok (some (.fin 11))) ∧
    (pathWeight (build false [0, 1, 2] [(0, 1, 10), (0, 2, 2), (2, 1, 9)]) [0, 1] =
      some 10) ∧ (10 : Int) < 11 :=
  ⟨rfl, rfl, by norm_num⟩

open WeightedGraph in
/-- C2, amended: the loop relaxes a neighbor to candidate distance
edge weight + distance of the just-extracted vertex, but only under the
guard "raw edge weight < neighbor's current distance", so the result need
not be minimal; on the graph with weighted edges (A,B,1), (B,C,2), (A,C,5)
(either orientation flag), `find_shortest_path(A, C)` does return 3,
not 5. -/
theorem C2_dijkstra_relaxation_example :
    (find_shortest_path (build false [0, 1, 2] [(0, 1, 1), (1, 2, 2), (0, 2, 5)]) 0 2 =
      .ok (some (.fin 3))) ∧
    (find_shortest_path (build true [0, 1, 2] [(0, 1, 1), (1, 2, 2), (0, 2, 5)]) 0 2 =
      .ok (some (.fin 3))) ∧
    (∀ cur v2d n w dn, alistLookup v2d n = some dn → (PyNum.fin w).lt dn = true →
      dijkstraRelax cur v2d [(n, w)] =
        alistSet v2d n ((PyNum.fin w).add ((alistLookup v2d cur).getD .inf))) := by
  refine ⟨rfl, rfl, fun cur v2d n w dn hl hlt => ?_⟩
  simp [dijkstraRelax, hl, hlt]

open WeightedGraph in
/-- C2, witness for the amended theorem's relaxation clause at a concrete
state: extracting vertex 0 (distance 0) relaxes neighbor 1 along an edge
of weight 5 to distance 5 + 0. -/
theorem C2_dijkstra_relaxation_example_witness :
    dijkstraRelax 0 [(0, PyNum.fin 0), (1, PyNum.inf)] [(1, 5)] =
      alistSet [(0, PyNum.fin 0), (1, PyNum.inf)] 1
        ((PyNum.fin 5).add ((alistLookup [(0, PyNum.fin 0), (1, PyNum.inf)] 0).getD .inf)) :=
  C2_dijkstra_relaxation_example.2.2 0 [(0, PyNum.fin 0), (1, PyNum.inf)] 1 5 PyNum.inf
    rfl rfl

open Graph in
/-- C7: the code bug at the failing input A⇄B (directed, vertices 0,1,
edges 0→1 and 1→0): `topological_sort()` detects the cycle but *returns*
the `ValueError` object as its ordinary value instead of raising it; and
on the failing input with an additional isolated vertex 2 (inserted last),
`contains_cycle()` — whose single up-front check the claim relies on —
returns `False` after examining only the component of vertex 2, so
`topological_sort()` silently returns an "ordering" of a cyclic graph. -/
theorem C7_topological_sort_cycle_error_is_returned_not_raised :
    (topological_sort ⟨[(0, [1]), (1, [0])], true⟩ =
      .ok (.cycleError "Graph contains cycle and cannot be sorted.")) ∧
    (contains_cycle ⟨[(0, [1]), (1, [0]), (2, [])], true⟩ = .ok (some false)) ∧
    (topological_sort ⟨[(0, [1]), (1, [0]), (2, [])], true⟩ = .ok (.order [1, 0, 2])) :=
  ⟨rfl, rfl, rfl⟩

open Graph in
/-- C8: for a vertex id present in the graph, `get_neighbors` returns: for
directed graphs the stored adjacency list verbatim; for undirected graphs
the vertices whose stored lists contain the id (in vertex iteration
order), followed by the id's own stored list.  (The embedding is
state-free: the call constructs its result without producing a modified
graph, so no stored adjacency list is mutated.) -/
theorem C8_get_neighbors_reverse_then_forward (g : Graph) (start_id : VId)
    (adj : List VId) (h : alistLookup g.vertex_dict start_id = some adj) :
    g.get_neighbors start_id = .ok
      ((if g.is_directed then [] else
        (g.vertex_dict.filter (fun p => decide (start_id ∈ p.2))).map Prod.fst) ++ adj) := by
  unfold Graph.get_neighbors
  cases hd : g.is_directed
  · simp [h, revScan_eq]
  · simp [h]

open Graph in
/-- C8 witness: in the undirected graph 0:[1], 1:[2], 2:[], the reported
neighbors of vertex 2 are the reverse-implied [1] followed by its own
empty stored list. -/
theorem C8_get_neighbors_reverse_then_forward_witness :
    Graph.get_neighbors ⟨[(0, [1]), (1, [2]), (2, [])], false⟩ 2 = .ok [1] :=
  C8_get_neighbors_reverse_then_forward ⟨[(0, [1]), (1, [2]), (2, [])], false⟩ 2 [] rfl

open WeightedGraph in
/-- C9: in every undirected `WeightedGraph` built only through
`add_vertex` and `add_edge`, the neighbor maps are symmetric (u is a
neighbor of v with weight w iff v is a neighbor of u with weight w), and
after any further `add_edge(u, v, w)` that succeeds, u's map contains v
and v's map contains u with one equal weight.  (The querying operations
take the graph by value and return no graph, so only the two construction
operations can affect the invariant.) -/
theorem C9_undirected_built_graphs_symmetric (g : WeightedGraph) (hb : g.Built)
    (hd : g.is_directed = false) :
    Symm g ∧
    (∀ id1 id2 w, (g.add_edge id1 id2 w).1 = true →
      ∃ wsym, nbrWeight (g.add_edge id1 id2 w).2 id1 id2 = some wsym ∧
        nbrWeight (g.add_edge id1 id2 w).2 id2 id1 = some wsym) := by
  have hs := (Built.closed_symm hb).2 hd
  refine ⟨hs, fun id1 id2 w hsucc => ?_⟩
  rcases add_edge_success g id1 id2 w hsucc with ⟨h1, h2⟩
  rw [nbrWeight_add_edge g id1 id2 w h1 h2 hd id1 id2,
      nbrWeight_add_edge g id1 id2 w h1 h2 hd id2 id1,
      if_pos (Or.inl ⟨rfl, rfl⟩), if_pos (Or.inr ⟨rfl, rfl⟩),
      symm_nbr_eq hs id1 id2]
  exact ⟨(nbrWeight g id2 id1).getD w, rfl, rfl⟩

open WeightedGraph in
/-- C9 witness: the undirected graph built by adding vertices 0, 1 and the
edge (0, 1, 5) admits a further successful `add_edge(0, 1, 7)` after which
0 and 1 hold each other with one equal weight. -/
theorem C9_undirected_built_graphs_symmetric_witness :
    ∃ wsym,
      nbrWeight ((build false [0, 1] [(0, 1, 5)]).add_edge 0 1 7).2 0 1 = some wsym ∧
      nbrWeight ((build false [0, 1] [(0, 1, 5)]).add_edge 0 1 7).2 1 0 = some wsym :=
  (C9_undirected_built_graphs_symmetric (build false [0, 1] [(0, 1, 5)])
    (Built.edge 0 1 5 (Built.vertex 1 (Built.vertex 0 (Built.empty false)))) rfl).2
    0 1 7 rfl

open Graph in
/-- C5, counterexample: in the directed graph with vertices 0, 1 and edges
0→5, 0→1 (5 was never added as a vertex — the data model permits this,
`add_edge` validates nothing), vertex 1 is reachable from 0, yet
`bfs_traversal(0)` aborts with `KeyError` while processing the dangling id
5 and never visits 1: its visitation sequence misses a reachable
vertex. -/
theorem C5_bfs_misses_reachable_vertex :
    (Graph.bfs_traversal ⟨[(0, [5, 1]), (1, [])], true⟩ 0).err = some .keyError ∧
    Graph.Reach ⟨[(0, [5, 1]), (1, [])], true⟩ 0 1 ∧
    1 ∉ (Graph.bfs_traversal ⟨[(0, [5, 1]), (1, [])], true⟩ 0).visits :=
  ⟨rfl, Relation.ReflTransGen.single ⟨[5, 1], rfl, Or.inl (by simp)⟩, by decide⟩

open Graph in
/-- C5, amended: for every Graph whose stored adjacency entries all name
present vertices, and every vertex v present in it, `bfs_traversal(v)`
completes without error and its visitation sequence starts with v and
contains each vertex exactly once, namely exactly the vertices reachable
from v. -/
theorem C5_bfs_visits_reachable_exactly_once (g : Graph) (v : VId) (hwf : g.WF)
    (hcl : g.Closed) (hv : v ∈ alistKeys g.vertex_dict) :
    (g.bfs_traversal v).err = none ∧
    (g.bfs_traversal v).visits.head? = some v ∧
    (g.bfs_traversal v).visits.Nodup ∧
    (∀ w, w ∈ (g.bfs_traversal v).visits ↔ g.Reach v w) := by
  rcases bfsLoop_spec g hwf hcl v (Graph.bfsFuel g) [v] [v] []
    (fun x hx => hx)
    (by intro x; simp)
    List.nodup_nil
    (List.nodup_singleton v)
    (fun x hx => absurd hx (List.not_mem_nil x))
    (fun x hx => (List.mem_singleton.mp hx) ▸ Relation.ReflTransGen.refl)
    (fun x hx => (List.mem_singleton.mp hx) ▸ hv)
    (List.nodup_singleton v)
    (fun x hx => absurd hx (List.not_mem_nil x))
    (by
      have hk : (alistKeys g.vertex_dict).length = g.vertex_dict.length := by
        simp [alistKeys]
      unfold Graph.bfsFuel
      simp only [List.length_singleton]
      omega)
    with ⟨outF, heq, hpre, hnd, hre, hsub, hclo⟩
  have hbfs : g.bfs_traversal v = ⟨outF, none⟩ := by
    unfold Graph.bfs_traversal
    rw [if_pos hv]
    exact heq
  rw [hbfs]
  rcases hpre with ⟨t, ht⟩
  refine ⟨rfl, ?_, hnd, fun w => ⟨fun hw => hre w hw, fun hr => ?_⟩⟩
  · rw [← ht]; rfl
  · induction hr with
    | refl => exact hsub v (List.mem_singleton.mpr rfl)
    | tail hab hbc ih => exact hclo _ ih _ hbc

open Graph in
/-- C5 witness: the directed two-vertex graph 0:[1], 1:[] is closed and
well-formed; BFS from 0 errs nowhere, starts at 0, and visits exactly the
reachable vertices once each. -/
theorem C5_bfs_visits_reachable_exactly_once_witness :
    (Graph.bfs_traversal ⟨[(0, [1]), (1, [])], true⟩ 0).err = none ∧
    (Graph.bfs_traversal ⟨[(0, [1]), (1, [])], true⟩ 0).visits.head? = some 0 ∧
    (Graph.bfs_traversal ⟨[(0, [1]), (1, [])], true⟩ 0).visits.Nodup ∧
    (∀ w, w ∈ (Graph.bfs_traversal ⟨[(0, [1]), (1, [])], true⟩ 0).visits ↔
      Graph.Reach ⟨[(0, [1]), (1, [])], true⟩ 0 w) :=
  C5_bfs_visits_reachable_exactly_once ⟨[(0, [1]), (1, [])], true⟩ 0
    (by unfold Graph.WF; decide) (by unfold Graph.Closed; decide) (by decide)

open Graph in
/-- C4, counterexample: on the directed graph with vertices 0, 1 (in that
insertion order) and the edge 0→1, `find_connected_components()` raises
`ValueError`: the first component explored is [1] (popped from the end of
the pool), and when 0's component then reaches the already-consumed
neighbor 1, `not_visited.remove(1)` fails — no component list at all is
returned for this directed graph. -/
theorem C4_components_crash_on_directed_graph :
    Graph.find_connected_components ⟨[(0, [1]), (1, [])], true⟩ =
      .error (.valueError "list.remove(x): x not in list") := rfl

open Graph in
/-- C4, amended: for every *undirected* Graph whose stored adjacency
entries all name present vertices, `find_connected_components()` returns a
list of components whose union is exactly the vertex set and which are
pairwise disjoint. -/
theorem C4_components_partition_undirected (g : Graph) (hwf : g.WF) (hcl : g.Closed)
    (hd : g.is_directed = false) :
    ∃ comps, g.find_connected_components = .ok comps ∧
      (∀ x, (∃ c ∈ comps, x ∈ c) ↔ x ∈ alistKeys g.vertex_dict) ∧
      List.Pairwise (fun c d => ∀ x, x ∈ c → x ∉ d) comps := by
  rcases ccOuter_spec g hwf hcl hd (g.vertex_dict.length + 1) (alistKeys g.vertex_dict) []
    hwf (fun x hx => hx)
    (fun c hc => absurd hc (List.not_mem_nil c))
    (fun c hc => absurd hc (List.not_mem_nil c))
    (fun x hx => Or.inr hx)
    (by rintro x y ⟨c, hc, _⟩ _; exact absurd hc (List.not_mem_nil c))
    List.Pairwise.nil
    (by simp [alistKeys])
    with ⟨comps, heq, hiff, hpw⟩
  refine ⟨comps, heq, fun x => ?_, hpw⟩
  rw [hiff x]
  constructor
  · rintro (⟨c, hc, _⟩ | hx)
    · exact absurd hc (List.not_mem_nil c)
    · exact hx
  · exact fun hx => Or.inr hx

open Graph in
/-- C4 witness: the undirected graph 0:[1], 1:[] yields components whose
union is the vertex set with pairwise disjointness. -/
theorem C4_components_partition_undirected_witness :
    ∃ comps, Graph.find_connected_components ⟨[(0, [1]), (1, [])], false⟩ = .ok comps ∧
      (∀ x, (∃ c ∈ comps, x ∈ c) ↔ x ∈ alistKeys [(0, [1]), (1, [])]) ∧
      List.Pairwise (fun c d => ∀ x, x ∈ c → x ∉ d) comps :=
  C4_components_partition_undirected ⟨[(0, [1]), (1, [])], false⟩
    (by unfold Graph.WF; decide) (by unfold Graph.Closed; decide) rfl

open Graph in
/-- C6, counterexample: in the directed graph with vertices 0, 1 and edges
0→5, 0→1 (5 dangling, which the data model permits), the start vertex 0 is
present and the target 1 is reachable in one hop, yet
`find_shortest_path(0, 1)` raises `KeyError` while expanding the dangling
id 5 — it returns no path at all, let alone a hop-minimal one. -/
theorem C6_shortest_path_crashes_despite_reachable :
    Graph.find_shortest_path ⟨[(0, [5, 1]), (1, [])], true⟩ 0 1 = .error .keyError ∧
    Graph.Reach ⟨[(0, [5, 1]), (1, [])], true⟩ 0 1 ∧
    0 ∈ alistKeys [(0, [5, 1]), (1, [])] :=
  ⟨rfl, Relation.ReflTransGen.single ⟨[5, 1], rfl, Or.inl (by simp)⟩, by decide⟩

open Graph in
/-- C6, amended: for every Graph whose stored adjacency entries all name
present vertices, with the start present and the target reachable,
`find_shortest_path` returns a path from start to target whose number of
edges is minimal over all such paths (its recorded length equals the BFS
hop-distance plus one); on the undirected line graph A-B-C-D it returns
[A, B, C, D]. -/
theorem C6_shortest_path_min_hop_count (g : Graph) (s target : VId) (hwf : g.WF)
    (hcl : g.Closed) (hs : s ∈ alistKeys g.vertex_dict) (hr : g.Reach s target) :
    (∃ p, g.find_shortest_path s target = .ok p ∧
      p.Chain' g.Nbr ∧ p.head? = some s ∧ p.getLast? = some target ∧
      ∀ q : List VId, q.Chain' g.Nbr → q.head? = some s → q.getLast? = some target →
        p.length ≤ q.length) ∧
    Graph.find_shortest_path ⟨[(0, [1]), (1, [2]), (2, [3]), (3, [])], false⟩ 0 3 =
      .ok [0, 1, 2, 3] := by
  refine ⟨?_, rfl⟩
  rcases spLoop_spec g hwf hcl s target (Graph.bfsFuel g) [(s, [s])] [s]
    (fun x hx => hx)
    (List.nodup_singleton s)
    (fun x hx => (List.mem_singleton.mp hx) ▸ hs)
    (by
      intro x p hx
      have hx' : (if s = x then some [s] else none) = some p := hx
      by_cases hsx : s = x
      · rw [if_pos hsx] at hx'
        cases hx'
        subst hsx
        exact ⟨List.chain'_singleton s, rfl, rfl⟩
      · rw [if_neg hsx] at hx'
        cases hx')
    (fun x hx hxq => absurd hx hxq)
    (fun x hx hxq => absurd hx hxq)
    (by
      intro y hy z hz
      have hy' := List.mem_singleton.mp hy
      have hz' := List.mem_singleton.mp hz
      subst hy'; subst hz'
      omega)
    (List.pairwise_singleton _ _)
    (by simp [alistLookup])
    (by
      have hk : (alistKeys g.vertex_dict).length = g.vertex_dict.length := by
        simp [alistKeys]
      unfold Graph.bfsFuel
      simp only [List.length_singleton]
      omega)
    with ⟨pdF, heq, hprop⟩
  rcases hprop (Or.inl hr) with ⟨p, hp, hch, hh, hl, hmin⟩
  refine ⟨p, ?_, hch, hh, hl, hmin⟩
  unfold Graph.find_shortest_path
  rw [if_pos hs, heq]
  show (match alistLookup pdF target with
    | some p0 => Except.ok p0
    | none => Except.error PyErr.keyError) = Except.ok p
  rw [hp]

open Graph in
/-- C6 witness: the directed three-vertex path graph 0:[1], 1:[2], 2:[] is
closed and well-formed, 2 is reachable from 0, and the theorem applies;
the example conjunct evaluates the undirected line graph. -/
theorem C6_shortest_path_min_hop_count_witness :
    (∃ p, Graph.find_shortest_path ⟨[(0, [1]), (1, [2]), (2, [])], true⟩ 0 2 = .ok p ∧
      p.Chain' (Graph.Nbr ⟨[(0, [1]), (1, [2]), (2, [])], true⟩) ∧
      p.head? = some 0 ∧ p.getLast? = some 2 ∧
      ∀ q : List VId, q.Chain' (Graph.Nbr ⟨[(0, [1]), (1, [2]), (2, [])], true⟩) →
        q.head? = some 0 → q.getLast? = some 2 → p.length ≤ q.length) ∧
    Graph.find_shortest_path ⟨[(0, [1]), (1, [2]), (2, [3]), (3, [])], false⟩ 0 3 =
      .ok [0, 1, 2, 3] :=
  C6_shortest_path_min_hop_count ⟨[(0, [1]), (1, [2]), (2, [])], true⟩ 0 2
    (by unfold Graph.WF; decide) (by unfold Graph.Closed; decide) (by decide)
    (by
      have h01 : Graph.Nbr ⟨[(0, [1]), (1, [2]), (2, [])], true⟩ 0 1 :=
        ⟨[1], rfl, Or.inl (by decide)⟩
      have h12 : Graph.Nbr ⟨[(0, [1]), (1, [2]), (2, [])], true⟩ 1 2 :=
        ⟨[2], rfl, Or.inl (by decide)⟩
      exact Relation.ReflTransGen.tail (Relation.ReflTransGen.single h01) h12)

/-- C10: `is_bipartite()` on a graph with no vertices (either orientation
flag) raises `IndexError` from subscripting the empty key list, and so
never produces a boolean. -/
theorem C10_is_bipartite_empty_graph_index_error (d : Bool) :
    Graph.is_bipartite ⟨[], d⟩ = .error .indexError := rfl

/-!
## Minimum spanning trees: walks, exchange, union-find (toward C3)
-/

namespace WeightedGraph

theorem ConnBy_symm {s : List (VId × VId)} {a b : VId} (h : ConnBy s a b) : ConnBy s b a :=
  Relation.ReflTransGen.symmetric (fun _ _ hs => hs.elim Or.inr Or.inl) h

theorem ConnBy_mono {s t : List (VId × VId)} (hsub : ∀ p ∈ s, p ∈ t) {a b : VId}
    (h : ConnBy s a b) : ConnBy t a b :=
  Relation.ReflTransGen.mono
    (fun _ _ hs => hs.elim (fun hm => Or.inl (hsub _ hm)) (fun hm => Or.inr (hsub _ hm))) h

theorem mem_eraseUEdge {s : List (VId × VId)} {x y : VId} {p : VId × VId} :
    p ∈ eraseUEdge s x y ↔ p ∈ s ∧ p ≠ (x, y) ∧ p ≠ (y, x) := by
  simp [eraseUEdge, List.mem_filter, not_or]

theorem WalkW.head_shape {s : List (VId × VId)} {a b : VId} {l : List VId}
    (h : WalkW s a b l) : ∃ t, l = a :: t := by
  cases h with
  | nil => exact ⟨[], rfl⟩
  | cons hs hw => exact ⟨_, rfl⟩

theorem walk_of_conn {s : List (VId × VId)} {a b : VId} (h : ConnBy s a b) :
    ∃ l, WalkW s a b l := by
  induction h using Relation.ReflTransGen.head_induction_on with
  | refl => exact ⟨[b], WalkW.nil b⟩
  | head hs _ ih =>
      rcases ih with ⟨l, hw⟩
      exact ⟨_, WalkW.cons hs hw⟩

theorem conn_of_walk {s : List (VId × VId)} {a b : VId} {l : List VId}
    (h : WalkW s a b l) : ConnBy s a b := by
  induction h with
  | nil a => exact Relation.ReflTransGen.refl
  | cons hs _ ih => exact Relation.ReflTransGen.head hs ih

theorem WalkW.tail_walk {s : List (VId × VId)} {a b c : VId} {t : List VId}
    (h : WalkW s a b (c :: t)) (hne : t ≠ []) :
    ∃ d, EStep s a d ∧ WalkW s d b t := by
  cases h with
  | nil => exact absurd rfl hne
  | cons hs hw => exact ⟨_, hs, hw⟩

theorem walk_suffix {s : List (VId × VId)} {b x : VId} {l2 : List VId} :
    ∀ (l1 : List VId) (a : VId), WalkW s a b (l1 ++ x :: l2) → WalkW s x b (x :: l2) := by
  intro l1
  induction l1 with
  | nil =>
      intro a h
      rcases h.head_shape with ⟨t, ht⟩
      have hax : a = x := by
        have := congrArg (fun l => List.head? l) ht
        simpa using this.symm
      exact hax ▸ h
  | cons c l1' ih =>
      intro a h
      rcases WalkW.tail_walk (show WalkW s a b (a :: (l1' ++ x :: l2)) from by
          rcases h.head_shape with ⟨t, ht⟩
          have hac : c = a := by
            have := congrArg (fun l => List.head? l) ht
            simpa using this
          exact hac ▸ h)
        (by simp) with ⟨d, _, hw⟩
      exact ih _ hw

theorem walk_dedup {s : List (VId × VId)} :
    ∀ (n : Nat) (l : List VId) (a b : VId), l.length ≤ n → WalkW s a b l →
    ∃ l', WalkW s a b l' ∧ l'.Nodup ∧ ∀ x ∈ l', x ∈ l := by
  intro n
  induction n with
  | zero =>
      intro l a b hn hw
      rcases hw.head_shape with ⟨t, ht⟩
      subst ht
      simp at hn
  | succ n ih =>
      intro l a b hn hw
      cases hw with
      | nil => exact ⟨[a], WalkW.nil a, List.nodup_singleton a, fun x hx => hx⟩
      | cons hs hw' =>
          rename_i c t
          by_cases ha : a ∈ t
          · rcases List.append_of_mem ha with ⟨t1, t2, ht⟩
            subst ht
            have hsuf : WalkW s a b (a :: t2) :=
              walk_suffix (a :: t1) a (WalkW.cons hs hw')
            have hlen : (a :: t2).length ≤ n := by
              simp [List.length_append] at hn
              simp
              omega
            rcases ih _ _ _ hlen hsuf with ⟨l', hw2, hnd, hsub⟩
            refine ⟨l', hw2, hnd, fun x hx => ?_⟩
            have hx' := hsub x hx
            simp only [List.mem_cons, List.mem_append] at hx' ⊢
            tauto
          · have hlen : t.length ≤ n := by
              simp at hn
              omega
            rcases ih _ _ _ hlen hw' with ⟨l', hw2, hnd, hsub⟩
            refine ⟨a :: l', WalkW.cons hs hw2, ?_, ?_⟩
            · exact List.nodup_cons.mpr ⟨fun hmem => ha (hsub a hmem), hnd⟩
            · intro x hx
              rcases List.mem_cons.mp hx with h | h
              · exact h ▸ List.mem_cons_self _ _
              · exact List.mem_cons.mpr (Or.inr (hsub x h))

theorem walk_conn_avoid {s : List (VId × VId)} {z y : VId} {l : List VId} {c b : VId}
    (hw : WalkW s c b l) :
    (∀ v ∈ l, v ≠ z) → ConnBy (eraseUEdge s z y) c b := by
  induction hw with
  | nil a => intro hav; exact Relation.ReflTransGen.refl
  | cons hs hw' ih =>
      intro hav
      rename_i a d bb t
      have hd : d ∈ t := by
        rcases hw'.head_shape with ⟨t2, ht⟩
        simp [ht]
      have hna : a ≠ z := hav a (List.mem_cons_self _ _)
      have hnd : d ≠ z := hav d (List.mem_cons.mpr (Or.inr hd))
      refine Relation.ReflTransGen.head ?_
        (ih (fun v hv => hav v (List.mem_cons.mpr (Or.inr hv))))
      rcases hs with hm | hm
      · refine Or.inl (mem_eraseUEdge.mpr ⟨hm, ?_, ?_⟩)
        · intro hq; exact hna (congrArg Prod.fst hq)
        · intro hq; exact hnd (congrArg Prod.snd hq)
      · refine Or.inr (mem_eraseUEdge.mpr ⟨hm, ?_, ?_⟩)
        · intro hq; exact hnd (congrArg Prod.fst hq)
        · intro hq; exact hna (congrArg Prod.snd hq)

theorem walk_cross {s : List (VId × VId)} (C : VId → Prop) :
    ∀ (l : List VId) (a b : VId), WalkW s a b l → l.Nodup → C a → ¬ C b →
    ∃ x y, C x ∧ ¬ C y ∧ EStep s x y ∧
      ConnBy (eraseUEdge s x y) a x ∧ ConnBy (eraseUEdge s x y) y b := by
  intro l
  induction l with
  | nil =>
      intro a b hw _ _ _
      rcases hw.head_shape with ⟨t, ht⟩
      simp at ht
  | cons hh tt ih =>
      intro a b hw hnd hCa hCb
      cases hw with
      | nil => exact absurd hCa hCb
      | cons hs hw' =>
          rename_i c
          by_cases hCc : C c
          · rcases ih c b hw' (List.nodup_cons.mp hnd).2 hCc hCb with
              ⟨x, y, hx, hy, hst, hax, hyb⟩
            refine ⟨x, y, hx, hy, hst, Relation.ReflTransGen.head ?_ hax, hyb⟩
            rcases hs with hm | hm
            · refine Or.inl (mem_eraseUEdge.mpr ⟨hm, ?_, ?_⟩)
              · intro hq
                have h2 : c = y := congrArg Prod.snd hq
                exact hy (h2 ▸ hCc)
              · intro hq
                have h2 : hh = y := congrArg Prod.fst hq
                exact hy (h2 ▸ hCa)
            · refine Or.inr (mem_eraseUEdge.mpr ⟨hm, ?_, ?_⟩)
              · intro hq
                have h2 : hh = y := congrArg Prod.snd hq
                exact hy (h2 ▸ hCa)
              · intro hq
                have h2 : c = y := congrArg Prod.fst hq
                exact hy (h2 ▸ hCc)
          · refine ⟨hh, c, hCa, hCc, hs, Relation.ReflTransGen.refl, ?_⟩
            exact walk_conn_avoid hw'
              (fun v hv hvz => (List.nodup_cons.mp hnd).1 (hvz ▸ hv))

theorem conn_swap {T : List (VId × VId)} {x y a b : VId}
    (hax : ConnBy (eraseUEdge T x y) a x) (hyb : ConnBy (eraseUEdge T x y) y b)
    {u v : VId} (h : ConnBy T u v) : ConnBy ((a, b) :: eraseUEdge T x y) u v := by
  have hsub : ∀ p ∈ eraseUEdge T x y, p ∈ (a, b) :: eraseUEdge T x y :=
    fun p hp => List.mem_cons.mpr (Or.inr hp)
  have hxy : ConnBy ((a, b) :: eraseUEdge T x y) x y := by
    have h1 : ConnBy ((a, b) :: eraseUEdge T x y) x a := ConnBy_mono hsub (ConnBy_symm hax)
    have h2 : ConnBy ((a, b) :: eraseUEdge T x y) a b :=
      Relation.ReflTransGen.single (Or.inl (List.mem_cons_self _ _))
    have h3 : ConnBy ((a, b) :: eraseUEdge T x y) b y := ConnBy_mono hsub (ConnBy_symm hyb)
    exact (h1.trans h2).trans h3
  induction h with
  | refl => exact Relation.ReflTransGen.refl
  | @tail mid last huv hstep ih =>
      refine ih.trans ?_
      by_cases hk : (mid = x ∧ last = y) ∨ (mid = y ∧ last = x)
      · rcases hk with ⟨h1, h2⟩ | ⟨h1, h2⟩
        · rw [h1, h2]; exact hxy
        · rw [h1, h2]; exact ConnBy_symm hxy
      · refine Relation.ReflTransGen.single ?_
        rcases hstep with hm | hm
        · refine Or.inl (List.mem_cons.mpr (Or.inr (mem_eraseUEdge.mpr ⟨hm, ?_, ?_⟩)))
          · intro hq
            have h1 : mid = x := congrArg Prod.fst hq
            have h2 : last = y := congrArg Prod.snd hq
            exact hk (Or.inl ⟨h1, h2⟩)
          · intro hq
            have h1 : mid = y := congrArg Prod.fst hq
            have h2 : last = x := congrArg Prod.snd hq
            exact hk (Or.inr ⟨h1, h2⟩)
        · refine Or.inr (List.mem_cons.mpr (Or.inr (mem_eraseUEdge.mpr ⟨hm, ?_, ?_⟩)))
          · intro hq
            have h1 : last = x := congrArg Prod.fst hq
            have h2 : mid = y := congrArg Prod.snd hq
            exact hk (Or.inr ⟨h2, h1⟩)
          · intro hq
            have h1 : last = y := congrArg Prod.fst hq
            have h2 : mid = x := congrArg Prod.snd hq
            exact hk (Or.inl ⟨h2, h1⟩)

theorem pnLe_refl (a : PyNum) : pnLe a a := by
  cases a <;> simp [pnLe, PyNum.lt]

theorem pnLe_trans {a b c : PyNum} (h1 : pnLe a b) (h2 : pnLe b c) : pnLe a c := by
  cases a <;> cases b <;> cases c <;>
    simp [pnLe, PyNum.lt] at h1 h2 ⊢ <;> omega

theorem pnLe_of_lt {a b : PyNum} (h : PyNum.lt a b = true) : pnLe a b := by
  cases a <;> cases b <;> simp [pnLe, PyNum.lt] at h ⊢ <;> omega

theorem pn_lt_of_le_of_lt {a b c : PyNum} (h1 : pnLe a b) (h2 : PyNum.lt b c = true) :
    PyNum.lt a c = true := by
  cases a <;> cases b <;> cases c <;>
    simp [pnLe, PyNum.lt] at h1 h2 ⊢ <;> omega

theorem pnLe_fin_fin {a b : Int} : pnLe (.fin a) (.fin b) ↔ a ≤ b := by
  simp [pnLe, PyNum.lt]

theorem pnLe_inf (a : PyNum) : pnLe a .inf := by
  cases a <;> simp [pnLe, PyNum.lt]

theorem pnLe_inf_eq {a : PyNum} (h : pnLe .inf a) : a = .inf := by
  cases a <;> simp [pnLe, PyNum.lt] at h ⊢

theorem subc_nil (U : List Edge) : SubC [] U := by
  intro x
  simp [SubC]

theorem subc_mem {A U : List Edge} (h : SubC A U) {x : Edge} (hx : x ∈ A) : x ∈ U := by
  have h1 : 0 < A.count x := List.count_pos_iff.mpr hx
  exact List.count_pos_iff.mp (lt_of_lt_of_le h1 (h x))

theorem subc_erase {A U : List Edge} {a : Edge} (h : SubC (a :: A) U) :
    SubC A (U.erase a) := by
  intro x
  by_cases hx : x = a
  · subst hx
    have h1 := h x
    rw [List.count_cons_self] at h1
    rw [List.count_erase_self]
    omega
  · rw [List.count_erase_of_ne hx]
    have h1 := h x
    rw [List.count_cons_of_ne hx] at h1
    exact h1

theorem subc_head_mem {A U : List Edge} {a : Edge} (h : SubC (a :: A) U) : a ∈ U := by
  have h1 := h a
  rw [List.count_cons_self] at h1
  exact List.count_pos_iff.mp (by omega)

theorem subc_length {A : List Edge} : ∀ {U : List Edge}, SubC A U → A.length ≤ U.length := by
  induction A with
  | nil => intro U _; simp
  | cons a A' ih =>
      intro U h
      have hmem : a ∈ U := subc_head_mem h
      have h2 := ih (subc_erase h)
      have h3 := List.length_erase_of_mem hmem
      have h4 := List.length_pos_of_mem hmem
      simp only [List.length_cons]
      omega

theorem treeWeight_cons (a : Edge) (A : List Edge) :
    treeWeight (a :: A) = a.2.2 + treeWeight A := by
  simp [treeWeight]

theorem treeWeight_append_single (A : List Edge) (e : Edge) :
    treeWeight (A ++ [e]) = treeWeight A + e.2.2 := by
  simp [treeWeight]

theorem treeWeight_erase {U : List Edge} {a : Edge} (h : a ∈ U) :
    treeWeight (U.erase a) + a.2.2 = treeWeight U := by
  induction U with
  | nil => cases h
  | cons u U' ih =>
      by_cases hu : u = a
      · subst hu
        rw [List.erase_cons_head]
        rw [treeWeight_cons]
        omega
      · have ha' : a ∈ U' := by
          rcases List.mem_cons.mp h with h1 | h1
          · exact absurd h1.symm hu
          · exact h1
        rw [List.erase_cons_tail (by simpa using hu)]
        rw [treeWeight_cons, treeWeight_cons]
        have := ih ha'
        omega

theorem subc_eq_spec {A : List Edge} :
    ∀ {U : List Edge}, SubC A U → U.length ≤ A.length →
    (∀ x, x ∈ A ↔ x ∈ U) ∧ treeWeight A = treeWeight U := by
  induction A with
  | nil =>
      intro U _ hlen
      have : U = [] := List.length_eq_zero.mp (Nat.le_zero.mp (by simpa using hlen))
      subst this
      exact ⟨fun x => Iff.rfl, rfl⟩
  | cons a A' ih =>
      intro U h hlen
      have hmem : a ∈ U := subc_head_mem h
      have hlen2 : (U.erase a).length ≤ A'.length := by
        have h3 := List.length_erase_of_mem hmem
        have h4 := List.length_pos_of_mem hmem
        simp only [List.length_cons] at hlen
        omega
      rcases ih (subc_erase h) hlen2 with ⟨hmemiff, hwt⟩
      constructor
      · intro x
        constructor
        · intro hx
          rcases List.mem_cons.mp hx with h1 | h1
          · exact h1 ▸ hmem
          · exact List.erase_subset _ _ ((hmemiff x).mp h1)
        · intro hx
          by_cases hxa : x = a
          · exact List.mem_cons.mpr (Or.inl hxa)
          · exact List.mem_cons.mpr (Or.inr ((hmemiff x).mpr
              ((List.mem_erase_of_ne hxa).mpr hx)))
      · rw [treeWeight_cons, hwt, ← treeWeight_erase hmem]
        omega

theorem span_transfer {g : WeightedGraph} {U A : List Edge}
    (hU : SpanListW g U) (hAU : SubC A U) (hlen : U.length ≤ A.length) :
    SpanListW g A ∧ treeWeight A = treeWeight U := by
  rcases subc_eq_spec hAU hlen with ⟨hmemiff, hwt⟩
  have hpair : ∀ p, p ∈ A.map pairOf ↔ p ∈ U.map pairOf := by
    intro p
    constructor
    · intro hp
      rcases List.mem_map.mp hp with ⟨x, hx, hpx⟩
      exact List.mem_map.mpr ⟨x, (hmemiff x).mp hx, hpx⟩
    · intro hp
      rcases List.mem_map.mp hp with ⟨x, hx, hpx⟩
      exact List.mem_map.mpr ⟨x, (hmemiff x).mpr hx, hpx⟩
  refine ⟨⟨fun e he => hU.1 e ((hmemiff e).mp he), ?_, ?_⟩, hwt⟩
  · have := subc_length hAU
    have := hU.2.1
    omega
  · intro u hu v hv
    exact ConnBy_mono (fun p hp => (hpair p).mpr hp) (hU.2.2 u hu v hv)

theorem promise_nil (g : WeightedGraph) : PromiseW g [] :=
  fun T hT => ⟨T, hT, subc_nil T, le_refl _⟩

theorem promise_final {g : WeightedGraph} {A T : List Edge} (hpr : PromiseW g A)
    (hlen : A.length = (alistKeys g.vertex_dict).length - 1)
    (hT : SpanListW g T) : SpanListW g A ∧ treeWeight A ≤ treeWeight T := by
  rcases hpr T hT with ⟨U, hU, hAU, hWU⟩
  have hlen2 : U.length ≤ A.length := by
    rw [hlen, hU.2.1]
  rcases span_transfer hU hAU hlen2 with ⟨hspan, hwt⟩
  refine ⟨hspan, ?_⟩
  rw [hwt]
  exact hWU

theorem mstExample_built : Built mstExample :=
  Built.edge 0 3 4 (Built.edge 2 3 3 (Built.edge 1 2 2 (Built.edge 0 1 1
    (Built.vertex 3 (Built.vertex 2 (Built.vertex 1 (Built.vertex 0
      (Built.empty false))))))))

theorem mstExample_connected : ConnectedW mstExample := by
  constructor
  · decide
  · have hK : alistKeys mstExample.vertex_dict = [0, 1, 2, 3] := rfl
    have a01 : AdjW mstExample 0 1 := ⟨1, rfl⟩
    have a10 : AdjW mstExample 1 0 := ⟨1, rfl⟩
    have a12 : AdjW mstExample 1 2 := ⟨2, rfl⟩
    have a21 : AdjW mstExample 2 1 := ⟨2, rfl⟩
    have a23 : AdjW mstExample 2 3 := ⟨3, rfl⟩
    have a32 : AdjW mstExample 3 2 := ⟨3, rfl⟩
    have h01 : Relation.ReflTransGen (AdjW mstExample) 0 1 :=
      Relation.ReflTransGen.single a01
    have h02 : Relation.ReflTransGen (AdjW mstExample) 0 2 := h01.tail a12
    have h03 : Relation.ReflTransGen (AdjW mstExample) 0 3 := h02.tail a23
    have h10 : Relation.ReflTransGen (AdjW mstExample) 1 0 :=
      Relation.ReflTransGen.single a10
    have h20 : Relation.ReflTransGen (AdjW mstExample) 2 0 :=
      (Relation.ReflTransGen.single a21).trans h10
    have h30 : Relation.ReflTransGen (AdjW mstExample) 3 0 :=
      (Relation.ReflTransGen.single a32).trans h20
    have key : ∀ z, z ∈ alistKeys mstExample.vertex_dict →
        Relation.ReflTransGen (AdjW mstExample) 0 z ∧
        Relation.ReflTransGen (AdjW mstExample) z 0 := by
      intro z hz
      rw [hK] at hz
      simp only [List.mem_cons, List.not_mem_nil, or_false] at hz
      rcases hz with rfl | rfl | rfl | rfl
      · exact ⟨Relation.ReflTransGen.refl, Relation.ReflTransGen.refl⟩
      · exact ⟨h01, h10⟩
      · exact ⟨h02, h20⟩
      · exact ⟨h03, h30⟩
    intro u hu v hv
    exact (key u hu).2.trans (key v hv).1

theorem promise_extend {g : WeightedGraph} {A : List Edge} {a b : VId} {w : Int}
    (hclw : ClosedW g) (hsym : Symm g)
    (hpr : PromiseW g A)
    (hab : ¬ ConnBy (A.map pairOf) a b)
    (hedge : nbrWeight g a b = some w)
    (hmin : ∀ x y wf, nbrWeight g x y = some wf →
      ConnBy (A.map pairOf) a x → ¬ ConnBy (A.map pairOf) a y → w ≤ wf) :
    PromiseW g (A ++ [(a, b, w)]) := by
  intro T hT
  rcases hpr T hT with ⟨U, hU, hAU, hWU⟩
  have henotA : (a, b, w) ∉ A := by
    intro hmem
    exact hab (Relation.ReflTransGen.single
      (Or.inl (List.mem_map.mpr ⟨(a, b, w), hmem, rfl⟩)))
  by_cases heU : (a, b, w) ∈ U
  · refine ⟨U, hU, ?_, hWU⟩
    intro x
    rw [List.count_append]
    by_cases hx : x = (a, b, w)
    · subst hx
      have h0 : A.count (a, b, w) = 0 := List.count_eq_zero.mpr henotA
      have h1 : 0 < U.count (a, b, w) := List.count_pos_iff.mpr heU
      have h2 : ([(a, b, w)]).count (a, b, w) = 1 := by simp
      omega
    · have h2 : ([(a, b, w)]).count x = 0 := List.count_eq_zero.mpr (by simp [hx])
      have := hAU x
      omega
  · have ha_keys : a ∈ alistKeys g.vertex_dict := by
      unfold nbrWeight at hedge
      rcases h : alistLookup g.vertex_dict a with _ | nb
      · rw [h] at hedge
        simp at hedge
      · exact mem_keys_of_lookup h
    have hb_keys : b ∈ alistKeys g.vertex_dict := by
      unfold nbrWeight at hedge
      rcases h : alistLookup g.vertex_dict a with _ | nb
      · rw [h] at hedge
        simp at hedge
      · rw [h] at hedge
        simp only [Option.some_bind] at hedge
        exact hclw (a, nb) (mem_of_lookup h) (b, w) (mem_of_lookup hedge)
    have hconnU : ConnBy (U.map pairOf) a b := hU.2.2 a ha_keys b hb_keys
    rcases walk_of_conn hconnU with ⟨l, hwalk⟩
    rcases walk_dedup l.length l a b (le_refl _) hwalk with ⟨l', hw', hnd, _⟩
    rcases walk_cross (fun z => ConnBy (A.map pairOf) a z) l' a b hw' hnd
      Relation.ReflTransGen.refl hab with ⟨x, y, hCx, hCy, hstep, hax, hyb⟩
    have hf : ∃ f ∈ U, pairOf f = (x, y) ∨ pairOf f = (y, x) := by
      rcases hstep with hm | hm
      · rcases List.mem_map.mp hm with ⟨f, hfU, hfp⟩
        exact ⟨f, hfU, Or.inl hfp⟩
      · rcases List.mem_map.mp hm with ⟨f, hfU, hfp⟩
        exact ⟨f, hfU, Or.inr hfp⟩
    rcases hf with ⟨f, hfU, hforient⟩
    have hfw : nbrWeight g x y = some f.2.2 := by
      rcases hforient with ho | ho
      · have h1 : f.1 = x := congrArg Prod.fst ho
        have h2 : f.2.1 = y := congrArg Prod.snd ho
        have h3 := hU.1 f hfU
        rw [h1, h2] at h3
        exact h3
      · have h1 : f.1 = y := congrArg Prod.fst ho
        have h2 : f.2.1 = x := congrArg Prod.snd ho
        have h3 := hU.1 f hfU
        rw [h1, h2] at h3
        exact (hsym y x f.2.2).mp h3
    have hwle : w ≤ f.2.2 := hmin x y f.2.2 hfw hCx hCy
    have hfnotA : f ∉ A := by
      intro hmem
      have hxy : ConnBy (A.map pairOf) x y := by
        rcases hforient with ho | ho
        · exact Relation.ReflTransGen.single (Or.inl (List.mem_map.mpr ⟨f, hmem, ho⟩))
        · exact Relation.ReflTransGen.single (Or.inr (List.mem_map.mpr ⟨f, hmem, ho⟩))
      exact hCy (hCx.trans hxy)
    refine ⟨(a, b, w) :: U.erase f, ⟨?_, ?_, ?_⟩, ?_, ?_⟩
    · intro e he
      rcases List.mem_cons.mp he with h1 | h1
      · subst h1
        exact hedge
      · exact hU.1 e (List.erase_subset _ _ h1)
    · simp only [List.length_cons]
      rw [List.length_erase_of_mem hfU]
      have h4 := List.length_pos_of_mem hfU
      have h5 := hU.2.1
      omega
    · intro u hu v hv
      have hconn := hU.2.2 u hu v hv
      have hswap := conn_swap hax hyb hconn
      refine ConnBy_mono ?_ hswap
      intro p hp
      rcases List.mem_cons.mp hp with h1 | h1
      · subst h1
        exact List.mem_map.mpr ⟨(a, b, w), List.mem_cons_self _ _, rfl⟩
      · rcases mem_eraseUEdge.mp h1 with ⟨hpU, hp1, hp2⟩
        rcases List.mem_map.mp hpU with ⟨t, htU, htp⟩
        have htf : t ≠ f := by
          intro he'
          subst he'
          rcases hforient with ho | ho
          · exact hp1 (htp ▸ ho)
          · exact hp2 (htp ▸ ho)
        exact List.mem_map.mpr
          ⟨t, List.mem_cons.mpr (Or.inr ((List.mem_erase_of_ne htf).mpr htU)), htp⟩
    · intro e
      rw [List.count_append]
      by_cases he : e = (a, b, w)
      · subst he
        have h0 : A.count (a, b, w) = 0 := List.count_eq_zero.mpr henotA
        have h2 : ([(a, b, w)]).count (a, b, w) = 1 := by simp
        have h3 : ((a, b, w) :: U.erase f).count (a, b, w)
            = (U.erase f).count (a, b, w) + 1 := by
          rw [List.count_cons_self]
        rw [h0, h2, h3]
        omega
      · have h2 : ([(a, b, w)]).count e = 0 := List.count_eq_zero.mpr (by simp [he])
        have h3 : ((a, b, w) :: U.erase f).count e = (U.erase f).count e := by
          rw [List.count_cons_of_ne he]
        rw [h2, h3]
        by_cases hef : e = f
        · subst hef
          have h0 : A.count e = 0 := List.count_eq_zero.mpr hfnotA
          omega
        · rw [List.count_erase_of_ne hef]
          have := hAU e
          omega
    · rw [treeWeight_cons]
      have herase := treeWeight_erase hfU
      show w + treeWeight (U.erase f) ≤ treeWeight T
      omega

theorem rootD_fun {pm : List (VId × VId)} :
    ∀ {x r n}, RootD pm x r n → ∀ {r' n'}, RootD pm x r' n' → r = r' ∧ n = n' := by
  intro x r n h
  induction h with
  | self hr =>
      intro r' n' h'
      cases h' with
      | self hr' => exact ⟨rfl, rfl⟩
      | step hl hne h2 =>
          rw [hr] at hl
          injection hl with h3
          exact absurd h3.symm hne
  | step hl hne h1 ih =>
      intro r' n' h'
      cases h' with
      | self hr' =>
          rw [hr'] at hl
          injection hl with h3
          exact absurd h3.symm hne
      | step hl' hne' h2 =>
          rw [hl] at hl'
          injection hl' with h3
          rcases ih (h3 ▸ h2) with ⟨hr, hn⟩
          exact ⟨hr, by omega⟩

theorem rootD_root {pm : List (VId × VId)} {x r : VId} {n : Nat} (h : RootD pm x r n) :
    alistLookup pm r = some r := by
  induction h with
  | self hr => exact hr
  | step _ _ _ ih => exact ih

theorem rootD_chain {pm : List (VId × VId)} {x r : VId} {n : Nat} (h : RootD pm x r n) :
    ∃ l : List VId, l.length = n ∧ (∀ v ∈ l, ∃ m, m < n ∧ RootD pm v r m) ∧
      (x :: l).Nodup ∧ (∀ v ∈ x :: l, v ∈ alistKeys pm) := by
  induction h with
  | self hr =>
      refine ⟨[], rfl, by simp, List.nodup_singleton _, ?_⟩
      intro v hv
      rw [List.mem_singleton.mp hv]
      exact mem_keys_of_lookup hr
  | step hl hne h1 ih =>
      rename_i x' p r' m
      rcases ih with ⟨l, hlen, hdepth, hnd, hkeys⟩
      refine ⟨p :: l, by simp [hlen], ?_, ?_, ?_⟩
      · intro v hv
        rcases List.mem_cons.mp hv with h2 | h2
        · refine ⟨m, Nat.lt_succ_self m, ?_⟩
          rw [h2]
          exact h1
        · rcases hdepth v h2 with ⟨k, hk, hd⟩
          exact ⟨k, Nat.lt_succ_of_lt hk, hd⟩
      · refine List.nodup_cons.mpr ⟨?_, hnd⟩
        intro hx
        rcases List.mem_cons.mp hx with h2 | h2
        · have hx'd : RootD pm x' r' m := by
            rw [h2]
            exact h1
          have := (rootD_fun hx'd (RootD.step hl hne h1)).2
          omega
        · rcases hdepth x' h2 with ⟨k, hk, hd⟩
          have := (rootD_fun hd (RootD.step hl hne h1)).2
          omega
      · intro v hv
        rcases List.mem_cons.mp hv with h2 | h2
        · rw [h2]
          exact mem_keys_of_lookup hl
        · exact hkeys v h2

theorem rootD_depth_le {pm : List (VId × VId)} {x r : VId} {n : Nat}
    (h : RootD pm x r n) : n + 1 ≤ pm.length := by
  rcases rootD_chain h with ⟨l, hlen, _, hnodup, hkeys⟩
  have h1 := length_le_of_nodup_subset hnodup hkeys
  rw [List.length_cons, hlen] at h1
  simpa [alistKeys] using h1

theorem findRoot_of_rootD {pm : List (VId × VId)} {x r : VId} {n : Nat}
    (h : RootD pm x r n) : ∀ fuel, n + 1 ≤ fuel → findRoot pm fuel x = .ok r := by
  induction h with
  | self hr =>
      intro fuel hf
      match fuel, hf with
      | f + 1, _ => simp [findRoot, hr]
  | step hl hne h1 ih =>
      intro fuel hf
      match fuel, hf with
      | f + 1, hf =>
          simp only [findRoot, hl]
          rw [if_neg hne]
          exact ih f (by omega)

theorem findRoot_ok {pm : List (VId × VId)} {x r : VId} {n : Nat}
    (h : RootD pm x r n) : findRoot pm (pm.length + 1) x = .ok r :=
  findRoot_of_rootD h _ (by have := rootD_depth_le h; omega)

theorem alistSet_lookup_self {α : Type} (l : List (VId × α)) (k : VId) (v : α) :
    alistLookup (alistSet l k v) k = some v := by
  induction l with
  | nil => simp [alistSet, alistLookup]
  | cons p rest ih =>
      rcases p with ⟨a, b⟩
      by_cases hp : a = k
      · subst hp
        simp [alistSet, alistLookup]
      · simp [alistSet, hp, alistLookup, ih]

theorem alistSet_lookup_ne {α : Type} (l : List (VId × α)) (k : VId) (v : α) {key : VId}
    (h : key ≠ k) : alistLookup (alistSet l k v) key = alistLookup l key := by
  induction l with
  | nil => simp [alistSet, alistLookup, Ne.symm h]
  | cons p rest ih =>
      rcases p with ⟨a, b⟩
      by_cases hp : a = k
      · subst hp
        simp [alistSet, alistLookup, Ne.symm h]
      · by_cases ha : a = key
        · subst ha
          simp [alistSet, hp, alistLookup]
        · simp [alistSet, hp, alistLookup, ha, ih]

theorem alistSet_keys_of_mem {α : Type} {l : List (VId × α)} {k : VId}
    (h : k ∈ alistKeys l) (v : α) : alistKeys (alistSet l k v) = alistKeys l := by
  induction l with
  | nil => simp [alistKeys] at h
  | cons p rest ih =>
      rcases p with ⟨a, b⟩
      by_cases hp : a = k
      · subst hp
        simp [alistSet, alistKeys]
      · have h' : k ∈ alistKeys rest := by
          simp [alistKeys] at h
          rcases h with h | h
          · exact absurd h.symm hp
          · simpa [alistKeys] using h
        have h2 := ih h'
        simp only [alistSet]
        rw [if_neg hp]
        simp only [alistKeys, List.map_cons] at h2 ⊢
        rw [h2]

theorem mem_rootSet {pm : List (VId × VId)} (hnd : (alistKeys pm).Nodup) {r : VId} :
    r ∈ rootSet pm ↔ alistLookup pm r = some r := by
  simp only [rootSet, List.mem_toFinset, List.mem_map, List.mem_filter]
  constructor
  · rintro ⟨p, ⟨hpmem, hpeq⟩, hfst⟩
    have h1 : p.1 = p.2 := beq_iff_eq.mp hpeq
    have h2 := lookup_of_mem_wf hnd hpmem
    rw [hfst] at h2
    rw [← h1, hfst] at h2
    exact h2
  · intro hr
    exact ⟨(r, r), ⟨mem_of_lookup hr, by simp⟩, rfl⟩

theorem rootSet_subset_keys {pm : List (VId × VId)} {r : VId} (h : r ∈ rootSet pm) :
    r ∈ alistKeys pm := by
  simp only [rootSet, List.mem_toFinset, List.mem_map, List.mem_filter] at h
  rcases h with ⟨p, ⟨hpmem, _⟩, hfst⟩
  rw [← hfst]
  exact List.mem_map.mpr ⟨p, hpmem, rfl⟩

theorem rootSet_set {pm : List (VId × VId)} (hnd : (alistKeys pm).Nodup)
    {r1 r2 : VId} (h1 : r1 ∈ alistKeys pm) (hne : r1 ≠ r2) :
    rootSet (alistSet pm r1 r2) = (rootSet pm).erase r1 := by
  ext r
  rw [Finset.mem_erase]
  have hnd' : (alistKeys (alistSet pm r1 r2)).Nodup := by
    rw [alistSet_keys_of_mem h1]
    exact hnd
  rw [mem_rootSet hnd', mem_rootSet hnd]
  by_cases hr : r = r1
  · subst hr
    rw [alistSet_lookup_self]
    constructor
    · intro h
      injection h with h
      exact absurd h.symm hne
    · rintro ⟨h2, _⟩
      exact absurd rfl h2
  · rw [alistSet_lookup_ne pm r1 r2 hr]
    exact ⟨fun h => ⟨hr, h⟩, fun h => h.2⟩

theorem rootD_set {pm : List (VId × VId)} {r1 r2 : VId}
    (hr1 : alistLookup pm r1 = some r1) (hr2 : alistLookup pm r2 = some r2)
    (hne : r1 ≠ r2) :
    ∀ {x r : VId} {n : Nat}, RootD pm x r n →
      (r = r1 → IsRootOf (alistSet pm r1 r2) x r2) ∧
      (r ≠ r1 → IsRootOf (alistSet pm r1 r2) x r) := by
  intro x r n h
  induction h with
  | self hr =>
      rename_i rr
      constructor
      · intro heq
        subst heq
        refine ⟨1, RootD.step (alistSet_lookup_self pm rr r2) (Ne.symm hne) ?_⟩
        refine RootD.self ?_
        rw [alistSet_lookup_ne pm rr r2 (Ne.symm hne)]
        exact hr2
      · intro hner
        refine ⟨0, RootD.self ?_⟩
        rw [alistSet_lookup_ne pm r1 r2 hner]
        exact hr
  | step hl hnep h1 ih =>
      rename_i x' p rr m
      have hx'ne : x' ≠ r1 := by
        intro heq
        subst heq
        rw [hr1] at hl
        injection hl with h2
        exact hnep h2.symm
      have hl' : alistLookup (alistSet pm r1 r2) x' = some p := by
        rw [alistSet_lookup_ne pm r1 r2 hx'ne]
        exact hl
      constructor
      · intro heq
        rcases ih.1 heq with ⟨m', hd⟩
        exact ⟨m' + 1, RootD.step hl' hnep hd⟩
      · intro hner
        rcases ih.2 hner with ⟨m', hd⟩
        exact ⟨m' + 1, RootD.step hl' hnep hd⟩

theorem isRootOf_conn {pm : List (VId × VId)} {A : List (VId × VId)}
    (hstep : ∀ x p, alistLookup pm x = some p → ConnBy A x p) :
    ∀ {x r : VId}, IsRootOf pm x r → ConnBy A x r := by
  rintro x r ⟨n, h⟩
  induction h with
  | self hr => exact Relation.ReflTransGen.refl
  | step hl hne h1 ih => exact Relation.ReflTransGen.trans (hstep _ _ hl) ih

theorem sortInsert_perm (e : Edge) (l : List Edge) : (sortInsert e l).Perm (e :: l) := by
  induction l with
  | nil => simp [sortInsert]
  | cons f rest ih =>
      simp only [sortInsert]
      by_cases hc : f.2.2 ≤ e.2.2
      · rw [if_pos hc]
        exact (ih.cons f).trans (List.Perm.swap e f rest)
      · rw [if_neg hc]

theorem sortInsert_mem {e x : Edge} {l : List Edge} :
    x ∈ sortInsert e l ↔ x = e ∨ x ∈ l := by
  have := (sortInsert_perm e l).mem_iff (a := x)
  simpa using this

theorem sortEdges_perm (l : List Edge) : (sortEdges l).Perm l := by
  have h : ∀ (acc : List Edge),
      (l.foldl (fun acc e => sortInsert e acc) acc).Perm (l ++ acc) := by
    induction l with
    | nil => intro acc; simp
    | cons e l' ih =>
        intro acc
        have h1 := ih (sortInsert e acc)
        have h2 : (l' ++ sortInsert e acc).Perm (l' ++ (e :: acc)) :=
          List.Perm.append_left l' (sortInsert_perm e acc)
        have h3 : (l' ++ (e :: acc)).Perm (e :: (l' ++ acc)) := List.perm_middle
        simpa using (h1.trans h2).trans h3
  simpa using h []

theorem sortEdges_mem {x : Edge} {l : List Edge} : x ∈ sortEdges l ↔ x ∈ l :=
  (sortEdges_perm l).mem_iff

theorem sortInsert_sorted {e : Edge} {l : List Edge}
    (h : List.Pairwise (fun d f => d.2.2 ≤ f.2.2) l) :
    List.Pairwise (fun d f => d.2.2 ≤ f.2.2) (sortInsert e l) := by
  induction l with
  | nil => simp [sortInsert]
  | cons f rest ih =>
      simp only [sortInsert]
      rcases List.pairwise_cons.mp h with ⟨hf, hrest⟩
      by_cases hc : f.2.2 ≤ e.2.2
      · rw [if_pos hc]
        refine List.pairwise_cons.mpr ⟨?_, ih hrest⟩
        intro x hx
        rcases sortInsert_mem.mp hx with h1 | h1
        · rw [h1]
          exact hc
        · exact hf x h1
      · rw [if_neg hc]
        push_neg at hc
        refine List.pairwise_cons.mpr ⟨?_, h⟩
        intro x hx
        rcases List.mem_cons.mp hx with h1 | h1
        · rw [h1]
          omega
        · have := hf x h1
          omega

theorem sortEdges_sorted (l : List Edge) :
    List.Pairwise (fun d f => d.2.2 ≤ f.2.2) (sortEdges l) := by
  have h : ∀ (acc : List Edge), List.Pairwise (fun d f => d.2.2 ≤ f.2.2) acc →
      List.Pairwise (fun d f => d.2.2 ≤ f.2.2)
        (l.foldl (fun acc e => sortInsert e acc) acc) := by
    induction l with
    | nil => intro acc ha; simpa using ha
    | cons e l' ih => intro acc ha; exact ih _ (sortInsert_sorted ha)
  exact h [] (by simp)

theorem mem_collectEdges {d : List (VId × List (VId × Int))} {u v : VId} {w : Int} :
    (u, v, w) ∈ collectEdges d ↔ ∃ nb, (u, nb) ∈ d ∧ (v, w) ∈ nb := by
  induction d with
  | nil => simp [collectEdges]
  | cons p rest ih =>
      rcases p with ⟨a, nbrs⟩
      simp only [collectEdges, List.mem_append, List.mem_map, ih]
      constructor
      · rintro (⟨q, hq, he⟩ | ⟨nb, h1, h2⟩)
        · have h1 : a = u := congrArg (fun t => t.1) he
          have h2 : q.1 = v := congrArg (fun t => t.2.1) he
          have h3 : q.2 = w := congrArg (fun t => t.2.2) he
          subst h1
          refine ⟨nbrs, List.mem_cons_self _ _, ?_⟩
          have hq' : q = (v, w) := Prod.ext h2 h3
          rw [← hq']
          exact hq
        · exact ⟨nb, List.mem_cons.mpr (Or.inr h1), h2⟩
      · rintro ⟨nb, hmem, h2⟩
        rcases List.mem_cons.mp hmem with h1 | h1
        · left
          have ha : u = a := congrArg (fun t => t.1) h1
          have hb : nb = nbrs := congrArg (fun t => t.2) h1
          subst ha
          subst hb
          exact ⟨(v, w), h2, rfl⟩
        · right
          exact ⟨nb, h1, h2⟩

theorem collect_iff_nbrWeight {g : WeightedGraph} (hnd : (alistKeys g.vertex_dict).Nodup)
    (hvnd : ∀ p ∈ g.vertex_dict, (alistKeys p.2).Nodup) {u v : VId} {w : Int} :
    (u, v, w) ∈ collectEdges g.vertex_dict ↔ nbrWeight g u v = some w := by
  rw [mem_collectEdges]
  constructor
  · rintro ⟨nb, h1, h2⟩
    have hl1 : alistLookup g.vertex_dict u = some nb := lookup_of_mem_wf hnd h1
    have hl2 : alistLookup nb v = some w := lookup_of_mem_wf (hvnd (u, nb) h1) h2
    simp [nbrWeight, hl1, hl2]
  · intro h
    unfold nbrWeight at h
    rcases hl : alistLookup g.vertex_dict u with _ | nb
    · rw [hl] at h
      simp at h
    · rw [hl] at h
      simp only [Option.some_bind] at h
      exact ⟨nb, mem_of_lookup hl, mem_of_lookup h⟩

theorem collect_endpoints {g : WeightedGraph} (hclw : ClosedW g) {u v : VId} {w : Int}
    (h : (u, v, w) ∈ collectEdges g.vertex_dict) :
    u ∈ alistKeys g.vertex_dict ∧ v ∈ alistKeys g.vertex_dict := by
  rcases mem_collectEdges.mp h with ⟨nb, h1, h2⟩
  exact ⟨List.mem_map.mpr ⟨(u, nb), h1, rfl⟩, hclw (u, nb) h1 (v, w) h2⟩

theorem rtg_lift {r s : VId → VId → Prop}
    (h : ∀ x y, r x y → Relation.ReflTransGen s x y) {a b : VId}
    (hr : Relation.ReflTransGen r a b) : Relation.ReflTransGen s a b := by
  induction hr with
  | refl => exact Relation.ReflTransGen.refl
  | tail h1 h2 ih => exact ih.trans (h _ _ h2)

theorem conn_root_eq {g : WeightedGraph} {pm : List (VId × VId)} {A : List Edge}
    (hI7 : ∀ x ∈ alistKeys g.vertex_dict, ∃ r m, RootD pm x r m)
    (hI4 : ∀ e ∈ A, e.1 ∈ alistKeys g.vertex_dict ∧ e.2.1 ∈ alistKeys g.vertex_dict)
    (hI9 : ∀ e ∈ A, ∃ r, IsRootOf pm e.1 r ∧ IsRootOf pm e.2.1 r)
    {u v : VId} (hconn : ConnBy (A.map pairOf) u v) :
    ∀ {ru rv}, IsRootOf pm u ru → IsRootOf pm v rv → ru = rv := by
  induction hconn with
  | refl =>
      intro ru rv h1 h2
      rcases h1 with ⟨n1, hd1⟩
      rcases h2 with ⟨n2, hd2⟩
      exact (rootD_fun hd1 hd2).1
  | @tail mid last hc hstep ih =>
      intro ru rv h1 h2
      have he : ∃ e ∈ A, pairOf e = (mid, last) ∨ pairOf e = (last, mid) := by
        rcases hstep with hm | hm
        · rcases List.mem_map.mp hm with ⟨e, heA, hep⟩
          exact ⟨e, heA, Or.inl hep⟩
        · rcases List.mem_map.mp hm with ⟨e, heA, hep⟩
          exact ⟨e, heA, Or.inr hep⟩
      rcases he with ⟨e, heA, horient⟩
      rcases hI9 e heA with ⟨re, hre1, hre2⟩
      have hml : IsRootOf pm mid re ∧ IsRootOf pm last re := by
        rcases horient with ho | ho
        · have h1' : e.1 = mid := congrArg Prod.fst ho
          have h2' : e.2.1 = last := congrArg Prod.snd ho
          exact ⟨h1' ▸ hre1, h2' ▸ hre2⟩
        · have h1' : e.1 = last := congrArg Prod.fst ho
          have h2' : e.2.1 = mid := congrArg Prod.snd ho
          exact ⟨h2' ▸ hre2, h1' ▸ hre1⟩
      rcases h2 with ⟨n2, hd2⟩
      rcases hml.2 with ⟨n3, hd3⟩
      have hrv : rv = re := (rootD_fun hd2 hd3).1
      have hru : ru = re := ih h1 hml.1
      rw [hru, hrv]

theorem rtg_cross {r : VId → VId → Prop} {C : VId → Prop} {a b : VId}
    (h : Relation.ReflTransGen r a b) (ha : C a) : ¬ C b →
    ∃ x y, C x ∧ ¬ C y ∧ r x y := by
  induction h with
  | refl => intro hb; exact absurd ha hb
  | tail h1 h2 ih =>
      intro hb
      rename_i mid last
      by_cases hc : C mid
      · exact ⟨mid, last, hc, hb, h2⟩
      · exact ih hc

theorem kruskalLoop_spec {g : WeightedGraph}
    (hnd : (alistKeys g.vertex_dict).Nodup)
    (hvnd : ∀ p ∈ g.vertex_dict, (alistKeys p.2).Nodup)
    (hclw : ClosedW g) (hsym : Symm g) (hcw : ConnectedW g) :
    ∀ (fuel : Nat) (remaining : List Edge) (pm : List (VId × VId)) (A : List Edge),
    (∀ t ∈ collectEdges g.vertex_dict,
      ConnBy (A.map pairOf) t.1 t.2.1 ∨ t ∈ remaining) →
    List.Pairwise (fun d f => d.2.2 ≤ f.2.2) remaining →
    (∀ t ∈ remaining, t ∈ collectEdges g.vertex_dict) →
    (∀ e ∈ A, e.1 ∈ alistKeys g.vertex_dict ∧ e.2.1 ∈ alistKeys g.vertex_dict) →
    PromiseW g A →
    alistKeys pm = alistKeys g.vertex_dict →
    (∀ x ∈ alistKeys g.vertex_dict, ∃ r m, RootD pm x r m) →
    (∀ x p, alistLookup pm x = some p → ConnBy (A.map pairOf) x p) →
    (∀ e ∈ A, ∃ r, IsRootOf pm e.1 r ∧ IsRootOf pm e.2.1 r) →
    A.length + (rootSet pm).card = (alistKeys g.vertex_dict).length →
    remaining.length + 1 ≤ fuel →
    ∃ Aout, kruskalLoop g fuel remaining pm A = .ok Aout ∧
      Aout.length = (alistKeys g.vertex_dict).length - 1 ∧ PromiseW g Aout := by
  intro fuel
  induction fuel with
  | zero =>
      intro remaining pm A _ _ _ _ _ _ _ _ _ _ hfuel
      omega
  | succ fuel ih =>
      intro remaining pm A hI1 hI2 hI3 hI4 hI5 hI6 hI7 hI8 hI9 hI10 hfuel
      have hpmnd : (alistKeys pm).Nodup := by
        rw [hI6]
        exact hnd
      have hdl : (alistKeys g.vertex_dict).length = g.vertex_dict.length := by
        simp [alistKeys]
      have hkne : alistKeys g.vertex_dict ≠ [] := by
        rcases List.exists_cons_of_ne_nil hcw.1 with ⟨p, t, hp⟩
        rw [hp]
        simp [alistKeys]
      rcases List.exists_cons_of_ne_nil hkne with ⟨x0, tkeys, hx0⟩
      have hx0V : x0 ∈ alistKeys g.vertex_dict := by
        rw [hx0]
        exact List.mem_cons_self _ _
      rcases hI7 x0 hx0V with ⟨r0, m0, hd0⟩
      have hr0set : r0 ∈ rootSet pm := (mem_rootSet hpmnd).mpr (rootD_root hd0)
      by_cases hguard : A.length < g.vertex_dict.length - 1
      · -- loop continues: the edge pool cannot be exhausted
        have hrem_ne : remaining ≠ [] := by
          intro hempty
          subst hempty
          have hstepconv : ∀ x y, AdjW g x y → ConnBy (A.map pairOf) x y := by
            rintro x y ⟨w, hw⟩
            have htC := (collect_iff_nbrWeight hnd hvnd).mpr hw
            rcases hI1 (x, y, w) htC with hc | hm
            · exact hc
            · cases hm
          have hallroot : ∀ rr ∈ rootSet pm, rr = r0 := by
            intro rr hrr
            have hrrV : rr ∈ alistKeys g.vertex_dict := by
              rw [← hI6]
              exact rootSet_subset_keys hrr
            have hconn_rr : ConnBy (A.map pairOf) rr x0 :=
              rtg_lift hstepconv (hcw.2 rr hrrV x0 hx0V)
            have hrr_root : IsRootOf pm rr rr :=
              ⟨0, RootD.self ((mem_rootSet hpmnd).mp hrr)⟩
            exact conn_root_eq hI7 hI4 hI9 hconn_rr hrr_root ⟨m0, hd0⟩
          have hcard1 : (rootSet pm).card = 1 := by
            rw [show rootSet pm = {r0} from
              Finset.eq_singleton_iff_unique_mem.mpr ⟨hr0set, hallroot⟩]
            exact Finset.card_singleton r0
          omega
        rcases List.exists_cons_of_ne_nil hrem_ne with ⟨e, rest, hrem⟩
        subst hrem
        have heC : e ∈ collectEdges g.vertex_dict := hI3 e (List.mem_cons_self _ _)
        have hedge : nbrWeight g e.1 e.2.1 = some e.2.2 :=
          (collect_iff_nbrWeight hnd hvnd).mp heC
        rcases collect_endpoints hclw heC with ⟨he1V, he2V⟩
        rcases hI7 e.1 he1V with ⟨r1, m1, hd1⟩
        rcases hI7 e.2.1 he2V with ⟨r2, m2, hd2⟩
        have hfind1 : findRoot pm (pm.length + 1) e.1 = .ok r1 := findRoot_ok hd1
        have hfind2 : findRoot pm (pm.length + 1) e.2.1 = .ok r2 := findRoot_ok hd2
        have h0 : kruskalLoop g (fuel + 1) (e :: rest) pm A =
            (findRoot pm (pm.length + 1) e.1).bind (fun s1 =>
              (findRoot pm (pm.length + 1) e.2.1).bind (fun s2 =>
                if s1 ≠ s2 then
                  (unionRoots pm (pm.length + 1) e.1 e.2.1).bind (fun pm2 =>
                    kruskalLoop g fuel rest pm2 (A ++ [e]))
                else kruskalLoop g fuel rest pm A)) := by
          simp only [kruskalLoop]
          rw [if_pos hguard]
          rfl
        have h1 : kruskalLoop g (fuel + 1) (e :: rest) pm A =
            (if r1 ≠ r2 then
              (unionRoots pm (pm.length + 1) e.1 e.2.1).bind (fun pm2 =>
                kruskalLoop g fuel rest pm2 (A ++ [e]))
            else kruskalLoop g fuel rest pm A) := by
          rw [h0, hfind1, hfind2]
          rfl
        have hfuel' : rest.length + 1 ≤ fuel := by
          simp only [List.length_cons] at hfuel
          omega
        have hI2' := (List.pairwise_cons.mp hI2).2
        have hI3' : ∀ t ∈ rest, t ∈ collectEdges g.vertex_dict :=
          fun t ht => hI3 t (List.mem_cons.mpr (Or.inr ht))
        by_cases hroots : r1 ≠ r2
        · -- accept e, union the roots
          have hr1root := rootD_root hd1
          have hr2root := rootD_root hd2
          have hr1keys : r1 ∈ alistKeys pm := mem_keys_of_lookup hr1root
          have hunion : unionRoots pm (pm.length + 1) e.1 e.2.1 =
              .ok (alistSet pm r1 r2) := by
            unfold unionRoots
            rw [hfind1, hfind2]
            rfl
          have hstep : kruskalLoop g (fuel + 1) (e :: rest) pm A =
              kruskalLoop g fuel rest (alistSet pm r1 r2) (A ++ [e]) := by
            rw [h1, if_pos hroots, hunion]
            rfl
          have hnc : ¬ ConnBy (A.map pairOf) e.1 e.2.1 := by
            intro hcn
            exact hroots (conn_root_eq hI7 hI4 hI9 hcn ⟨m1, hd1⟩ ⟨m2, hd2⟩)
          have hminA : ∀ x y wf, nbrWeight g x y = some wf →
              ConnBy (A.map pairOf) e.1 x → ¬ ConnBy (A.map pairOf) e.1 y →
              e.2.2 ≤ wf := by
            intro x y wf hw hcx hcy
            have htC := (collect_iff_nbrWeight hnd hvnd).mpr hw
            rcases hI1 (x, y, wf) htC with hcn | hmem
            · exact absurd (hcx.trans hcn) hcy
            · rcases List.mem_cons.mp hmem with heq | hrest
              · have hew : e.2.2 = wf := congrArg (fun t => t.2.2) heq.symm
                omega
              · have := (List.pairwise_cons.mp hI2).1 (x, y, wf) hrest
                exact this
          have hpr' : PromiseW g (A ++ [e]) :=
            promise_extend hclw hsym hI5 hnc hedge hminA
          have hApairsub : ∀ p ∈ A.map pairOf, p ∈ (A ++ [e]).map pairOf := by
            intro p hp
            rcases List.mem_map.mp hp with ⟨t, ht, htp⟩
            exact List.mem_map.mpr ⟨t, List.mem_append.mpr (Or.inl ht), htp⟩
          have hepair : pairOf e ∈ (A ++ [e]).map pairOf :=
            List.mem_map.mpr ⟨e, List.mem_append.mpr (Or.inr (List.mem_singleton.mpr rfl)), rfl⟩
          have hecon : ConnBy ((A ++ [e]).map pairOf) e.1 e.2.1 :=
            Relation.ReflTransGen.single (Or.inl hepair)
          rcases ih rest (alistSet pm r1 r2) (A ++ [e])
            (by
              intro t ht
              rcases hI1 t ht with hc | hm
              · exact Or.inl (ConnBy_mono hApairsub hc)
              · rcases List.mem_cons.mp hm with he' | hr'
                · left
                  rw [he']
                  exact hecon
                · exact Or.inr hr')
            hI2' hI3'
            (by
              intro e' he'
              rcases List.mem_append.mp he' with hA | hsing
              · exact hI4 e' hA
              · rw [List.mem_singleton.mp hsing]
                exact ⟨he1V, he2V⟩)
            hpr'
            (by
              rw [alistSet_keys_of_mem hr1keys]
              exact hI6)
            (by
              intro x hx
              rcases hI7 x hx with ⟨r, m, hd⟩
              by_cases hrr1 : r = r1
              · rcases (rootD_set hr1root hr2root hroots hd).1 hrr1 with ⟨m', hd'⟩
                exact ⟨r2, m', hd'⟩
              · rcases (rootD_set hr1root hr2root hroots hd).2 hrr1 with ⟨m', hd'⟩
                exact ⟨r, m', hd'⟩)
            (by
              intro x p hxp
              by_cases hx : x = r1
              · rw [hx] at hxp
                rw [alistSet_lookup_self] at hxp
                injection hxp with hp2
                have hc1 : ConnBy ((A ++ [e]).map pairOf) e.1 r1 :=
                  ConnBy_mono hApairsub (isRootOf_conn hI8 ⟨m1, hd1⟩)
                have hc2 : ConnBy ((A ++ [e]).map pairOf) e.2.1 r2 :=
                  ConnBy_mono hApairsub (isRootOf_conn hI8 ⟨m2, hd2⟩)
                rw [hx, ← hp2]
                exact ((ConnBy_symm hc1).trans hecon).trans hc2
              · rw [alistSet_lookup_ne pm r1 r2 hx] at hxp
                exact ConnBy_mono hApairsub (hI8 x p hxp))
            (by
              intro e' he'
              rcases List.mem_append.mp he' with hA | hsing
              · rcases hI9 e' hA with ⟨r, hra, hrb⟩
                by_cases hrr1 : r = r1
                · subst hrr1
                  rcases hra with ⟨na, hda⟩
                  rcases hrb with ⟨nb, hdb⟩
                  exact ⟨r2, (rootD_set hr1root hr2root hroots hda).1 rfl,
                    (rootD_set hr1root hr2root hroots hdb).1 rfl⟩
                · rcases hra with ⟨na, hda⟩
                  rcases hrb with ⟨nb, hdb⟩
                  exact ⟨r, (rootD_set hr1root hr2root hroots hda).2 hrr1,
                    (rootD_set hr1root hr2root hroots hdb).2 hrr1⟩
              · rw [List.mem_singleton.mp hsing]
                exact ⟨r2, (rootD_set hr1root hr2root hroots hd1).1 rfl,
                  (rootD_set hr1root hr2root hroots hd2).2 (Ne.symm hroots)⟩)
            (by
              have hr1set : r1 ∈ rootSet pm := (mem_rootSet hpmnd).mpr hr1root
              rw [rootSet_set hpmnd hr1keys hroots, Finset.card_erase_of_mem hr1set]
              have hge : 1 ≤ (rootSet pm).card := Finset.card_pos.mpr ⟨r1, hr1set⟩
              simp only [List.length_append, List.length_singleton]
              omega)
            hfuel'
            with ⟨Aout, hA1, hA2, hA3⟩
          exact ⟨Aout, by rw [hstep]; exact hA1, hA2, hA3⟩
        · -- reject e: endpoints already in the same component
          have hreq : r1 = r2 := not_not.mp hroots
          have hstep : kruskalLoop g (fuel + 1) (e :: rest) pm A =
              kruskalLoop g fuel rest pm A := by
            rw [h1, if_neg hroots]
          have hecon : ConnBy (A.map pairOf) e.1 e.2.1 := by
            have hc1 : ConnBy (A.map pairOf) e.1 r1 := isRootOf_conn hI8 ⟨m1, hd1⟩
            have hc2 : ConnBy (A.map pairOf) e.2.1 r2 := isRootOf_conn hI8 ⟨m2, hd2⟩
            rw [hreq] at hc1
            exact hc1.trans (ConnBy_symm hc2)
          rcases ih rest pm A
            (by
              intro t ht
              rcases hI1 t ht with hc | hm
              · exact Or.inl hc
              · rcases List.mem_cons.mp hm with he' | hr'
                · left
                  rw [he']
                  exact hecon
                · exact Or.inr hr')
            hI2' hI3' hI4 hI5 hI6 hI7 hI8 hI9 hI10 hfuel'
            with ⟨Aout, hA1, hA2, hA3⟩
          exact ⟨Aout, by rw [hstep]; exact hA1, hA2, hA3⟩
      · -- loop exits with the finished tree
        refine ⟨A, ?_, ?_, hI5⟩
        · show kruskalLoop g (fuel + 1) remaining pm A = .ok A
          simp only [kruskalLoop]
          rw [if_neg hguard]
        · have hcard : 1 ≤ (rootSet pm).card := Finset.card_pos.mpr ⟨r0, hr0set⟩
          omega

theorem diag_lookup_mem {α : Type} {l : List (VId × α)} {x : VId} (h : x ∈ alistKeys l) :
    alistLookup (l.map (fun p => (p.1, p.1))) x = some x := by
  induction l with
  | nil => simp [alistKeys] at h
  | cons p rest ih =>
      simp only [List.map_cons, alistLookup]
      by_cases hp : p.1 = x
      · rw [if_pos hp, hp]
      · rw [if_neg hp]
        apply ih
        simp only [alistKeys, List.map_cons, List.mem_cons] at h
        rcases h with h | h
        · exact absurd h.symm hp
        · exact h
  -- the map keeps each key paired with itself

theorem diag_lookup_eq {α : Type} {l : List (VId × α)} {x p : VId}
    (h : alistLookup (l.map (fun q => (q.1, q.1))) x = some p) : p = x := by
  induction l with
  | nil => simp [alistLookup] at h
  | cons q rest ih =>
      simp only [List.map_cons, alistLookup] at h
      by_cases hq : q.1 = x
      · rw [if_pos hq] at h
        injection h with h
        rw [← h]
        exact hq
      · rw [if_neg hq] at h
        exact ih h

theorem diag_keys {α : Type} (l : List (VId × α)) :
    alistKeys (l.map (fun p => (p.1, p.1))) = alistKeys l := by
  induction l with
  | nil => rfl
  | cons p rest ih =>
      simp only [alistKeys, List.map_cons] at ih ⊢
      rw [ih]

theorem alistErase_lookup_ne {α : Type} (l : List (VId × α)) (k : VId) {key : VId}
    (h : key ≠ k) : alistLookup (alistErase l k) key = alistLookup l key := by
  induction l with
  | nil => rfl
  | cons p rest ih =>
      rcases p with ⟨a, b⟩
      by_cases ha : a = k
      · subst ha
        simp only [alistErase, if_pos rfl]
        simp [alistLookup, Ne.symm h]
      · simp only [alistErase, if_neg ha]
        by_cases hk : a = key
        · subst hk
          simp [alistLookup]
        · simp [alistLookup, hk, ih]

theorem alistErase_keys {α : Type} (l : List (VId × α)) (k : VId) :
    alistKeys (alistErase l k) = (alistKeys l).erase k := by
  induction l with
  | nil => rfl
  | cons p rest ih =>
      rcases p with ⟨a, b⟩
      by_cases ha : a = k
      · subst ha
        simp only [alistErase, if_true]
        simp only [alistKeys, List.map_cons]
        rw [List.erase_cons_head]
      · simp only [alistErase, if_neg ha, alistKeys, List.map_cons]
        rw [List.erase_cons_tail (by simpa using ha)]
        simp only [alistKeys] at ih
        rw [ih]

theorem initMap_lookup {α : Type} (l : List (VId × α)) (x : VId) :
    alistLookup (l.map (fun p => (p.1, PyNum.inf))) x =
      (alistLookup l x).map (fun _ => PyNum.inf) := by
  induction l with
  | nil => rfl
  | cons p rest ih =>
      rcases p with ⟨a, b⟩
      by_cases ha : a = x
      · subst ha
        simp [alistLookup]
      · simp [alistLookup, ha, ih]

theorem smallestScan_spec (dict : List (VId × PyNum)) :
    ∀ (ks : List VId) (best : VId),
      (smallestScan dict ks best = best ∨ smallestScan dict ks best ∈ ks) ∧
      pnLe (keyOf dict (smallestScan dict ks best)) (keyOf dict best) ∧
      ∀ k ∈ ks, pnLe (keyOf dict (smallestScan dict ks best)) (keyOf dict k) := by
  intro ks
  induction ks with
  | nil =>
      intro best
      exact ⟨Or.inl rfl, pnLe_refl _, by simp⟩
  | cons k rest ih =>
      intro best
      have hred : smallestScan dict (k :: rest) best =
          smallestScan dict rest
            (if (keyOf dict k).lt (keyOf dict best) then k else best) := rfl
      by_cases hc : (keyOf dict k).lt (keyOf dict best) = true
      · have heq : smallestScan dict (k :: rest) best = smallestScan dict rest k := by
          rw [hred, if_pos hc]
        rcases ih k with ⟨hmem, hle, hall⟩
        rw [heq]
        refine ⟨?_, pnLe_trans hle (pnLe_of_lt hc), ?_⟩
        · rcases hmem with h | h
          · exact Or.inr (List.mem_cons.mpr (Or.inl h))
          · exact Or.inr (List.mem_cons.mpr (Or.inr h))
        · intro k' hk'
          rcases List.mem_cons.mp hk' with h | h
          · rw [h]
            exact hle
          · exact hall k' h
      · have hcf : (keyOf dict k).lt (keyOf dict best) = false := by
          revert hc
          cases (keyOf dict k).lt (keyOf dict best) <;> simp
        have heq : smallestScan dict (k :: rest) best = smallestScan dict rest best := by
          rw [hred, if_neg hc]
        rcases ih best with ⟨hmem, hle, hall⟩
        rw [heq]
        refine ⟨?_, hle, ?_⟩
        · rcases hmem with h | h
          · exact Or.inl h
          · exact Or.inr (List.mem_cons.mpr (Or.inr h))
        · intro k' hk'
          rcases List.mem_cons.mp hk' with h | h
          · rw [h]
            exact pnLe_trans hle hcf
          · exact hall k' h

theorem get_smallest_spec {v2w : List (VId × PyNum)} (hne : v2w ≠ []) :
    ∃ r, get_smallest_vetext v2w = .ok r ∧ r ∈ alistKeys v2w ∧
      ∀ k ∈ alistKeys v2w, pnLe (keyOf v2w r) (keyOf v2w k) := by
  rcases List.exists_cons_of_ne_nil hne with ⟨p, rest, hp⟩
  subst hp
  rcases smallestScan_spec (p :: rest) (alistKeys (p :: rest)) p.1 with ⟨hmem, _, hall⟩
  refine ⟨smallestScan (p :: rest) (alistKeys (p :: rest)) p.1, rfl, ?_, hall⟩
  rcases hmem with h | h
  · rw [h]
    exact List.mem_map.mpr ⟨p, List.mem_cons_self _ _, rfl⟩
  · exact h

theorem primRelax_keys : ∀ (l : List (VId × Int)) (v2w : List (VId × PyNum)),
    alistKeys (primRelax v2w l) = alistKeys v2w := by
  intro l
  induction l with
  | nil => intro v2w; rfl
  | cons q rest ih =>
      rcases q with ⟨n, w⟩
      intro v2w
      rcases hl : alistLookup v2w n with _ | wn
      · have heq : primRelax v2w ((n, w) :: rest) = primRelax v2w rest := by
          simp only [primRelax, hl]
        rw [heq]
        exact ih v2w
      · by_cases hlt : (PyNum.fin w).lt wn = true
        · have heq : primRelax v2w ((n, w) :: rest) =
              primRelax (alistSet v2w n (.fin w)) rest := by
            simp only [primRelax, hl]
            rw [if_pos hlt]
          rw [heq, ih _]
          exact alistSet_keys_of_mem (mem_keys_of_lookup hl) _
        · have heq : primRelax v2w ((n, w) :: rest) = primRelax v2w rest := by
            simp only [primRelax, hl]
            rw [if_neg hlt]
          rw [heq]
          exact ih v2w

theorem primRelax_le : ∀ (l : List (VId × Int)) (v2w : List (VId × PyNum)) (v : VId),
    pnLe (keyOf (primRelax v2w l) v) (keyOf v2w v) := by
  intro l
  induction l with
  | nil => intro v2w v; exact pnLe_refl _
  | cons q rest ih =>
      rcases q with ⟨n, w⟩
      intro v2w v
      rcases hl : alistLookup v2w n with _ | wn
      · have heq : primRelax v2w ((n, w) :: rest) = primRelax v2w rest := by
          simp only [primRelax, hl]
        rw [heq]
        exact ih v2w v
      · by_cases hlt : (PyNum.fin w).lt wn = true
        · have heq : primRelax v2w ((n, w) :: rest) =
              primRelax (alistSet v2w n (.fin w)) rest := by
            simp only [primRelax, hl]
            rw [if_pos hlt]
          rw [heq]
          refine pnLe_trans (ih _ v) ?_
          by_cases hv : v = n
          · subst hv
            have h1 : keyOf (alistSet v2w v (.fin w)) v = .fin w := by
              simp [keyOf, alistSet_lookup_self]
            have h2 : keyOf v2w v = wn := by
              simp [keyOf, hl]
            rw [h1, h2]
            exact pnLe_of_lt hlt
          · have h1 : keyOf (alistSet v2w n (.fin w)) v = keyOf v2w v := by
              simp [keyOf, alistSet_lookup_ne v2w n (.fin w) hv]
            rw [h1]
            exact pnLe_refl _
        · have heq : primRelax v2w ((n, w) :: rest) = primRelax v2w rest := by
            simp only [primRelax, hl]
            rw [if_neg hlt]
          rw [heq]
          exact ih v2w v

theorem primRelax_dom : ∀ (l : List (VId × Int)) (v2w : List (VId × PyNum))
    (n : VId) (w : Int), (n, w) ∈ l → n ∈ alistKeys v2w →
    pnLe (keyOf (primRelax v2w l) n) (.fin w) := by
  intro l
  induction l with
  | nil =>
      intro v2w n w hmem
      cases hmem
  | cons q rest ih =>
      rcases q with ⟨m, u⟩
      intro v2w n w hmem hkeys
      rcases List.mem_cons.mp hmem with heq | hrest
      · have hm : n = m := congrArg Prod.fst heq
        have hu : w = u := congrArg Prod.snd heq
        subst hm
        subst hu
        rcases lookup_isSome_of_mem_keys hkeys with ⟨wn, hl⟩
        by_cases hlt : (PyNum.fin w).lt wn = true
        · have heq2 : primRelax v2w ((n, w) :: rest) =
              primRelax (alistSet v2w n (.fin w)) rest := by
            simp only [primRelax, hl]
            rw [if_pos hlt]
          rw [heq2]
          refine pnLe_trans (primRelax_le rest _ n) ?_
          have h1 : keyOf (alistSet v2w n (.fin w)) n = .fin w := by
            simp [keyOf, alistSet_lookup_self]
          rw [h1]
          exact pnLe_refl _
        · have heq2 : primRelax v2w ((n, w) :: rest) = primRelax v2w rest := by
            simp only [primRelax, hl]
            rw [if_neg hlt]
          rw [heq2]
          refine pnLe_trans (primRelax_le rest _ n) ?_
          have h2 : keyOf v2w n = wn := by
            simp [keyOf, hl]
          rw [h2]
          have hcf : (PyNum.fin w).lt wn = false := by
            revert hlt
            cases (PyNum.fin w).lt wn <;> simp
          exact hcf
      · rcases hl : alistLookup v2w m with _ | wn
        · have heq2 : primRelax v2w ((m, u) :: rest) = primRelax v2w rest := by
            simp only [primRelax, hl]
          rw [heq2]
          exact ih v2w n w hrest hkeys
        · by_cases hlt : (PyNum.fin u).lt wn = true
          · have heq2 : primRelax v2w ((m, u) :: rest) =
                primRelax (alistSet v2w m (.fin u)) rest := by
              simp only [primRelax, hl]
              rw [if_pos hlt]
            rw [heq2]
            refine ih _ n w hrest ?_
            rw [alistSet_keys_of_mem (mem_keys_of_lookup hl)]
            exact hkeys
          · have heq2 : primRelax v2w ((m, u) :: rest) = primRelax v2w rest := by
              simp only [primRelax, hl]
              rw [if_neg hlt]
            rw [heq2]
            exact ih v2w n w hrest hkeys

theorem primRelax_src : ∀ (l : List (VId × Int)) (v2w : List (VId × PyNum))
    (v : VId) (k : Int), alistLookup (primRelax v2w l) v = some (.fin k) →
    alistLookup v2w v = some (.fin k) ∨ (v, k) ∈ l := by
  intro l
  induction l with
  | nil =>
      intro v2w v k h
      exact Or.inl h
  | cons q rest ih =>
      rcases q with ⟨n, w⟩
      intro v2w v k h
      rcases hl : alistLookup v2w n with _ | wn
      · have heq : primRelax v2w ((n, w) :: rest) = primRelax v2w rest := by
          simp only [primRelax, hl]
        rw [heq] at h
        rcases ih v2w v k h with h2 | h2
        · exact Or.inl h2
        · exact Or.inr (List.mem_cons.mpr (Or.inr h2))
      · by_cases hlt : (PyNum.fin w).lt wn = true
        · have heq : primRelax v2w ((n, w) :: rest) =
              primRelax (alistSet v2w n (.fin w)) rest := by
            simp only [primRelax, hl]
            rw [if_pos hlt]
          rw [heq] at h
          rcases ih _ v k h with h2 | h2
          · by_cases hv : v = n
            · subst hv
              rw [alistSet_lookup_self] at h2
              injection h2 with h3
              have h4 : w = k := by
                injection h3
              exact Or.inr (List.mem_cons.mpr (Or.inl (by rw [h4])))
            · rw [alistSet_lookup_ne v2w n (.fin w) hv] at h2
              exact Or.inl h2
          · exact Or.inr (List.mem_cons.mpr (Or.inr h2))
        · have heq : primRelax v2w ((n, w) :: rest) = primRelax v2w rest := by
            simp only [primRelax, hl]
            rw [if_neg hlt]
          rw [heq] at h
          rcases ih v2w v k h with h2 | h2
          · exact Or.inl h2
          · exact Or.inr (List.mem_cons.mpr (Or.inr h2))

theorem nbrWeight_keys {g : WeightedGraph} (hclw : ClosedW g) {u v : VId} {w : Int}
    (h : nbrWeight g u v = some w) :
    u ∈ alistKeys g.vertex_dict ∧ v ∈ alistKeys g.vertex_dict := by
  unfold nbrWeight at h
  rcases hl : alistLookup g.vertex_dict u with _ | nb
  · rw [hl] at h
    simp at h
  · rw [hl] at h
    simp only [Option.some_bind] at h
    exact ⟨mem_keys_of_lookup hl,
      hclw (u, nb) (mem_of_lookup hl) (v, w) (mem_of_lookup h)⟩

theorem primLoop_spec {g : WeightedGraph}
    (hnd : (alistKeys g.vertex_dict).Nodup)
    (hvnd : ∀ p ∈ g.vertex_dict, (alistKeys p.2).Nodup)
    (hclw : ClosedW g) (hsym : Symm g) (hcw : ConnectedW g) :
    ∀ (fuel : Nat) (v2w : List (VId × PyNum)) (A : List Edge),
    (alistKeys v2w).Nodup →
    (∀ v ∈ alistKeys v2w, v ∈ alistKeys g.vertex_dict) →
    (∃ s0, s0 ∈ alistKeys g.vertex_dict ∧ s0 ∉ alistKeys v2w) →
    (∀ e ∈ A, nbrWeight g e.1 e.2.1 = some e.2.2 ∧
      (e.1 ∈ alistKeys g.vertex_dict ∧ e.1 ∉ alistKeys v2w) ∧
      (e.2.1 ∈ alistKeys g.vertex_dict ∧ e.2.1 ∉ alistKeys v2w)) →
    (∀ u v, u ∈ alistKeys g.vertex_dict → u ∉ alistKeys v2w →
      v ∈ alistKeys g.vertex_dict → v ∉ alistKeys v2w →
      ConnBy (A.map pairOf) u v) →
    A.length + (alistKeys v2w).length + 1 = (alistKeys g.vertex_dict).length →
    (∀ v ∈ alistKeys v2w, ∀ u, u ∈ alistKeys g.vertex_dict → u ∉ alistKeys v2w →
      ∀ w, nbrWeight g u v = some w → pnLe (keyOf v2w v) (.fin w)) →
    (∀ v ∈ alistKeys v2w, ∀ k : Int, alistLookup v2w v = some (.fin k) →
      ∃ u, u ∈ alistKeys g.vertex_dict ∧ u ∉ alistKeys v2w ∧ nbrWeight g u v = some k) →
    PromiseW g A →
    (alistKeys v2w).length + 1 ≤ fuel →
    ∃ Afin, primLoop g fuel v2w (.fin (treeWeight A)) = .ok (.fin (treeWeight Afin)) ∧
      SpanListW g Afin ∧ PromiseW g Afin := by
  intro fuel
  induction fuel with
  | zero =>
      intro v2w A _ _ _ _ _ _ _ _ _ hfuel
      omega
  | succ fuel ih =>
      intro v2w A hRnd hRV hSne hM2 hM3 hM4 hM6 hM7 hM8 hfuel
      cases v2w with
      | nil =>
          refine ⟨A, rfl, ⟨fun e he => (hM2 e he).1, ?_, ?_⟩, hM8⟩
          · have h2 : (alistKeys ([] : List (VId × PyNum))).length = 0 := rfl
            omega
          · intro u hu v hv
            exact hM3 u v hu (List.not_mem_nil u) hv (List.not_mem_nil v)
      | cons p rest =>
          have hne : p :: rest ≠ [] := by simp
          rcases get_smallest_spec hne with ⟨vstar, hsm, hvstarR, hmin⟩
          have hvstarV : vstar ∈ alistKeys g.vertex_dict := hRV vstar hvstarR
          have hp1R : p.1 ∈ alistKeys (p :: rest) :=
            List.mem_map.mpr ⟨p, List.mem_cons_self _ _, rfl⟩
          rcases hSne with ⟨s0, hs0V, hs0R⟩
          rcases rtg_cross (C := fun z => z ∈ alistKeys g.vertex_dict ∧
              z ∉ alistKeys (p :: rest))
              (hcw.2 s0 hs0V p.1 (hRV p.1 hp1R)) ⟨hs0V, hs0R⟩
              (by
                intro hcon
                exact hcon.2 hp1R) with ⟨x, y, hCx, hCy, hadj⟩
          rcases hadj with ⟨w0, hw0⟩
          have hyV : y ∈ alistKeys g.vertex_dict := (nbrWeight_keys hclw hw0).2
          have hyR : y ∈ alistKeys (p :: rest) := by
            by_contra hyR
            exact hCy ⟨hyV, hyR⟩
          have hylow : pnLe (keyOf (p :: rest) y) (.fin w0) :=
            hM6 y hyR x hCx.1 hCx.2 w0 hw0
          have hvslow : pnLe (keyOf (p :: rest) vstar) (keyOf (p :: rest) y) :=
            hmin y hyR
          have hfin : ∃ k : Int, keyOf (p :: rest) vstar = .fin k := by
            rcases hkv : keyOf (p :: rest) vstar with k | _
            · exact ⟨k, rfl⟩
            · rw [hkv] at hvslow
              have h2 := pnLe_inf_eq hvslow
              rw [h2] at hylow
              simp [pnLe, PyNum.lt] at hylow
          rcases hfin with ⟨k, hkv⟩
          have hlook : alistLookup (p :: rest) vstar = some (.fin k) := by
            rcases lookup_isSome_of_mem_keys hvstarR with ⟨val, hval⟩
            unfold keyOf at hkv
            rw [hval] at hkv
            simp only [Option.getD_some] at hkv
            rw [hval, hkv]
          rcases hM7 vstar hvstarR k hlook with ⟨ustar, hustarV, hustarS, hwstar⟩
          rcases lookup_isSome_of_mem_keys hvstarV with ⟨nbrs, hnbrs⟩
          have h0 : primLoop g (fuel + 1) (p :: rest) (.fin (treeWeight A)) =
              (get_smallest_vetext (p :: rest)).bind (fun smallest =>
                match alistLookup g.vertex_dict smallest with
                | none => .error .keyError
                | some nbrs2 =>
                    primLoop g fuel (primRelax (alistErase (p :: rest) smallest) nbrs2)
                      ((PyNum.fin (treeWeight A)).add
                        ((alistLookup (p :: rest) smallest).getD .inf))) := by
            simp only [primLoop]
            rfl
          have h1 : primLoop g (fuel + 1) (p :: rest) (.fin (treeWeight A)) =
              primLoop g fuel (primRelax (alistErase (p :: rest) vstar) nbrs)
                (.fin (treeWeight (A ++ [(ustar, vstar, k)]))) := by
            rw [h0, hsm]
            show (match alistLookup g.vertex_dict vstar with
              | none => (.error .keyError : Except PyErr PyNum)
              | some nbrs2 =>
                  primLoop g fuel (primRelax (alistErase (p :: rest) vstar) nbrs2)
                    ((PyNum.fin (treeWeight A)).add
                      ((alistLookup (p :: rest) vstar).getD .inf))) = _
            rw [hnbrs, hlook]
            show primLoop g fuel (primRelax (alistErase (p :: rest) vstar) nbrs)
                (.fin (treeWeight A + k)) = _
            rw [treeWeight_append_single]
          have hkeys' : alistKeys (primRelax (alistErase (p :: rest) vstar) nbrs)
              = (alistKeys (p :: rest)).erase vstar := by
            rw [primRelax_keys, alistErase_keys]
          have hmem' : ∀ z, z ∈ (alistKeys (p :: rest)).erase vstar ↔
              (z ≠ vstar ∧ z ∈ alistKeys (p :: rest)) :=
            fun z => List.Nodup.mem_erase_iff hRnd
          have hnotmem' : ∀ z, z ∉ (alistKeys (p :: rest)).erase vstar ↔
              (z = vstar ∨ z ∉ alistKeys (p :: rest)) := by
            intro z
            rw [hmem' z]
            by_cases h2 : z = vstar
            · simp [h2]
            · simp [h2]
          have hvstar_not' : vstar ∉ (alistKeys (p :: rest)).erase vstar :=
            (hnotmem' vstar).mpr (Or.inl rfl)
          have hApairsub : ∀ q ∈ A.map pairOf,
              q ∈ (A ++ [(ustar, vstar, k)]).map pairOf := by
            intro q hq
            rcases List.mem_map.mp hq with ⟨t, ht, htq⟩
            exact List.mem_map.mpr ⟨t, List.mem_append.mpr (Or.inl ht), htq⟩
          have hepair : (ustar, vstar) ∈ (A ++ [(ustar, vstar, k)]).map pairOf :=
            List.mem_map.mpr ⟨(ustar, vstar, k),
              List.mem_append.mpr (Or.inr (List.mem_singleton.mpr rfl)), rfl⟩
          have huv : ConnBy ((A ++ [(ustar, vstar, k)]).map pairOf) ustar vstar :=
            Relation.ReflTransGen.single (Or.inl hepair)
          have hstay : ∀ z, ConnBy (A.map pairOf) ustar z →
              z ∉ alistKeys (p :: rest) := by
            intro z hz
            induction hz with
            | refl => exact hustarS
            | @tail mid lastv hcz hstepz ihz =>
                rcases hstepz with hm | hm
                · rcases List.mem_map.mp hm with ⟨t, htA, htp⟩
                  have h2 := (hM2 t htA).2.2.2
                  have hl2 : t.2.1 = lastv := congrArg Prod.snd htp
                  rw [← hl2]
                  exact h2
                · rcases List.mem_map.mp hm with ⟨t, htA, htp⟩
                  have h2 := (hM2 t htA).2.1.2
                  have hl2 : t.1 = lastv := congrArg Prod.fst htp
                  rw [← hl2]
                  exact h2
          have hnc : ¬ ConnBy (A.map pairOf) ustar vstar := by
            intro hcn
            exact (hstay vstar hcn) hvstarR
          have hminP : ∀ xx yy wf, nbrWeight g xx yy = some wf →
              ConnBy (A.map pairOf) ustar xx → ¬ ConnBy (A.map pairOf) ustar yy →
              k ≤ wf := by
            intro xx yy wf hwf hcx2 hcy2
            have hxxV : xx ∈ alistKeys g.vertex_dict := (nbrWeight_keys hclw hwf).1
            have hyyV : yy ∈ alistKeys g.vertex_dict := (nbrWeight_keys hclw hwf).2
            have hxxS : xx ∉ alistKeys (p :: rest) := hstay xx hcx2
            by_cases hyyR : yy ∈ alistKeys (p :: rest)
            · have h5 : pnLe (keyOf (p :: rest) yy) (.fin wf) :=
                hM6 yy hyyR xx hxxV hxxS wf hwf
              have h6 : pnLe (keyOf (p :: rest) vstar) (keyOf (p :: rest) yy) :=
                hmin yy hyyR
              have h7 : pnLe (.fin k) (.fin wf) := by
                rw [← hkv]
                exact pnLe_trans h6 h5
              exact pnLe_fin_fin.mp h7
            · exact absurd (hM3 ustar yy hustarV hustarS hyyV hyyR) hcy2
          have hpr' : PromiseW g (A ++ [(ustar, vstar, k)]) :=
            promise_extend hclw hsym hM8 hnc hwstar hminP
          have hnbrs_nd : (alistKeys nbrs).Nodup := hvnd (vstar, nbrs) (mem_of_lookup hnbrs)
          rcases ih (primRelax (alistErase ((p :: rest)) vstar) nbrs)
            (A ++ [(ustar, vstar, k)])
            (by
              rw [hkeys']
              exact hRnd.erase _)
            (by
              rw [hkeys']
              intro v hv
              exact hRV v (List.erase_subset _ _ hv))
            ⟨vstar, hvstarV, by rw [hkeys']; exact hvstar_not'⟩
            (by
              intro e he
              rcases List.mem_append.mp he with hA | hsing
              · rcases hM2 e hA with ⟨h2, ⟨h3, h4⟩, ⟨h5, h6⟩⟩
                exact ⟨h2, ⟨h3, by rw [hkeys']; exact (hnotmem' _).mpr (Or.inr h4)⟩,
                  ⟨h5, by rw [hkeys']; exact (hnotmem' _).mpr (Or.inr h6)⟩⟩
              · rw [List.mem_singleton.mp hsing]
                exact ⟨hwstar,
                  ⟨hustarV, by rw [hkeys']; exact (hnotmem' _).mpr (Or.inr hustarS)⟩,
                  ⟨hvstarV, by rw [hkeys']; exact hvstar_not'⟩⟩)
            (by
              intro u v huV hu hvV hv
              rw [hkeys'] at hu hv
              rcases (hnotmem' u).mp hu with hueq | huS
              · rcases (hnotmem' v).mp hv with hveq | hvS
                · rw [hueq, hveq]
                  exact Relation.ReflTransGen.refl
                · rw [hueq]
                  exact (ConnBy_symm huv).trans
                    (ConnBy_mono hApairsub (hM3 ustar v hustarV hustarS hvV hvS))
              · rcases (hnotmem' v).mp hv with hveq | hvS
                · rw [hveq]
                  exact (ConnBy_mono hApairsub (hM3 u ustar huV huS hustarV hustarS)).trans
                    huv
                · exact ConnBy_mono hApairsub (hM3 u v huV huS hvV hvS))
            (by
              rw [hkeys', List.length_erase_of_mem hvstarR]
              have h2 := List.length_pos_of_mem hvstarR
              simp only [List.length_append, List.length_singleton]
              omega)
            (by
              intro v hv u2 hu2V hu2 w2 hw2
              rw [hkeys'] at hv hu2
              have hvR : v ∈ alistKeys (p :: rest) := ((hmem' v).mp hv).2
              have hvne : v ≠ vstar := ((hmem' v).mp hv).1
              rcases (hnotmem' u2).mp hu2 with hu2eq | hu2S
              · rw [hu2eq] at hw2
                have hlkn : alistLookup nbrs v = some w2 := by
                  unfold nbrWeight at hw2
                  rw [hnbrs] at hw2
                  simpa using hw2
                have hmemnb : (v, w2) ∈ nbrs := mem_of_lookup hlkn
                have hvkeys : v ∈ alistKeys (alistErase (p :: rest) vstar) := by
                  rw [alistErase_keys]
                  exact hv
                exact primRelax_dom nbrs _ v w2 hmemnb hvkeys
              · have h5 : pnLe (keyOf (p :: rest) v) (.fin w2) :=
                  hM6 v hvR u2 hu2V hu2S w2 hw2
                have h6 : keyOf (alistErase (p :: rest) vstar) v = keyOf (p :: rest) v := by
                  simp [keyOf, alistErase_lookup_ne (p :: rest) vstar hvne]
                have h7 := primRelax_le nbrs (alistErase (p :: rest) vstar) v
                rw [h6] at h7
                exact pnLe_trans h7 h5)
            (by
              intro v hv k2 hlk2
              rw [hkeys'] at hv
              have hvR : v ∈ alistKeys (p :: rest) := ((hmem' v).mp hv).2
              have hvne : v ≠ vstar := ((hmem' v).mp hv).1
              rcases primRelax_src nbrs _ v k2 hlk2 with hold | hnew
              · rw [alistErase_lookup_ne (p :: rest) vstar hvne] at hold
                rcases hM7 v hvR k2 hold with ⟨u2, hu2V, hu2S, hw2⟩
                exact ⟨u2, hu2V,
                  by rw [hkeys']; exact (hnotmem' _).mpr (Or.inr hu2S), hw2⟩
              · have hlkn : alistLookup nbrs v = some k2 := lookup_of_mem_wf hnbrs_nd hnew
                have hwn : nbrWeight g vstar v = some k2 := by
                  simp [nbrWeight, hnbrs, hlkn]
                exact ⟨vstar, hvstarV, by rw [hkeys']; exact hvstar_not', hwn⟩)
            hpr'
            (by
              rw [hkeys', List.length_erase_of_mem hvstarR]
              have h2 := List.length_pos_of_mem hvstarR
              omega)
            with ⟨Afin, hA1, hA2, hA3⟩
          refine ⟨Afin, ?_, hA2, hA3⟩
          rw [h1]
          exact hA1

theorem mapinf_keys {α : Type} (l : List (VId × α)) :
    alistKeys (l.map (fun p => (p.1, PyNum.inf))) = alistKeys l := by
  induction l with
  | nil => rfl
  | cons p rest ih =>
      simp only [alistKeys, List.map_cons] at ih ⊢
      rw [ih]

theorem prim_spec {g : WeightedGraph}
    (hnd : (alistKeys g.vertex_dict).Nodup)
    (hvnd : ∀ p ∈ g.vertex_dict, (alistKeys p.2).Nodup)
    (hclw : ClosedW g) (hsym : Symm g) (hcw : ConnectedW g) :
    ∃ Afin, minimum_spanning_tree_prim g = .ok (.fin (treeWeight Afin)) ∧
      SpanListW g Afin ∧ PromiseW g Afin := by
  have hkne : alistKeys g.vertex_dict ≠ [] := by
    rcases List.exists_cons_of_ne_nil hcw.1 with ⟨p, t, hp⟩
    rw [hp]
    simp [alistKeys]
  rcases List.exists_cons_of_ne_nil hkne with ⟨k0, tk, hk⟩
  have hk0V : k0 ∈ alistKeys g.vertex_dict := by
    rw [hk]
    exact List.mem_cons_self _ _
  have hk0im : k0 ∈ alistKeys (g.vertex_dict.map (fun p => (p.1, PyNum.inf))) := by
    rw [mapinf_keys]
    exact hk0V
  have hkeys0 : alistKeys (alistSet (g.vertex_dict.map (fun p => (p.1, PyNum.inf)))
      k0 (.fin 0)) = alistKeys g.vertex_dict := by
    rw [alistSet_keys_of_mem hk0im, mapinf_keys]
  have hmatch : minimum_spanning_tree_prim g =
      primLoop g
        ((alistSet (g.vertex_dict.map (fun p => (p.1, PyNum.inf))) k0 (.fin 0)).length + 1)
        (alistSet (g.vertex_dict.map (fun p => (p.1, PyNum.inf))) k0 (.fin 0))
        (.fin 0) := by
    unfold minimum_spanning_tree_prim
    rw [hk]
  have hlook0 : alistLookup (alistSet (g.vertex_dict.map (fun p => (p.1, PyNum.inf)))
      k0 (.fin 0)) k0 = some (.fin 0) := alistSet_lookup_self _ _ _
  have hlookne : ∀ z, z ≠ k0 → z ∈ alistKeys g.vertex_dict →
      alistLookup (alistSet (g.vertex_dict.map (fun p => (p.1, PyNum.inf)))
        k0 (.fin 0)) z = some PyNum.inf := by
    intro z hz hzV
    rw [alistSet_lookup_ne _ _ _ hz, initMap_lookup]
    rcases lookup_isSome_of_mem_keys hzV with ⟨val, hval⟩
    rw [hval]
    rfl
  have hv2w0nd : (alistKeys (alistSet (g.vertex_dict.map (fun p => (p.1, PyNum.inf)))
      k0 (.fin 0))).Nodup := by
    rw [hkeys0]
    exact hnd
  have hv2w0ne : alistSet (g.vertex_dict.map (fun p => (p.1, PyNum.inf)))
      k0 (.fin 0) ≠ [] := by
    intro hz
    have := congrArg alistKeys hz
    rw [hkeys0] at this
    exact hkne this
  rcases get_smallest_spec hv2w0ne with ⟨r, hsm, hrR, hrmin⟩
  have hrk0 : r = k0 := by
    by_contra hrne
    have hrV : r ∈ alistKeys g.vertex_dict := by
      rw [← hkeys0]
      exact hrR
    have h1 := hrmin k0 (by rw [hkeys0]; exact hk0V)
    have h2 : keyOf (alistSet (g.vertex_dict.map (fun p => (p.1, PyNum.inf)))
        k0 (.fin 0)) r = PyNum.inf := by
      unfold keyOf
      rw [hlookne r hrne hrV]
      rfl
    have h3 : keyOf (alistSet (g.vertex_dict.map (fun p => (p.1, PyNum.inf)))
        k0 (.fin 0)) k0 = .fin 0 := by
      unfold keyOf
      rw [hlook0]
      rfl
    rw [h2, h3] at h1
    have h4 := pnLe_inf_eq h1
    cases h4
  rw [hrk0] at hsm
  rcases lookup_isSome_of_mem_keys hk0V with ⟨nbrs0, hnbrs0⟩
  have h0 : primLoop g
      ((alistSet (g.vertex_dict.map (fun p => (p.1, PyNum.inf))) k0 (.fin 0)).length + 1)
      (alistSet (g.vertex_dict.map (fun p => (p.1, PyNum.inf))) k0 (.fin 0))
      (.fin 0) =
      primLoop g
        ((alistSet (g.vertex_dict.map (fun p => (p.1, PyNum.inf))) k0 (.fin 0)).length)
        (primRelax (alistErase (alistSet (g.vertex_dict.map (fun p => (p.1, PyNum.inf)))
          k0 (.fin 0)) k0) nbrs0)
        (.fin 0) := by
    rcases hv : alistSet (g.vertex_dict.map (fun p => (p.1, PyNum.inf))) k0 (.fin 0) with
      _ | ⟨q, qrest⟩
    · exact absurd hv hv2w0ne
    · have hsm' := hsm
      have hlk' := hlook0
      rw [hv] at hsm' hlk' ⊢
      have h2 : primLoop g ((q :: qrest).length + 1) (q :: qrest) (.fin 0) =
          (get_smallest_vetext (q :: qrest)).bind (fun smallest =>
            match alistLookup g.vertex_dict smallest with
            | none => .error .keyError
            | some nbrs2 =>
                primLoop g ((q :: qrest).length)
                  (primRelax (alistErase (q :: qrest) smallest) nbrs2)
                  ((PyNum.fin 0).add ((alistLookup (q :: qrest) smallest).getD .inf))) := by
        simp only [primLoop]
        rfl
      rw [h2, hsm']
      show (match alistLookup g.vertex_dict k0 with
        | none => (.error .keyError : Except PyErr PyNum)
        | some nbrs2 =>
            primLoop g ((q :: qrest).length)
              (primRelax (alistErase (q :: qrest) k0) nbrs2)
              ((PyNum.fin 0).add ((alistLookup (q :: qrest) k0).getD .inf))) = _
      rw [hnbrs0, hlk']
      rfl
  have hkeys1 : alistKeys (primRelax (alistErase
      (alistSet (g.vertex_dict.map (fun p => (p.1, PyNum.inf))) k0 (.fin 0)) k0) nbrs0)
      = (alistKeys g.vertex_dict).erase k0 := by
    rw [primRelax_keys, alistErase_keys, hkeys0]
  have hmemq : ∀ z, z ∈ (alistKeys g.vertex_dict).erase k0 ↔
      (z ≠ k0 ∧ z ∈ alistKeys g.vertex_dict) := fun z => List.Nodup.mem_erase_iff hnd
  have honlyk0 : ∀ z, z ∈ alistKeys g.vertex_dict →
      z ∉ (alistKeys g.vertex_dict).erase k0 → z = k0 := by
    intro z hzV hz
    by_contra hzne
    exact hz ((hmemq z).mpr ⟨hzne, hzV⟩)
  have hk0not1 : k0 ∉ (alistKeys g.vertex_dict).erase k0 := by
    intro hc
    exact ((hmemq k0).mp hc).1 rfl
  have hklen : ((alistKeys g.vertex_dict).erase k0).length + 1
      = (alistKeys g.vertex_dict).length := by
    rw [List.length_erase_of_mem hk0V]
    have := List.length_pos_of_mem hk0V
    omega
  have hv2w0len : (alistSet (g.vertex_dict.map (fun p => (p.1, PyNum.inf)))
      k0 (.fin 0)).length = (alistKeys g.vertex_dict).length := by
    have h2 := congrArg List.length hkeys0
    simpa [alistKeys] using h2
  rcases primLoop_spec hnd hvnd hclw hsym hcw
    ((alistSet (g.vertex_dict.map (fun p => (p.1, PyNum.inf))) k0 (.fin 0)).length)
    (primRelax (alistErase
      (alistSet (g.vertex_dict.map (fun p => (p.1, PyNum.inf))) k0 (.fin 0)) k0) nbrs0)
    []
    (by
      rw [hkeys1]
      exact hnd.erase _)
    (by
      rw [hkeys1]
      intro v hv
      exact List.erase_subset _ _ hv)
    ⟨k0, hk0V, by rw [hkeys1]; exact hk0not1⟩
    (by simp)
    (by
      intro u v huV hu hvV hv
      rw [hkeys1] at hu hv
      rw [honlyk0 u huV hu, honlyk0 v hvV hv]
      exact Relation.ReflTransGen.refl)
    (by
      rw [hkeys1]
      simp only [List.length_nil]
      omega)
    (by
      intro v hv u huV hu w hw
      rw [hkeys1] at hv hu
      have hueq : u = k0 := honlyk0 u huV hu
      rw [hueq] at hw
      have hlkn : alistLookup nbrs0 v = some w := by
        unfold nbrWeight at hw
        rw [hnbrs0] at hw
        simpa using hw
      have hmemnb : (v, w) ∈ nbrs0 := mem_of_lookup hlkn
      have hvkeys : v ∈ alistKeys (alistErase
          (alistSet (g.vertex_dict.map (fun p => (p.1, PyNum.inf))) k0 (.fin 0)) k0) := by
        rw [alistErase_keys, hkeys0]
        exact hv
      exact primRelax_dom nbrs0 _ v w hmemnb hvkeys)
    (by
      intro v hv k2 hlk2
      rw [hkeys1] at hv
      have hvne : v ≠ k0 := ((hmemq v).mp hv).1
      have hvV : v ∈ alistKeys g.vertex_dict := ((hmemq v).mp hv).2
      rcases primRelax_src nbrs0 _ v k2 hlk2 with hold | hnew
      · rw [alistErase_lookup_ne _ _ hvne] at hold
        rw [hlookne v hvne hvV] at hold
        cases hold
      · have hnbrs0_nd : (alistKeys nbrs0).Nodup := hvnd (k0, nbrs0) (mem_of_lookup hnbrs0)
        have hlkn : alistLookup nbrs0 v = some k2 := lookup_of_mem_wf hnbrs0_nd hnew
        have hwn : nbrWeight g k0 v = some k2 := by
          simp [nbrWeight, hnbrs0, hlkn]
        exact ⟨k0, hk0V, by rw [hkeys1]; exact hk0not1, hwn⟩)
    (promise_nil g)
    (by
      rw [hkeys1, hv2w0len]
      omega)
    with ⟨Afin, hA1, hA2, hA3⟩
  refine ⟨Afin, ?_, hA2, hA3⟩
  rw [hmatch, h0]
  exact hA1

theorem kruskal_spec {g : WeightedGraph}
    (hnd : (alistKeys g.vertex_dict).Nodup)
    (hvnd : ∀ p ∈ g.vertex_dict, (alistKeys p.2).Nodup)
    (hclw : ClosedW g) (hsym : Symm g) (hcw : ConnectedW g) :
    ∃ Aout, minimum_spanning_tree_kruskal g = .ok Aout ∧
      Aout.length = (alistKeys g.vertex_dict).length - 1 ∧ PromiseW g Aout := by
  have hfilter : (g.vertex_dict.map (fun p => (p.1, p.1))).filter
      (fun p => p.1 == p.2) = g.vertex_dict.map (fun p => (p.1, p.1)) := by
    rw [List.filter_eq_self]
    intro a ha
    rcases List.mem_map.mp ha with ⟨q, hq, hqa⟩
    rw [← hqa]
    simp
  have hroot0 : rootSet (g.vertex_dict.map (fun p => (p.1, p.1)))
      = (alistKeys g.vertex_dict).toFinset := by
    unfold rootSet
    rw [hfilter]
    rw [show (g.vertex_dict.map (fun p => (p.1, p.1))).map Prod.fst
        = alistKeys g.vertex_dict from diag_keys g.vertex_dict]
  rcases kruskalLoop_spec hnd hvnd hclw hsym hcw
    ((sortEdges (collectEdges g.vertex_dict)).length + 1)
    (sortEdges (collectEdges g.vertex_dict))
    (g.vertex_dict.map (fun p => (p.1, p.1))) []
    (fun t ht => Or.inr (sortEdges_mem.mpr ht))
    (sortEdges_sorted _)
    (fun t ht => sortEdges_mem.mp ht)
    (by simp)
    (promise_nil g)
    (diag_keys g.vertex_dict)
    (fun x hx => ⟨x, 0, RootD.self (diag_lookup_mem hx)⟩)
    (by
      intro x p hxp
      rw [diag_lookup_eq hxp]
      exact Relation.ReflTransGen.refl)
    (by simp)
    (by
      rw [hroot0]
      rw [List.toFinset_card_of_nodup hnd]
      simp)
    (le_refl _)
    with ⟨Aout, h1, h2, h3⟩
  exact ⟨Aout, h1, h2, h3⟩

end WeightedGraph

open WeightedGraph in
/-- C3: for every connected undirected WeightedGraph — duplicate-free vertex
and neighbor keys, every stored neighbor id registered, symmetric neighbor
maps, and every two vertices joined by stored edges — `minimum_spanning_tree_kruskal()`
returns an edge list whose weight sum is exactly the total weight that
`minimum_spanning_tree_prim()` returns: the two algorithms agree on the
total MST weight. -/
theorem C3_kruskal_prim_equal_weight (g : WeightedGraph)
    (hwfw : WFW g) (hsym : Symm g) (hcw : ConnectedW g) :
    ∃ t, g.minimum_spanning_tree_kruskal = .ok t ∧
      g.minimum_spanning_tree_prim = .ok (.fin (treeWeight t)) := by
  rcases hwfw with ⟨hnd, hvnd, hclw⟩
  rcases kruskal_spec hnd hvnd hclw hsym hcw with ⟨Ak, hk1, hk2, hk3⟩
  rcases prim_spec hnd hvnd hclw hsym hcw with ⟨Ap, hp1, hp2, hp3⟩
  rcases promise_final hk3 hk2 hp2 with ⟨hkspan, hkle⟩
  rcases promise_final hp3 hp2.2.1 hkspan with ⟨_, hple⟩
  have heq : treeWeight Ak = treeWeight Ap := le_antisymm hkle hple
  refine ⟨Ak, hk1, ?_⟩
  rw [heq]
  exact hp1

open WeightedGraph in
/-- C3 witness: on the specification's 4-vertex example graph with edges
(A, B, 1), (B, C, 2), (C, D, 3), (A, D, 4), Kruskal returns the edge list
[(A, B, 1), (B, C, 2), (C, D, 3)], its weight sum is 6, and Prim returns
the matching total 6. -/
theorem C3_kruskal_prim_equal_weight_witness :
    mstExample.minimum_spanning_tree_kruskal
      = .ok [(0, 1, 1), (1, 2, 2), (2, 3, 3)] ∧
    treeWeight [(0, 1, 1), (1, 2, 2), (2, 3, 3)] = 6 ∧
    mstExample.minimum_spanning_tree_prim = .ok (.fin 6) := by
  obtain ⟨t, hk, hp⟩ := C3_kruskal_prim_equal_weight mstExample
    (by
      refine ⟨?_, ?_, ?_⟩
      · decide
      · decide
      · unfold WeightedGraph.ClosedW
        decide)
    ((Built.closed_symm mstExample_built).2 rfl)
    mstExample_connected
  have hk0 : mstExample.minimum_spanning_tree_kruskal
      = .ok [(0, 1, 1), (1, 2, 2), (2, 3, 3)] := rfl
  have ht : t = [(0, 1, 1), (1, 2, 2), (2, 3, 3)] := by
    rw [hk0] at hk
    injection hk with h
    exact h.symm
  rw [ht] at hp
  exact ⟨hk0, rfl, hp⟩

end GraphADT
